import Mathlib

/-!
# Symbolic calculator: tokens, validator, shunting-yard, expression trees

A shallow embedding of `Token.h`, `TokenStream.cpp`, `Calc.cpp` and `AST.cpp`.

Conventions of the embedding:

* a `vector<Token>` is a `List Token`; an index loop over it is a recursion on
  the remaining suffix;
* a `Node *` is a value of `Node`, the null pointer being `Node.null`;
* a function whose C++ body can leave defined behaviour (reading past the end
  of a vector, popping an empty stack, dereferencing a null pointer, signed
  overflow, a zero divisor) or can throw (`stoi`) returns an `Option`, and
  `none` stands for "no result";
* `int` is a 32-bit two's complement integer.
-/

namespace Calc

/-! ## Token.h -/

/-- The enum `TokenType`, in declaration order. -/
inductive TokenType where
  | binop
  | variable
  | number
  | lparen
  | rparen
  | unknown
  | powop
  | assignop
  | invalid
  | ending
  | eol
  deriving DecidableEq, Repr

/-- The integer value of an enumerator (its position in the declaration). -/
def TokenType.toInt : TokenType → Int
  | .binop => 0
  | .variable => 1
  | .number => 2
  | .lparen => 3
  | .rparen => 4
  | .unknown => 5
  | .powop => 6
  | .assignop => 7
  | .invalid => 8
  | .ending => 9
  | .eol => 10

/-- The struct `Token`: a type and its literal text. -/
structure Token where
  type_ : TokenType
  value_ : String
  deriving DecidableEq, Repr

open TokenType

/-! ## TokenStream.cpp: the tokens the tokenizer builds, and the tokenizer -/

/-- Token `Token(powop, "^")`. -/
def powToken : Token := ⟨powop, "^"⟩

/-- Token `Token(lparen, "(")`. -/
def lparenToken : Token := ⟨lparen, "("⟩

/-- Token `Token(rparen, ")")`. -/
def rparenToken : Token := ⟨rparen, ")"⟩

/-- Token `Token(assignop, ":=")`. -/
def assignToken : Token := ⟨assignop, ":="⟩

/-- Token `Token(eol, "\n")`. -/
def eolToken : Token := ⟨eol, "\n"⟩

/-- Token `Token(number, value)`. -/
def numberToken (value : String) : Token := ⟨number, value⟩

/-- Token `Token(variable, var)`. -/
def variableToken (var : String) : Token := ⟨.variable, var⟩

/-- Source `TokenStream::operator>>` on the characters that remain in the
stream: the token read and the characters left. `is_.get(c)` on an exhausted
stream leaves the local `c` without a value, so there is no result. The
characters are ASCII; `case 40` and `case 41` are the two parentheses. -/
def nextToken : List Char → Option (Token × List Char)
  | [] => none
  | c :: rest =>
    if c = '.' then some (⟨ending, "."⟩, rest)
    else if c.toNat = 40 then some (lparenToken, rest)
    else if c.toNat = 41 then some (rparenToken, rest)
    else if c = '+' then some (⟨binop, "+"⟩, rest)
    else if c = '-' then some (⟨binop, "-"⟩, rest)
    else if c = '/' then some (⟨binop, "/"⟩, rest)
    else if c = '*' then some (⟨binop, "*"⟩, rest)
    else if c = '^' then some (powToken, rest)
    else if c = ':' then
      match rest with
      | '=' :: rest1 => some (assignToken, rest1)
      | _ => some (⟨invalid, "invalid"⟩, rest)
    else if c.isDigit then
      some (⟨number, String.mk (c :: rest.takeWhile Char.isDigit)⟩, rest.dropWhile Char.isDigit)
    else if c.isAlpha then some (⟨.variable, String.singleton c.toLower⟩, rest)
    else if c = '\n' then some (eolToken, rest)
    else some (⟨invalid, "invalid"⟩, rest)

/-! ## Calc.cpp: the validator -/

/-- Source `Calc::isValidToken`: false at the first token of type `invalid`. -/
def isValidToken : List Token → Bool
  | [] => true
  | t :: rest => if t.type_ = invalid then false else isValidToken rest

/-- Source `Calc::isValidFirstToken`: the loop body returns in its first iteration, on
`infix[0]`; on an empty vector the loop is skipped and the result is true. -/
def isValidFirstToken : List Token → Bool
  | [] => true
  | t :: _ =>
    if t.type_ = .variable ∨ t.type_ = number ∨ t.type_ = lparen then true else false

/-- Source `Calc::isValidLastToken`: reads `infix[infix.size() - 1]`, which is outside
the vector when it is empty. -/
def isValidLastToken (toks : List Token) : Option Bool :=
  match toks.getLast? with
  | none => none
  | some t => some (if t.type_ = eol then true else false)

/-- Source `Calc::isValidSize`. -/
def isValidSize (toks : List Token) : Bool :=
  if toks.length > 80 then false else true

/-- Source `Calc::isValidBinop`: the guard `i + 1 <= infix.size()` always holds, so the
token after the first `binop` is read even when it is past the end; both
branches on that token return. -/
def isValidBinop : List Token → Option Bool
  | [] => some true
  | t :: rest =>
    if t.type_ = binop then
      match rest with
      | [] => none
      | n :: _ =>
        some (if n.type_ = .variable ∨ n.type_ = number ∨ n.type_ = lparen then true else false)
    else isValidBinop rest

/-- Source `Calc::isValidVariable` (declared and defined, never called by `isValid`). -/
def isValidVariable : List Token → Option Bool
  | [] => some true
  | t :: rest =>
    if t.type_ = .variable then
      match rest with
      | [] => none
      | n :: _ =>
        some (if n.type_ = binop ∨ n.type_ = rparen ∨ n.type_ = powop ∨ n.type_ = assignop
                ∨ n.type_ = eol then true else false)
    else isValidVariable rest

/-- Source `Calc::isValidRParen`. -/
def isValidRParen : List Token → Option Bool
  | [] => some true
  | t :: rest =>
    if t.type_ = rparen then
      match rest with
      | [] => none
      | n :: _ =>
        some (if n.type_ = binop ∨ n.type_ = rparen ∨ n.type_ = powop ∨ n.type_ = eol
              then true else false)
    else isValidRParen rest

/-- Source `Calc::isValidNumber`. -/
def isValidNumber : List Token → Option Bool
  | [] => some true
  | t :: rest =>
    if t.type_ = number then
      match rest with
      | [] => none
      | n :: _ =>
        some (if n.type_ = binop ∨ n.type_ = rparen ∨ n.type_ = powop ∨ n.type_ = eol
              then true else false)
    else isValidNumber rest

/-- First loop of `Calc::isValidPowHelper`:
`for (int j = lparen + 1; j <= infix.size(); j++) if (infix[j].type_ == rparen) j = rparen;`
where `rparen` is the local `int rparen;`, which shadows the enumerator and is
never initialised: its value `rp` is a parameter. The loop reads `infix[j]`
at `j = infix.size()`, past the end. `fuel` bounds the number of iterations. -/
def isValidPowHelperScan (toks : List Token) (rp : Int) : Nat → Nat → Option Unit
  | 0, _ => none
  | fuel + 1, j =>
    if j ≤ toks.length then
      match toks.get? j with
      | none => none
      | some t =>
        if t.type_.toInt = rp then isValidPowHelperScan toks rp fuel (rp.toNat + 1)
        else isValidPowHelperScan toks rp fuel (j + 1)
    else some ()

/-- Second loop of `Calc::isValidPowHelper`:
`for (int j = lparen + 1; j <= rparen; j++) if (infix[j].type_ == variable) return false;`
run over the suffix of the vector that starts at index `j`. -/
def isValidPowHelperCheck (rp : Int) : List Token → Nat → Option Bool
  | [], j => if (j : Int) ≤ rp then none else some true
  | t :: rest, j =>
    if (j : Int) ≤ rp then
      if t.type_ = .variable then some false else isValidPowHelperCheck rp rest (j + 1)
    else some true

/-- Source `Calc::isValidPowHelper`, with the indeterminate initial value `rp` of
the local `rparen`. An iteration of the first loop either advances `j` or
resets it to `rp + 1`, and a second reset repeats the first one for ever, so
`2 * size + 4` iterations tell a terminating run from a diverging one. -/
def isValidPowHelper (rp : Int) (toks : List Token) (lparen : Nat) : Option Bool :=
  match isValidPowHelperScan toks rp (2 * toks.length + 4) (lparen + 1) with
  | none => none
  | some _ => isValidPowHelperCheck rp (toks.drop (lparen + 1)) (lparen + 1)

/-- Loop of `Calc::isValidPowop` from index `i` on, `rest` being the tokens from
index `i`; `whole` is the full vector, handed to `isValidPowHelper`. -/
def isValidPowopLoop (rp : Int) (whole : List Token) : List Token → Nat → Option Bool
  | [], _ => some true
  | t :: rest, i =>
    if t.type_ = powop then
      match rest with
      | [] => none
      | n :: _ =>
        if n.type_ = number then some true
        else if n.type_ = lparen then isValidPowHelper rp whole (i + 1)
        else some false
    else isValidPowopLoop rp whole rest (i + 1)

/-- Source `Calc::isValidPowop`. -/
def isValidPowop (rp : Int) (toks : List Token) : Option Bool :=
  isValidPowopLoop rp toks toks 0

/-- Source `Calc::isValidAssignop`: here the guard is `i + 1 < infix.size()`, so an
`assignop` in last position is skipped and nothing is read past the end. -/
def isValidAssignop : List Token → Bool
  | [] => true
  | t :: rest =>
    match rest with
    | [] => true
    | n :: _ =>
      if t.type_ = assignop then
        (if n.type_ = number ∨ n.type_ = lparen ∨ n.type_ = .variable then true else false)
      else isValidAssignop rest

/-- Source `Calc::isValidEol`: returns true at an `eol` in last position; at an `eol`
elsewhere it only prints a message and goes on; after the loop it returns
true. -/
def isValidEol : List Token → Bool
  | [] => true
  | t :: rest =>
    if t.type_ = eol then
      (if rest = [] then true else isValidEol rest)
    else isValidEol rest

/-- Source `Calc::isValidLParen`. -/
def isValidLParen : List Token → Option Bool
  | [] => some true
  | t :: rest =>
    if t.type_ = lparen then
      match rest with
      | [] => none
      | n :: _ =>
        some (if n.type_ = number ∨ n.type_ = lparen ∨ n.type_ = .variable then true else false)
    else isValidLParen rest

/-- The short-circuit `&&` of C++ on results that may be absent: the right
operand is evaluated only when the left one is true. -/
def andThen (a : Option Bool) (b : Option Bool) : Option Bool :=
  match a with
  | none => none
  | some false => some false
  | some true => b

/-- Source `Calc::isValid`: the conjunction of the checks, in the order of the source. -/
def isValid (rp : Int) (toks : List Token) : Option Bool :=
  andThen (some (isValidToken toks)) <|
  andThen (some (isValidFirstToken toks)) <|
  andThen (isValidLastToken toks) <|
  andThen (some (isValidSize toks)) <|
  andThen (isValidBinop toks) <|
  andThen (some (isValidAssignop toks)) <|
  andThen (some (isValidEol toks)) <|
  andThen (isValidLParen toks) <|
  andThen (isValidNumber toks) <|
  andThen (isValidPowop rp toks) <|
  isValidRParen toks

/-! ## Calc.cpp: infix to postfix -/

/-- Source `Calc::precedence`. -/
def precedence (t : Token) : Int :=
  if t.type_ = powop then 3
  else if t.value_ = "/" ∨ t.value_ = "*" then 2
  else if t.value_ = "+" ∨ t.value_ = "-" then 1
  else -1

/-- Source `Calc::isLeftParen`. -/
def isLeftParen (t : Token) : Bool :=
  if t.type_ = lparen then true else false

/-- Source `Calc::isRightParen`. -/
def isRightParen (t : Token) : Bool :=
  if t.type_ = rparen then true else false

/-- Source `Calc::isRightAssoc`. -/
def isRightAssoc (t : Token) : Bool :=
  if t.type_ = powop then true else false

/-- Source `Calc::hasPrecedence`. -/
def hasPrecedence (tok1 tok2 : Token) : Bool :=
  let t1 := precedence tok1
  let t2 := precedence tok2
  if t1 = t2 then
    (if isRightAssoc tok1 then false else true)
  else decide (t1 > t2)

/-- The loop of `convertPostfix` at an operator `t`:
`while (!s.empty() && !isLeftParen(s.top()) && hasPrecedence(s.top(), t))`,
moving the stack top to the output. The stack is a list, top first. -/
def popOperators (t : Token) : List Token → List Token → List Token × List Token
  | [], out => ([], out)
  | top :: s, out =>
    if !isLeftParen top && hasPrecedence top t then popOperators t s (out ++ [top])
    else (top :: s, out)

/-- The loop of `convertPostfix` at a right parenthesis:
`while (!s.empty() && !isLeftParen(s.top()))`, followed by `s.pop()`,
which has no defined result on an empty stack. -/
def popToLeftParen : List Token → List Token → Option (List Token × List Token)
  | [], _ => none
  | top :: s, out =>
    if !isLeftParen top then popToLeftParen s (out ++ [top])
    else some (s, out)

/-- The main loop of `Calc::convertPostfix` with operator stack `s` (top first)
and output `out`, followed by the final loop that moves what is left of the
stack to the output. -/
def convertPostfixLoop : List Token → List Token → List Token → Option (List Token)
  | [], s, out => some (out ++ s)
  | t :: rest, s, out =>
    if t.type_ = number ∨ t.type_ = .variable then
      convertPostfixLoop rest s (out ++ [t])
    else if t.type_ = binop ∨ t.type_ = powop then
      let r := popOperators t s out
      convertPostfixLoop rest (t :: r.1) r.2
    else if isLeftParen t then
      convertPostfixLoop rest (t :: s) out
    else if isRightParen t then
      match popToLeftParen s out with
      | none => none
      | some r => convertPostfixLoop rest r.1 r.2
    else convertPostfixLoop rest s out

/-- Source `Calc::convertPostfix`. -/
def convertPostfix (toks : List Token) : Option (List Token) :=
  convertPostfixLoop toks [] []

/-! ## AST.cpp -/

/-- A `Node *`: the null pointer, or a node with its token and its two child
pointers. -/
inductive Node where
  | null : Node
  | mk (token : Token) (left right : Node) : Node
  deriving DecidableEq, Repr

/-- Constructor `Node(Token t)`: a node without children. -/
def Node.leaf (t : Token) : Node := Node.mk t Node.null Node.null

/-- Source `AST::isOperator`. -/
def isOperator (t : Token) : Bool :=
  if t.type_ = binop then true else false

/-- Source `AST::isVariable`. -/
def isVariable (t : Token) : Bool :=
  if t.type_ = .variable then true else false

/-- Source `AST::isOperand`. -/
def isOperand (t : Token) : Bool :=
  if t.type_ = number ∨ t.type_ = .variable then true else false

/-- Source `AST::isPower`. -/
def isPower (t : Token) : Bool :=
  if t.type_ = powop then true else false

/-- Source `AST::copyTree`: dereferences its argument, so it has no result on the
null pointer; a null child is left null. -/
def copyTree : Node → Option Node
  | .null => none
  | .mk t l r =>
    match (match l with | .null => some Node.null | .mk _ _ _ => copyTree l) with
    | none => none
    | some newLeft =>
      match (match r with | .null => some Node.null | .mk _ _ _ => copyTree r) with
      | none => none
      | some newRight => some (.mk t newLeft newRight)

/-- The loop of `AST::constructTree` over the tokens that remain, with the node
stack (top first). At an operator the first node popped becomes the `left`
child and the second one the `right` child; `top` and `pop` have no defined
result on an empty stack. A token that is neither operator nor operand is
skipped. -/
def constructTreeLoop : List Token → List Node → Option (List Node)
  | [], stack => some stack
  | t :: rest, stack =>
    if isOperator t || isPower t then
      match stack with
      | left :: right :: stack1 => constructTreeLoop rest (Node.mk t left right :: stack1)
      | _ => none
    else if isOperand t then
      constructTreeLoop rest (Node.leaf t :: stack)
    else constructTreeLoop rest stack

/-- Source `AST::constructTree`: the root is the top of the stack after the loop. -/
def constructTree (pfx : List Token) : Option Node :=
  match constructTreeLoop pfx [] with
  | some (top :: _) => some top
  | _ => none

/-- Constant `INT_MIN` for a 32-bit `int`. -/
def INT_MIN : Int := -2147483648

/-- Constant `INT_MAX` for a 32-bit `int`. -/
def INT_MAX : Int := 2147483647

/-- The value as an `int`, when it is representable. An arithmetic result outside
the range of `int` is a signed overflow, which C++ leaves undefined (a build
may wrap it around); the model gives it no result. -/
def asInt (n : Int) : Option Int :=
  if INT_MIN ≤ n ∧ n ≤ INT_MAX then some n else none

/-- C `isspace` in the "C" locale. -/
def isspace (c : Char) : Bool :=
  c = ' ' || c = '\t' || c = '\n' || c = '\r' || c.toNat = 11 || c.toNat = 12

/-- The value of a run of decimal digits, most significant first. -/
def digitsValue (ds : List Char) : Nat :=
  ds.foldl (fun acc c => 10 * acc + (c.toNat - 48)) 0

/-- The optional sign that `std::stoi` reads in front of the digits: whether it
is a minus sign, and the characters after it. -/
def stoiSign : List Char → Bool × List Char
  | '-' :: r => (true, r)
  | '+' :: r => (false, r)
  | r => (false, r)

/-- Source `std::stoi(str)`: skips leading white space, reads an optional sign and the
longest run of decimal digits; throws `invalid_argument` when there is no
digit and `out_of_range` when the value is not an `int`. -/
def stoi (str : String) : Option Int :=
  let signed := stoiSign (str.toList.dropWhile isspace)
  let ds := signed.2.takeWhile Char.isDigit
  if ds = [] then none
  else asInt (if signed.1 then -(digitsValue ds : Int) else (digitsValue ds : Int))

/-- Source `std::to_string(int)`: the decimal text, with a leading `-` when negative. -/
def to_string (n : Int) : String := toString n

/-- Source `pow(left, right)` on two `int`s converted to `double`, the result converted
back to `int` (truncation toward zero). For an exponent `right >= 0` the value
is the integer power, exactly representable whenever it is an `int`; a power
outside the range of `int` has no defined conversion to `int` (a build may
return `INT_MIN`), and the model gives it no result. For a
negative exponent the double is `+inf` when `left` is 0 (no `int` value),
`1` or `-1` when `left` is `1` or `-1`, and of magnitude below 1 otherwise. -/
def powInt (left right : Int) : Option Int :=
  if 0 ≤ right then asInt (left ^ right.toNat)
  else if left = 0 then none
  else if left = 1 then some 1
  else if left = -1 then some (if right % 2 = 0 then 1 else -1)
  else some 0

/-- Source `AST::calc` (`calc` is reserved in Lean). The first argument is read
into the local named `right` and the third into the local named `left`; the
result is computed as `left op right`. -/
def calc_ (leftOperand binop rightOperand : String) : Option String :=
  match stoi leftOperand with
  | none => none
  | some right =>
    match stoi rightOperand with
    | none => none
    | some left =>
      let solution : Option Int :=
        if binop = "+" then asInt (left + right)
        else if binop = "-" then asInt (left - right)
        else if binop = "*" then asInt (left * right)
        else if binop = "/" then (if right = 0 then none else asInt (Int.tdiv left right))
        else powInt left right
      solution.map to_string

/-- A `map<string, AST>`: the entries, at most one per key. An `AST` is its
only member `root_`. The code never iterates over the map, so the order of
the entries is immaterial. -/
abbrev Variables := List (String × Node)

/-- Source `map::find`: the tree stored under a key, if any. -/
def Variables.find (vars : Variables) (key : String) : Option Node :=
  match vars with
  | [] => none
  | (k, ast) :: rest => if k = key then some ast else Variables.find rest key

/-- Source `map::erase` of the entry with the given key. -/
def Variables.erase (vars : Variables) (key : String) : Variables :=
  vars.filter (fun p => p.1 ≠ key)

/-- Source `map::insert`: adds the pair unless the key is already present. -/
def Variables.insert (vars : Variables) (key : String) (ast : Node) : Variables :=
  match vars.find key with
  | some _ => vars
  | none => vars ++ [(key, ast)]

/-- Source `AST::fillVariablesHelper`, returning the new subtree and the map. At a
variable node `variables[var]` is looked up; `operator[]` on a missing key
first inserts a default `AST` (null root), and `copyTree` then dereferences
that null root. -/
def fillVariablesHelper : Node → Variables → Option (Node × Variables)
  | .null, vars => some (.null, vars)
  | .mk token left right, vars =>
    match fillVariablesHelper left vars with
    | none => none
    | some (newLeft, vars1) =>
      match fillVariablesHelper right vars1 with
      | none => none
      | some (newRight, vars2) =>
        if isVariable token then
          match vars2.find token.value_ with
          | some ast => (copyTree ast).map (fun c => (c, vars2))
          | none =>
            (copyTree Node.null).map (fun c => (c, vars2.insert token.value_ Node.null))
        else some (.mk token newLeft newRight, vars2)

/-- Source `AST::traverseAndSimplifyHelper`. At an operator node the test
`root->left->token.type_ == number && root->right->token.type_ == number`
dereferences the left child, and the right child when the left one is a
number. -/
def traverseAndSimplifyHelper : Node → Option Node
  | .null => some .null
  | .mk token left right =>
    match traverseAndSimplifyHelper left with
    | none => none
    | some newLeft =>
      match traverseAndSimplifyHelper right with
      | none => none
      | some newRight =>
        if isOperator token || isPower token then
          match newLeft with
          | .null => none
          | .mk ltok _ _ =>
            if ltok.type_ = number then
              match newRight with
              | .null => none
              | .mk rtok _ _ =>
                if rtok.type_ = number then
                  (calc_ ltok.value_ token.value_ rtok.value_).map
                    (fun v => Node.mk ⟨number, v⟩ Node.null Node.null)
                else some (.mk token newLeft newRight)
            else some (.mk token newLeft newRight)
        else some (.mk token newLeft newRight)

/-- Source `AST::simplify` on the tree `root_` of `*this`: copy, `fillVariables`,
`traverseAndSimplify`. The result is the simplified copy together with the
map after the call. -/
def simplify (root_ : Node) (vars : Variables) : Option (Node × Variables) :=
  match copyTree root_ with
  | none => none
  | some newAST =>
    match fillVariablesHelper newAST vars with
    | none => none
    | some (filled, vars1) =>
      (traverseAndSimplifyHelper filled).map (fun r => (r, vars1))

/-- Source `AST::toInfixHelper`. Only `isOperator` (a `binop` token) takes the
parenthesised branch; every other node returns its token text. -/
def toInfixHelper : Node → String
  | .null => ""
  | .mk token left right =>
    if isOperator token then
      "(" ++ toInfixHelper left ++ token.value_ ++ toInfixHelper right ++ ")"
    else token.value_

/-- Source `AST::toInfix`. -/
def toInfix (newAST : Node) : String := toInfixHelper newAST

/-! ## Calc.cpp: the variable map and the driver -/

/-- The local `alph` of `Calc::initializeVariables`. -/
def alph : String := "abcdefghijklmnopqrstuvwxyz"

/-- Source `Calc::initializeVariables` on the empty map of the constructor: one entry
per letter of `alph`, bound to the single-node tree of that variable. -/
def initializeVariables : Variables :=
  alph.toList.foldl
    (fun vars c =>
      vars.insert (String.singleton c) (Node.leaf (variableToken (String.singleton c))))
    []

/-- Source `Calc::assignVariable`: nothing is done for a two-token sequence; otherwise
an existing entry of `v` is erased and the tree built from the sequence is
inserted. -/
def assignVariable (v : String) (pfx : List Token) (vars : Variables) : Option Variables :=
  if pfx.length = 2 then some vars
  else
    let vars1 := match vars.find v with
      | some _ => vars.erase v
      | none => vars
    match constructTree pfx with
    | none => none
    | some variableAST => some (vars1.insert v variableAST)

/-- Source `Calc::assignVariableHelper`: the name is the text of `infix[0]`; the first
two tokens are erased, the rest is converted and handed to `assignVariable`.
The result is the converted sequence and the map. -/
def assignVariableHelper (toks : List Token) (vars : Variables) :
    Option (List Token × Variables) :=
  match toks with
  | t0 :: _ :: rest =>
    match convertPostfix rest with
    | none => none
    | some pfx => (assignVariable t0.value_ pfx vars).map (fun vars1 => (pfx, vars1))
  | _ => none

/-- Source `Calc::isAnAssignment`: reads `infix[0]` and `infix[1]`. -/
def isAnAssignment (toks : List Token) : Option Bool :=
  match toks with
  | t0 :: t1 :: _ => some (if t0.type_ = .variable ∧ t1.type_ = assignop then true else false)
  | _ => none

/-- The token vector that the bare-variable branch of `Calc::calculate` hands to
`assignVariableHelper`: after `infix.insert(infix.begin(), t)` the element
`infix[0]` is `t` itself, so the second `insert` puts `t` in front again. -/
def probeRewrite (toks : List Token) : List Token :=
  let t : Token := assignToken
  let toks1 := t :: toks
  match toks1 with
  | first :: _ => first :: toks1
  | [] => toks1

/-- The three branches of `Calc::calculate` on a statement that `isValid`
accepted: the rendered solution and the map afterwards. -/
def evaluateStatement (toks : List Token) (vars : Variables) : Option (String × Variables) :=
  match isAnAssignment toks with
  | none => none
  | some true =>
    match assignVariableHelper toks vars with
    | none => none
    | some (pfx, vars1) =>
      match constructTree pfx with
      | none => none
      | some ast => (simplify ast vars1).map (fun r => (toInfix r.1, r.2))
  | some false =>
    match toks with
    | t0 :: t1 :: _ =>
      if t0.type_ = .variable ∧ t1.type_ = eol then
        match constructTree toks with
        | none => none
        | some ast =>
          match assignVariableHelper (probeRewrite toks) vars with
          | none => none
          | some (_, vars1) => (simplify ast vars1).map (fun r => (toInfix r.1, r.2))
      else
        match convertPostfix toks with
        | none => none
        | some pfx =>
          match constructTree pfx with
          | none => none
          | some ast => (simplify ast vars).map (fun r => (toInfix r.1, r.2))
    | _ => none

/-- One iteration of the outer loop of `Calc::calculate` on the tokens of a
line: a rejected line leaves the map as it is and records no solution. `rp`
is the indeterminate value read by `isValidPowHelper`. -/
def calculateStep (rp : Int) (toks : List Token) (vars : Variables) :
    Option (Option String × Variables) :=
  match isValid rp toks with
  | none => none
  | some false => some (none, vars)
  | some true => (evaluateStatement toks vars).map (fun r => (some r.1, r.2))

/-- The inner loop of `Calc::calculate`: tokens are read and appended until one
of type `eol` has been read. `fuel` bounds the number of tokens. -/
def readLineLoop : Nat → List Char → List Token → Option (List Token × List Char)
  | 0, _, _ => none
  | fuel + 1, cs, toks =>
    match nextToken cs with
    | none => none
    | some (tok, rest) =>
      if tok.type_ = eol then some (toks ++ [tok], rest)
      else readLineLoop fuel rest (toks ++ [tok])

/-- The tokens of the next line of the stream and the characters after it.
Every token takes at least one character, so the length of the stream bounds
the number of tokens. -/
def readLine (cs : List Char) : Option (List Token × List Char) :=
  readLineLoop cs.length cs []

/-- The outer loop of `Calc::calculate` on a character stream, from a map and
the solutions recorded so far: a line is read, `done` is set when its first
token is `ending`, and the line is evaluated when `isValid` accepts it.
`rp n` is the indeterminate value that `isValidPowHelper` reads on the line
processed when `n` rounds of `fuel` remain. -/
def calculateLoop (rp : Nat → Int) :
    Nat → List Char → Variables → List String → Option (List String × Variables)
  | 0, _, _, _ => none
  | fuel + 1, cs, vars, solutions =>
    match readLine cs with
    | none => none
    | some (toks, rest) =>
      match calculateStep (rp fuel) toks vars with
      | none => none
      | some (sol, vars1) =>
        let solutions1 := match sol with
          | some s => solutions ++ [s]
          | none => solutions
        match toks with
        | first :: _ =>
          if first.type_ = ending then some (solutions1, vars1)
          else calculateLoop rp fuel rest vars1 solutions1
        | [] => none

/-- Source `Calc::calculate` after the constructor, on the characters of standard
input: the solutions in order, and the final map. Every line takes at least
one character, so the length of the input bounds the number of lines. -/
def calculate (rp : Nat → Int) (input : String) : Option (List String × Variables) :=
  calculateLoop rp (input.length + 1) input.toList initializeVariables []

/-- The plain-expression pipeline of `Calc::calculate`: `convertPostfix`, the
`AST` constructor, `simplify`, `toInfix`. -/
def evaluateExpression (toks : List Token) (vars : Variables) : Option String :=
  match convertPostfix toks with
  | none => none
  | some pfx =>
    match constructTree pfx with
    | none => none
    | some ast => (simplify ast vars).map (fun r => toInfix r.1)

/-! ## Well-formed expressions and their value (specification side)

The grammar of the calculator's expressions, with the precedences and
associativities of the specification:

    E ::= E (+|-) T | T        T ::= T (*|/) F | F
    F ::= A ^ F | A            A ::= number | variable | ( E )

An `Expr` is a parse tree; `Expr.WellFormed` says that each operand stands at
a level of the grammar that its position allows. -/

/-- The four binary operators. -/
inductive BinOp where
  | add
  | sub
  | mul
  | div
  deriving DecidableEq, Repr

/-- The text of a binary operator. -/
def BinOp.text : BinOp → String
  | .add => "+"
  | .sub => "-"
  | .mul => "*"
  | .div => "/"

/-- The token the tokenizer produces for a binary operator. -/
def BinOp.token (o : BinOp) : Token := ⟨binop, o.text⟩

/-- The grammar level of a binary operator: 1 for `+ -`, 2 for `* /`. -/
def BinOp.level : BinOp → Nat
  | .add => 1
  | .sub => 1
  | .mul => 2
  | .div => 2

/-- The value of `a op b` on integers, division truncating toward zero. -/
def BinOp.apply : BinOp → Int → Int → Int
  | .add, a, b => a + b
  | .sub, a, b => a - b
  | .mul, a, b => a * b
  | .div, a, b => Int.tdiv a b

/-- Parse trees of infix expressions. A number literal is held by its value and
written in decimal without leading zeros. -/
inductive Expr where
  | num (n : Nat)
  | var (name : String)
  | bin (op : BinOp) (lhs rhs : Expr)
  | pow (base exponent : Expr)
  | paren (inner : Expr)
  deriving DecidableEq, Repr

/-- The grammar level at which an expression stands: 4 for an atom, 3 for a
power, 2 for a product or quotient, 1 for a sum or difference. -/
def Expr.level : Expr → Nat
  | .num _ => 4
  | .var _ => 4
  | .bin op _ _ => op.level
  | .pow _ _ => 3
  | .paren _ => 4

/-- Well-formedness: `+ - * /` take a left operand of their own level or higher
and a right operand of a strictly higher level (left associativity); `^` takes
an atom as base and a power or an atom as exponent (right associativity). -/
def Expr.WellFormed : Expr → Prop
  | .num _ => True
  | .var _ => True
  | .bin op l r => l.WellFormed ∧ r.WellFormed ∧ op.level ≤ l.level ∧ op.level < r.level
  | .pow b e => b.WellFormed ∧ e.WellFormed ∧ b.level = 4 ∧ 3 ≤ e.level
  | .paren e => e.WellFormed

/-- The infix token sequence of an expression (without the final `eol`). -/
def Expr.tokens : Expr → List Token
  | .num n => [numberToken (toString n)]
  | .var name => [variableToken name]
  | .bin op l r => l.tokens ++ [op.token] ++ r.tokens
  | .pow b e => b.tokens ++ [powToken] ++ e.tokens
  | .paren e => [lparenToken] ++ e.tokens ++ [rparenToken]

/-- No variable occurs in the expression. -/
def Expr.VariableFree : Expr → Prop
  | .num _ => True
  | .var _ => False
  | .bin _ l r => l.VariableFree ∧ r.VariableFree
  | .pow b e => b.VariableFree ∧ e.VariableFree
  | .paren e => e.VariableFree

/-- The integer value of a variable-free expression, evaluated directly (a
variable counts as 0; a negative exponent is read as exponent 0). -/
def Expr.eval : Expr → Int
  | .num n => (n : Int)
  | .var _ => 0
  | .bin op l r => op.apply l.eval r.eval
  | .pow b e => b.eval ^ e.eval.toNat
  | .paren e => e.eval

/-- Every literal and every intermediate value of the evaluation is an `int`,
no divisor is zero and no exponent is negative. -/
def Expr.InRange : Expr → Prop
  | .num n => (n : Int) ≤ INT_MAX
  | .var _ => True
  | .bin op l r =>
    l.InRange ∧ r.InRange ∧ (op = .div → r.eval ≠ 0) ∧
      INT_MIN ≤ op.apply l.eval r.eval ∧ op.apply l.eval r.eval ≤ INT_MAX
  | .pow b e =>
    b.InRange ∧ e.InRange ∧ 0 ≤ e.eval ∧
      INT_MIN ≤ b.eval ^ e.eval.toNat ∧ b.eval ^ e.eval.toNat ≤ INT_MAX
  | .paren e => e.InRange

/-- The postfix form of an expression: operands in order, each operator after
its two operands. -/
def Expr.toPostfix : Expr → List Token
  | .num n => [numberToken (toString n)]
  | .var name => [variableToken name]
  | .bin op l r => l.toPostfix ++ r.toPostfix ++ [op.token]
  | .pow b e => b.toPostfix ++ e.toPostfix ++ [powToken]
  | .paren e => e.toPostfix

/-- The tree that `constructTree` builds for an expression: the operator node
holds the right operand as its `left` child and the left operand as its
`right` child. -/
def Expr.toTree : Expr → Node
  | .num n => Node.leaf (numberToken (toString n))
  | .var name => Node.leaf (variableToken name)
  | .bin op l r => Node.mk op.token r.toTree l.toTree
  | .pow b e => Node.mk powToken e.toTree b.toTree
  | .paren e => e.toTree

/-- The operators that are still on the stack of `convertPostfix` after the
tokens of an expression, top first. -/
def Expr.pending : Expr → List Token
  | .num _ => []
  | .var _ => []
  | .bin op _ r => r.pending ++ [op.token]
  | .pow _ e => e.pending ++ [powToken]
  | .paren _ => []

/-- The tokens that `convertPostfix` has written to its output after the tokens
of an expression. -/
def Expr.emitted : Expr → List Token
  | .num n => [numberToken (toString n)]
  | .var name => [variableToken name]
  | .bin _ l r => l.toPostfix ++ r.emitted
  | .pow b e => b.toPostfix ++ e.emitted
  | .paren e => e.toPostfix

/-- The stack of `convertPostfix` lets an operand of grammar level `lvl` through:
its top, when it is an operator, is not popped by any operator of level `lvl`
or higher. -/
def Admits (s : List Token) (lvl : Nat) : Prop :=
  ∀ top rest, s = top :: rest →
    isLeftParen top = true ∨
      ((∀ o : BinOp, lvl ≤ o.level → hasPrecedence top o.token = false) ∧
        (lvl ≤ 3 → hasPrecedence top powToken = false))

/-- An operator token of level at least `lvl`. -/
def IsOperatorOfLevel (lvl : Nat) (p : Token) : Prop :=
  (∃ o : BinOp, p = o.token ∧ lvl ≤ o.level) ∨ (p = powToken ∧ lvl ≤ 3)

/-- The token line of the assignment `v := e`. -/
def assignLine (v : String) (e : Expr) : List Token :=
  [variableToken v, assignToken] ++ e.tokens ++ [eolToken]

/-- The token line of the bare variable `v`. -/
def probeLine (v : String) : List Token := [variableToken v, eolToken]

/-- The token line of the plain expression `e`. -/
def exprLine (e : Expr) : List Token := e.tokens ++ [eolToken]

/-- The names of the variable tokens that occur in a tree. -/
def Node.variables : Node → List String
  | .null => []
  | .mk token left right =>
    (if isVariable token then [token.value_] else []) ++ left.variables ++ right.variables

/-- The character the tokenizer reads for a binary operator. -/
def BinOp.char : BinOp → Char
  | .add => '+'
  | .sub => '-'
  | .mul => '*'
  | .div => '/'

/-- One substitution pass, in the words of the specification: each variable node
is replaced by the tree the map holds for it, taken as it is (no substitution
inside it); every other node stays in place. -/
def substituteOnce (vars : Variables) : Node → Node
  | .null => .null
  | .mk token left right =>
    if isVariable token then
      match vars.find token.value_ with
      | some ast => ast
      | none => .mk token left right
    else .mk token (substituteOnce vars left) (substituteOnce vars right)

/-- The shape of an expression tree: a node that holds one of the operator
tokens of the tokenizer has two well-formed children, a node that holds a
number or a variable has none, and there is no other node. -/
def Node.WellFormed : Node → Prop
  | .null => False
  | .mk token left right =>
    (((∃ o : BinOp, token = o.token) ∨ token = powToken) ∧ left.WellFormed ∧ right.WellFormed) ∨
      ((token.type_ = number ∨ token.type_ = .variable) ∧ left = .null ∧ right = .null)

/-- A variable token occurs in the tree. -/
def Node.hasVariable : Node → Bool
  | .null => false
  | .mk token left right => isVariable token || left.hasVariable || right.hasVariable

/-- The node holds a number token (the test `token.type_ == number` of the
folding pass). -/
def Node.isNumberNode : Node → Bool
  | .null => false
  | .mk token _ _ => decide (token.type_ = number)

/-- The value of `a op b` for an operator token of the tokenizer, when it is an
`int`: there is none for a zero divisor, a negative exponent or a result
outside the range of `int`. -/
def Token.operate (t : Token) (a b : Int) : Option Int :=
  if t = BinOp.add.token then asInt (a + b)
  else if t = BinOp.sub.token then asInt (a - b)
  else if t = BinOp.mul.token then asInt (a * b)
  else if t = BinOp.div.token then (if b = 0 then none else asInt (Int.tdiv a b))
  else if t = powToken then (if 0 ≤ b then asInt (a ^ b.toNat) else none)
  else none

/-- The value of the expression that a variable-free tree stands for. As
`constructTree` builds trees, the left operand of an operator is its `right`
child and the right operand its `left` child. A number node has the value
that its text has as a decimal `int`. -/
def Node.value : Node → Option Int
  | .null => none
  | .mk token left right =>
    if isOperator token || isPower token then
      match right.value, left.value with
      | some a, some b => token.operate a b
      | _, _ => none
    else if token.type_ = number then stoi token.value_
    else none

/-- Constant folding, in the words of the specification: a subtree without
variables that has an operator at its root becomes the number leaf of its
value; a node with a variable below it stays, with its children folded; a
leaf stays. -/
def Node.foldSpec : Node → Option Node
  | .null => some .null
  | .mk token left right =>
    if (Node.mk token left right).hasVariable then
      match left.foldSpec, right.foldSpec with
      | some newLeft, some newRight => some (.mk token newLeft newRight)
      | _, _ => none
    else if isOperator token || isPower token then
      ((Node.mk token left right).value).map (fun v => Node.leaf (numberToken (to_string v)))
    else some (.mk token left right)

/-- No operator node of the tree has two number nodes as children. -/
def Node.Folded : Node → Prop
  | .null => True
  | .mk token left right =>
    ¬ ((isOperator token || isPower token) = true ∧ left.isNumberNode = true ∧
        right.isNumberNode = true) ∧
      left.Folded ∧ right.Folded

/-- Well-formedness can be checked by computation. -/
def Expr.decWellFormed : (e : Expr) → Decidable e.WellFormed
  | .num _ => isTrue trivial
  | .var _ => isTrue trivial
  | .bin _ l r =>
    @instDecidableAnd _ _ (Expr.decWellFormed l)
      (@instDecidableAnd _ _ (Expr.decWellFormed r) inferInstance)
  | .pow b e =>
    @instDecidableAnd _ _ (Expr.decWellFormed b)
      (@instDecidableAnd _ _ (Expr.decWellFormed e) inferInstance)
  | .paren e => Expr.decWellFormed e

instance (e : Expr) : Decidable e.WellFormed := Expr.decWellFormed e

/-- Absence of variables can be checked by computation. -/
def Expr.decVariableFree : (e : Expr) → Decidable e.VariableFree
  | .num _ => isTrue trivial
  | .var _ => isFalse (fun h => h)
  | .bin _ l r => @instDecidableAnd _ _ (Expr.decVariableFree l) (Expr.decVariableFree r)
  | .pow b e => @instDecidableAnd _ _ (Expr.decVariableFree b) (Expr.decVariableFree e)
  | .paren e => Expr.decVariableFree e

instance (e : Expr) : Decidable e.VariableFree := Expr.decVariableFree e

/-- The range condition can be checked by computation. -/
def Expr.decInRange : (e : Expr) → Decidable e.InRange
  | .num n => inferInstanceAs (Decidable ((n : Int) ≤ INT_MAX))
  | .var _ => isTrue trivial
  | .bin _ l r =>
    @instDecidableAnd _ _ (Expr.decInRange l)
      (@instDecidableAnd _ _ (Expr.decInRange r) inferInstance)
  | .pow b e =>
    @instDecidableAnd _ _ (Expr.decInRange b)
      (@instDecidableAnd _ _ (Expr.decInRange e) inferInstance)
  | .paren e => Expr.decInRange e

instance (e : Expr) : Decidable e.InRange := Expr.decInRange e

/-! ## Sample inputs -/

/-- The expression `2^3^2-10/4*(1+2)`, of value 506. -/
def sampleExpr : Expr :=
  .bin .sub (.pow (.num 2) (.pow (.num 3) (.num 2)))
    (.bin .mul (.bin .div (.num 10) (.num 4)) (.paren (.bin .add (.num 1) (.num 2))))

/-- The expression `3000000000+0`, whose first literal is not an `int`. -/
def bigSumExpr : Expr := .bin .add (.num 3000000000) (.num 0)

/-- The expression `1+1+...+1` with `n` additions. -/
def onesSum : Nat → Expr
  | 0 => .num 1
  | n + 1 => .bin .add (onesSum n) (.num 1)

/-- The tokens of the line `1+2+`. -/
def trailingOperatorLine : List Token :=
  [numberToken "1", BinOp.add.token, numberToken "2", BinOp.add.token, eolToken]

/-- The tree that `constructTree` builds from the postfix form `x 2 ^` of `x^2`. -/
def xSquaredTree : Node :=
  Node.mk powToken (Node.leaf (numberToken "2")) (Node.leaf (variableToken "x"))

/-- The tokens of the line `1+2 3` without its blank: a second number follows
the number 2. -/
def numberAfterNumberLine : List Token :=
  [numberToken "1", BinOp.add.token, numberToken "2", numberToken "3", eolToken]

/-- The tokens of the line `5 5` without its blank. -/
def fiveFiveLine : List Token := [numberToken "5", numberToken "5", eolToken]

/-- The tokens of the line `+5`. -/
def plusFiveLine : List Token := [BinOp.add.token, numberToken "5", eolToken]

/-- The tokens of the line `ab`. -/
def twoVariablesLine : List Token := [variableToken "a", variableToken "b", eolToken]

/-- The tokens of the line `3^(2+1)`. -/
def powParenLine : List Token :=
  [numberToken "3", powToken, lparenToken, numberToken "2", BinOp.add.token, numberToken "1",
    rparenToken, eolToken]

/-- The tokens of the line `3^(x+1)`. -/
def powParenVariableLine : List Token :=
  [numberToken "3", powToken, lparenToken, variableToken "x", BinOp.add.token, numberToken "1",
    rparenToken, eolToken]

/-- The tokens of the line `2^3^x`. -/
def powPowVariableLine : List Token :=
  [numberToken "2", powToken, numberToken "3", powToken, variableToken "x", eolToken]

/-- The tokens of the line `3^2`. -/
def powNumberLine : List Token := [numberToken "3", powToken, numberToken "2", eolToken]

/-- The tokens of the line `3^x`. -/
def powVariableLine : List Token := [numberToken "3", powToken, variableToken "x", eolToken]

/-- A token vector with an `eol` before its last position: `1`, `eol`, `2`, `eol`. -/
def earlyEolLine : List Token := [numberToken "1", eolToken, numberToken "2", eolToken]

/-- The tokens of the line `1)`. -/
def unmatchedParenLine : List Token := [numberToken "1", rparenToken, eolToken]

/-- A cyclic map: `a` is bound to the single node of `b` and `b` to the single
node of `a`. -/
def cyclicStore : Variables :=
  [("a", Node.leaf (variableToken "b")), ("b", Node.leaf (variableToken "a"))]

/-- The tree that `constructTree` builds from the postfix form `x 1 2 + +` of
`x+(1+2)`: the first node popped is the `left` child. -/
def foldSampleTree : Node :=
  Node.mk BinOp.add.token
    (Node.mk BinOp.add.token (Node.leaf (numberToken "2")) (Node.leaf (numberToken "1")))
    (Node.leaf (variableToken "x"))

/-- The shape invariant, in the words of the specification: a node that holds
a `binop` or `powop` token has two children, a node that holds a `number` or
`variable` token has none, and so for every node below it. -/
def Node.Shaped : Node → Prop
  | .null => True
  | .mk token left right =>
    ((token.type_ = binop ∨ token.type_ = powop) → left ≠ .null ∧ right ≠ .null) ∧
      ((token.type_ = number ∨ token.type_ = .variable) → left = .null ∧ right = .null) ∧
      left.Shaped ∧ right.Shaped

/-- The map binds the key to a tree (a root that is not null). -/
def Variables.Binds (vars : Variables) (key : String) : Prop :=
  ∃ a, vars.find key = some a ∧ a ≠ Node.null

/-- Every one of the 26 lowercase letters is bound to a tree. -/
def LettersBound (vars : Variables) : Prop :=
  ∀ c ∈ alph.toList, vars.Binds (String.singleton c)

/-- The name is a single lowercase letter. -/
def IsLetterName (v : String) : Prop := ∃ c ∈ alph.toList, v = String.singleton c

/-- The variable tokens of a list carry single lowercase letters. -/
def LetterVariables (toks : List Token) : Prop :=
  ∀ tok ∈ toks, tok.type_ = .variable → IsLetterName tok.value_

/-- The tokens of the line `1/0`. -/
def zeroDivisorLine : List Token :=
  [numberToken "1", BinOp.div.token, numberToken "0", eolToken]

/-- A map that binds `x` to the tree that `constructTree` builds for `2*3`. -/
def productStore : Variables :=
  [("x", Node.mk BinOp.mul.token (Node.leaf (numberToken "3")) (Node.leaf (numberToken "2")))]

/-! # Theorems -/

/-! ## Fields of the fixed tokens -/

@[simp] theorem powToken_type : powToken.type_ = powop := rfl

@[simp] theorem powToken_value : powToken.value_ = "^" := rfl

@[simp] theorem lparenToken_type : lparenToken.type_ = lparen := rfl

@[simp] theorem rparenToken_type : rparenToken.type_ = rparen := rfl

@[simp] theorem assignToken_type : assignToken.type_ = assignop := rfl

@[simp] theorem assignToken_value : assignToken.value_ = ":=" := rfl

@[simp] theorem eolToken_type : eolToken.type_ = eol := rfl

@[simp] theorem numberToken_type (v : String) : (numberToken v).type_ = number := rfl

@[simp] theorem numberToken_value (v : String) : (numberToken v).value_ = v := rfl

@[simp] theorem variableToken_type (v : String) : (variableToken v).type_ = .variable := rfl

@[simp] theorem variableToken_value (v : String) : (variableToken v).value_ = v := rfl

@[simp] theorem binOpToken_type (o : BinOp) : o.token.type_ = binop := rfl

@[simp] theorem binOpToken_value (o : BinOp) : o.token.value_ = o.text := rfl

/-! ## Decimal text: `stoi` reads back what `to_string` writes -/

theorem digitChar_isDigit (d : Nat) (hd : d < 10) :
    (Nat.digitChar d).isDigit = true ∧ (Nat.digitChar d).toNat - 48 = d ∧
      isspace (Nat.digitChar d) = false ∧ Nat.digitChar d ≠ '-' ∧ Nat.digitChar d ≠ '+' := by
  interval_cases d <;> decide

theorem digitsValue_append (pre : List Char) (c : Char) :
    digitsValue (pre ++ [c]) = 10 * digitsValue pre + (c.toNat - 48) := by
  simp [digitsValue, List.foldl_append]

/-- What `Nat.toDigitsCore 10` puts in front of its accumulator. -/
theorem toDigitsCore_decimal (fuel : Nat) : ∀ (n : Nat) (acc : List Char), n < fuel →
    ∃ pre : List Char, Nat.toDigitsCore 10 fuel n acc = pre ++ acc ∧ pre ≠ [] ∧
      (∀ c ∈ pre, c.isDigit = true) ∧ digitsValue pre = n := by
  induction fuel with
  | zero => intro n acc h; omega
  | succ fuel ih =>
    intro n acc hn
    have hd := digitChar_isDigit (n % 10) (Nat.mod_lt _ (by norm_num))
    by_cases h0 : n / 10 = 0
    · refine ⟨[Nat.digitChar (n % 10)], ?_, by simp, ?_, ?_⟩
      · simp [Nat.toDigitsCore, h0]
      · intro c hc
        simp only [List.mem_singleton] at hc
        rw [hc]; exact hd.1
      · have : n < 10 := by omega
        simp [digitsValue, hd.2.1]
        omega
    · obtain ⟨pre, hpre, _, hdig, hval⟩ :=
        ih (n / 10) (Nat.digitChar (n % 10) :: acc) (by omega)
      refine ⟨pre ++ [Nat.digitChar (n % 10)], ?_, by simp, ?_, ?_⟩
      · simp [Nat.toDigitsCore, h0, hpre]
      · intro c hc
        rcases List.mem_append.mp hc with h | h
        · exact hdig c h
        · simp only [List.mem_singleton] at h
          rw [h]; exact hd.1
      · rw [digitsValue_append, hval, hd.2.1]
        omega

theorem toDigits_decimal (n : Nat) :
    Nat.toDigits 10 n ≠ [] ∧ (∀ c ∈ Nat.toDigits 10 n, c.isDigit = true) ∧
      digitsValue (Nat.toDigits 10 n) = n := by
  obtain ⟨pre, hpre, hne, hdig, hval⟩ := toDigitsCore_decimal (n + 1) n [] (by omega)
  have : Nat.toDigits 10 n = pre := by simp [Nat.toDigits, hpre]
  rw [this]
  exact ⟨hne, hdig, hval⟩

theorem isDigit_toNat (c : Char) (h : c.isDigit = true) : 48 ≤ c.toNat ∧ c.toNat ≤ 57 := by
  simp only [Char.isDigit, Bool.and_eq_true, decide_eq_true_eq] at h
  exact ⟨h.1, h.2⟩

theorem isDigit_facts (c : Char) (h : c.isDigit = true) :
    isspace c = false ∧ c ≠ '-' ∧ c ≠ '+' := by
  have hr := isDigit_toNat c h
  refine ⟨?_, ?_, ?_⟩
  · by_contra hs
    simp only [isspace, Bool.not_eq_false, Bool.or_eq_true, decide_eq_true_eq] at hs
    rcases hs with ((((hs | hs) | hs) | hs) | hs) | hs
    · rw [hs] at hr; revert hr; decide
    · rw [hs] at hr; revert hr; decide
    · rw [hs] at hr; revert hr; decide
    · rw [hs] at hr; revert hr; decide
    · omega
    · omega
  · rintro rfl; revert hr; decide
  · rintro rfl; revert hr; decide

theorem takeWhile_all {α : Type} (p : α → Bool) (l : List α) (h : ∀ x ∈ l, p x = true) :
    l.takeWhile p = l := by
  induction l with
  | nil => rfl
  | cons x xs ih =>
    simp only [List.takeWhile, h x (List.mem_cons_self _ _)]
    rw [ih (fun y hy => h y (List.mem_cons_of_mem _ hy))]

theorem stoiSign_digit (c : Char) (cs : List Char) (h1 : c ≠ '-') (h2 : c ≠ '+') :
    stoiSign (c :: cs) = (false, c :: cs) := by
  unfold stoiSign
  split
  · rename_i h; injection h with h _; exact absurd h h1
  · rename_i h; injection h with h _; exact absurd h h2
  · rfl

theorem stoi_digits (ds : List Char) (hne : ds ≠ []) (hd : ∀ c ∈ ds, c.isDigit = true) :
    stoi (String.mk ds) = asInt (digitsValue ds) := by
  cases ds with
  | nil => exact absurd rfl hne
  | cons c cs =>
    have hc := isDigit_facts c (hd c (List.mem_cons_self _ _))
    have htw := takeWhile_all Char.isDigit (c :: cs) hd
    unfold stoi
    simp only [String.toList, List.dropWhile, hc.1, stoiSign_digit c cs hc.2.1 hc.2.2, htw]
    simp

theorem stoi_neg_digits (ds : List Char) (hne : ds ≠ []) (hd : ∀ c ∈ ds, c.isDigit = true) :
    stoi (String.mk ('-' :: ds)) = asInt (-(digitsValue ds : Int)) := by
  have htw := takeWhile_all Char.isDigit ds hd
  have hsp : isspace '-' = false := by decide
  unfold stoi
  simp only [String.toList, List.dropWhile, hsp, stoiSign, htw]
  simp [hne]

theorem to_string_ofNat (m : Nat) : to_string (Int.ofNat m) = String.mk (Nat.toDigits 10 m) := rfl

theorem to_string_negSucc (m : Nat) :
    to_string (Int.negSucc m) = String.mk ('-' :: Nat.toDigits 10 (m + 1)) := rfl

theorem stoi_to_string (n : Int) (h : INT_MIN ≤ n ∧ n ≤ INT_MAX) :
    stoi (to_string n) = some n := by
  cases n with
  | ofNat m =>
    obtain ⟨hne, hd, hv⟩ := toDigits_decimal m
    rw [to_string_ofNat, stoi_digits _ hne hd, hv]
    simp only [asInt, Int.ofNat_eq_coe] at h ⊢
    rw [if_pos h]
  | negSucc m =>
    obtain ⟨hne, hd, hv⟩ := toDigits_decimal (m + 1)
    rw [to_string_negSucc, stoi_neg_digits _ hne hd, hv]
    have : -((m + 1 : Nat) : Int) = Int.negSucc m := by
      simp [Int.negSucc_eq]
    rw [this]
    simp only [asInt]
    rw [if_pos h]

/-! ## The shunting-yard loop on well-formed expressions -/

theorem hasPrecedence_bin_bin (o1 o2 : BinOp) :
    hasPrecedence o1.token o2.token = decide (o2.level ≤ o1.level) := by
  cases o1 <;> cases o2 <;> decide

theorem hasPrecedence_bin_pow (o : BinOp) : hasPrecedence o.token powToken = false := by
  cases o <;> decide

theorem hasPrecedence_pow_bin (o : BinOp) : hasPrecedence powToken o.token = true := by
  cases o <;> decide

theorem hasPrecedence_pow_pow : hasPrecedence powToken powToken = false := by decide

theorem BinOp.level_le_two (o : BinOp) : o.level ≤ 2 := by cases o <;> decide

theorem isLeftParen_bin (o : BinOp) : isLeftParen o.token = false := by cases o <;> decide

theorem Admits.mono {s : List Token} {a b : Nat} (h : Admits s a) (hab : a ≤ b) : Admits s b := by
  intro top rest hs
  rcases h top rest hs with h1 | ⟨h2, h3⟩
  · exact Or.inl h1
  · exact Or.inr ⟨fun o ho => h2 o (le_trans hab ho), fun hb => h3 (le_trans hab hb)⟩

theorem admits_nil (lvl : Nat) : Admits [] lvl := by
  intro top rest hs; cases hs

theorem admits_lparen (t : Token) (s : List Token) (lvl : Nat) (ht : isLeftParen t = true) :
    Admits (t :: s) lvl := by
  intro top rest hs
  injection hs with h1 _
  subst h1
  exact Or.inl ht

theorem admits_bin (o : BinOp) (s : List Token) (lvl : Nat) (h : o.level < lvl) :
    Admits (o.token :: s) lvl := by
  intro top rest hs
  injection hs with h1 _
  subst h1
  refine Or.inr ⟨fun o2 ho2 => ?_, fun _ => hasPrecedence_bin_pow o⟩
  rw [hasPrecedence_bin_bin]
  simp only [decide_eq_false_iff_not, not_le]
  omega

theorem admits_pow (s : List Token) (lvl : Nat) (h : 3 ≤ lvl) : Admits (powToken :: s) lvl := by
  intro top rest hs
  injection hs with h1 _
  subst h1
  refine Or.inr ⟨fun o ho => ?_, fun _ => hasPrecedence_pow_pow⟩
  have := BinOp.level_le_two o
  omega

theorem popOperators_keep (t top : Token) (s out : List Token)
    (h : isLeftParen top = true ∨ hasPrecedence top t = false) :
    popOperators t (top :: s) out = (top :: s, out) := by
  rcases h with h | h <;> simp [popOperators, h]

theorem popOperators_pop (t top : Token) (s out : List Token)
    (h1 : isLeftParen top = false) (h2 : hasPrecedence top t = true) :
    popOperators t (top :: s) out = popOperators t s (out ++ [top]) := by
  simp [popOperators, h1, h2]

/-- An incoming operator that every token of `ps` yields to, and that the stack below lets
through, moves exactly `ps` to the output. -/
theorem popOperators_segment (t : Token) (ps s out : List Token)
    (hps : ∀ p ∈ ps, isLeftParen p = false ∧ hasPrecedence p t = true)
    (hs : ∀ top rest, s = top :: rest → isLeftParen top = true ∨ hasPrecedence top t = false) :
    popOperators t (ps ++ s) out = (s, out ++ ps) := by
  induction ps generalizing out with
  | nil =>
    cases s with
    | nil => simp [popOperators]
    | cons top rest => simpa using popOperators_keep t top rest out (hs top rest rfl)
  | cons p ps ih =>
    have hp := hps p (List.mem_cons_self _ _)
    rw [List.cons_append, popOperators_pop t p _ _ hp.1 hp.2,
      ih _ (fun q hq => hps q (List.mem_cons_of_mem _ hq))]
    simp

theorem popToLeftParen_segment (ps s out : List Token) (lp : Token)
    (hps : ∀ p ∈ ps, isLeftParen p = false) (hlp : isLeftParen lp = true) :
    popToLeftParen (ps ++ lp :: s) out = some (s, out ++ ps) := by
  induction ps generalizing out with
  | nil => simp [popToLeftParen, hlp]
  | cons p ps ih =>
    have hp := hps p (List.mem_cons_self _ _)
    rw [List.cons_append]
    simp only [popToLeftParen, hp, Bool.not_false, ↓reduceIte]
    rw [ih _ (fun q hq => hps q (List.mem_cons_of_mem _ hq))]
    simp

theorem isOperatorOfLevel_notLeftParen {lvl : Nat} {p : Token} (h : IsOperatorOfLevel lvl p) :
    isLeftParen p = false := by
  rcases h with ⟨o, rfl, _⟩ | ⟨rfl, _⟩
  · exact isLeftParen_bin o
  · decide

theorem isOperatorOfLevel_yields_bin {lvl : Nat} {p : Token} (h : IsOperatorOfLevel lvl p)
    (o : BinOp) (ho : o.level ≤ lvl) : hasPrecedence p o.token = true := by
  rcases h with ⟨o1, rfl, h1⟩ | ⟨rfl, _⟩
  · rw [hasPrecedence_bin_bin]
    simp only [decide_eq_true_eq]
    omega
  · exact hasPrecedence_pow_bin o

theorem Expr.pending_level (e : Expr) (hwf : e.WellFormed) :
    ∀ p ∈ e.pending, IsOperatorOfLevel e.level p := by
  induction e with
  | num n => intro p hp; simp [Expr.pending] at hp
  | var name => intro p hp; simp [Expr.pending] at hp
  | bin op l r _ ihr =>
    intro p hp
    obtain ⟨_, hr, _, hlt⟩ := hwf
    simp only [Expr.pending, List.mem_append, List.mem_singleton] at hp
    rcases hp with hp | rfl
    · rcases ihr hr p hp with ⟨o, rfl, ho⟩ | ⟨rfl, h3⟩
      · exact Or.inl ⟨o, rfl, by simp only [Expr.level] at *; omega⟩
      · exact Or.inr ⟨rfl, by simp only [Expr.level] at *; omega⟩
    · exact Or.inl ⟨op, rfl, le_refl _⟩
  | pow b ex _ ihe =>
    intro p hp
    obtain ⟨_, he, _, hge⟩ := hwf
    simp only [Expr.pending, List.mem_append, List.mem_singleton] at hp
    rcases hp with hp | rfl
    · rcases ihe he p hp with ⟨o, rfl, ho⟩ | ⟨rfl, h3⟩
      · have := BinOp.level_le_two o
        omega
      · exact Or.inr ⟨rfl, le_refl _⟩
    · exact Or.inr ⟨rfl, le_refl _⟩
  | paren e _ => intro p hp; simp [Expr.pending] at hp

theorem Expr.pending_atom (e : Expr) (h : e.level = 4) : e.pending = [] := by
  cases e with
  | num n => rfl
  | var name => rfl
  | bin op l r => have := BinOp.level_le_two op; simp only [Expr.level] at h; omega
  | pow b ex => simp [Expr.level] at h
  | paren e => rfl

theorem Expr.emitted_pending (e : Expr) : e.emitted ++ e.pending = e.toPostfix := by
  induction e with
  | num n => rfl
  | var name => rfl
  | bin op l r _ ihr => simp [Expr.emitted, Expr.pending, Expr.toPostfix, ← ihr]
  | pow b ex _ ihe => simp [Expr.emitted, Expr.pending, Expr.toPostfix, ← ihe]
  | paren e _ => simp [Expr.emitted, Expr.pending, Expr.toPostfix]

theorem convertPostfixLoop_operand (a : Token) (ha : isOperand a = true)
    (rest s out : List Token) :
    convertPostfixLoop (a :: rest) s out = convertPostfixLoop rest s (out ++ [a]) := by
  have h : a.type_ = number ∨ a.type_ = .variable := by
    unfold isOperand at ha
    by_cases h : a.type_ = number ∨ a.type_ = .variable
    · exact h
    · simp [h] at ha
  simp [convertPostfixLoop, h]

theorem convertPostfixLoop_operator (t : Token) (ht : t.type_ = binop ∨ t.type_ = powop)
    (rest s out : List Token) :
    convertPostfixLoop (t :: rest) s out =
      convertPostfixLoop rest (t :: (popOperators t s out).1) (popOperators t s out).2 := by
  have h : ¬ (t.type_ = number ∨ t.type_ = .variable) := by
    rcases ht with h | h <;> simp [h]
  simp [convertPostfixLoop, h, ht]

theorem convertPostfixLoop_lparen (rest s out : List Token) :
    convertPostfixLoop (lparenToken :: rest) s out
      = convertPostfixLoop rest (lparenToken :: s) out := by
  simp [convertPostfixLoop, isLeftParen]

theorem convertPostfixLoop_rparen (rest s out : List Token) (r : List Token × List Token)
    (h : popToLeftParen s out = some r) :
    convertPostfixLoop (rparenToken :: rest) s out = convertPostfixLoop rest r.1 r.2 := by
  simp [convertPostfixLoop, isLeftParen, isRightParen, h]

theorem convertPostfixLoop_eol (s out : List Token) :
    convertPostfixLoop [eolToken] s out = some (out ++ s) := by
  simp [convertPostfixLoop, isLeftParen, isRightParen]

/-- The run of `convertPostfix` over the tokens of a well-formed expression, from a stack that
lets the expression through: the stack gains the pending operators of the expression and the
output gains what the expression emits. -/
theorem convertPostfixLoop_expr (e : Expr) (hwf : e.WellFormed) :
    ∀ (rest s out : List Token), Admits s e.level →
      convertPostfixLoop (e.tokens ++ rest) s out
        = convertPostfixLoop rest (e.pending ++ s) (out ++ e.emitted) := by
  induction e with
  | num n =>
    intro rest s out _
    simp only [Expr.tokens, Expr.pending, Expr.emitted, List.singleton_append, List.nil_append]
    exact convertPostfixLoop_operand _ (by simp [isOperand]) rest s out
  | var name =>
    intro rest s out _
    simp only [Expr.tokens, Expr.pending, Expr.emitted, List.singleton_append, List.nil_append]
    exact convertPostfixLoop_operand _ (by simp [isOperand]) rest s out
  | bin op l r ihl ihr =>
    intro rest s out hs
    obtain ⟨hl, hr, hle, hlt⟩ := hwf
    simp only [Expr.level] at hs
    have hpop : popOperators op.token (l.pending ++ s) (out ++ l.emitted)
        = (s, out ++ l.emitted ++ l.pending) := by
      apply popOperators_segment
      · intro p hp
        have h := Expr.pending_level l hl p hp
        exact ⟨isOperatorOfLevel_notLeftParen h, isOperatorOfLevel_yields_bin h op hle⟩
      · intro top tl htop
        rcases hs top tl htop with h | ⟨h, _⟩
        · exact Or.inl h
        · exact Or.inr (h op (le_refl _))
    simp only [Expr.tokens, List.append_assoc, List.singleton_append, List.cons_append,
      List.nil_append]
    rw [ihl hl _ s out (hs.mono hle),
      convertPostfixLoop_operator op.token (Or.inl rfl), hpop]
    dsimp only
    rw [ihr hr rest _ _ (admits_bin op s _ hlt)]
    simp [Expr.pending, Expr.emitted, ← Expr.emitted_pending l]
  | pow b ex ihb ihe =>
    intro rest s out hs
    obtain ⟨hb, he, hb4, hge⟩ := hwf
    simp only [Expr.level] at hs
    have hpop : popOperators powToken (b.pending ++ s) (out ++ b.emitted)
        = (s, out ++ b.emitted) := by
      rw [Expr.pending_atom b hb4]
      simpa using popOperators_segment powToken [] s (out ++ b.emitted) (by simp)
        (by
          intro top tl htop
          rcases hs top tl htop with h | ⟨_, h⟩
          · exact Or.inl h
          · exact Or.inr (h (le_refl _)))
    simp only [Expr.tokens, List.append_assoc, List.singleton_append, List.cons_append,
      List.nil_append]
    rw [ihb hb _ s out (hs.mono (by omega)),
      convertPostfixLoop_operator powToken (Or.inr rfl)]
    change convertPostfixLoop (ex.tokens ++ rest)
      (powToken :: (popOperators powToken (b.pending ++ s) (out ++ b.emitted)).1)
      (popOperators powToken (b.pending ++ s) (out ++ b.emitted)).2 = _
    rw [hpop]
    dsimp only
    rw [ihe he rest _ _ (admits_pow s _ hge)]
    have hbp := Expr.emitted_pending b
    rw [Expr.pending_atom b hb4, List.append_nil] at hbp
    simp [Expr.pending, Expr.emitted, hbp, powToken]
  | paren e ih =>
    intro rest s out _
    have hwf1 : e.WellFormed := hwf
    simp only [Expr.tokens, List.append_assoc, List.singleton_append, List.cons_append,
      List.nil_append]
    rw [convertPostfixLoop_lparen,
      ih hwf1 _ _ out (admits_lparen lparenToken s _ (by decide)),
      convertPostfixLoop_rparen _ _ _ _
        (popToLeftParen_segment e.pending s (out ++ e.emitted) lparenToken
          (fun p hp => isOperatorOfLevel_notLeftParen (Expr.pending_level e hwf1 p hp))
          (by decide))]
    simp [Expr.pending, Expr.emitted, ← Expr.emitted_pending e]

/-- Function `convertPostfix` on the line of a well-formed expression yields its postfix form. -/
theorem convertPostfix_expr (e : Expr) (hwf : e.WellFormed) :
    convertPostfix (e.tokens ++ [eolToken]) = some e.toPostfix := by
  unfold convertPostfix
  rw [convertPostfixLoop_expr e hwf _ [] [] (admits_nil _), convertPostfixLoop_eol]
  simp [Expr.emitted_pending]

/-! ## Trees of expressions: construction, copy, substitution, folding -/

theorem constructTreeLoop_operand (t : Token) (ht : isOperand t = true)
    (rest : List Token) (stack : List Node) :
    constructTreeLoop (t :: rest) stack = constructTreeLoop rest (Node.leaf t :: stack) := by
  have h : isOperator t = false ∧ isPower t = false := by
    unfold isOperand at ht
    unfold isOperator isPower
    by_cases h1 : t.type_ = number
    · simp [h1]
    · by_cases h2 : t.type_ = .variable
      · simp [h2]
      · simp [h1, h2] at ht
  simp [constructTreeLoop, h.1, h.2, ht]

theorem constructTreeLoop_operator (t : Token) (ht : t.type_ = binop ∨ t.type_ = powop)
    (rest : List Token) (left right : Node) (stack : List Node) :
    constructTreeLoop (t :: rest) (left :: right :: stack)
      = constructTreeLoop rest (Node.mk t left right :: stack) := by
  have h : (isOperator t || isPower t) = true := by
    rcases ht with h | h <;> simp [isOperator, isPower, h]
  simp [constructTreeLoop, h]

/-- Function `constructTree` over the postfix form of an expression pushes the tree of the expression. -/
theorem constructTreeLoop_expr (e : Expr) :
    ∀ (rest : List Token) (stack : List Node),
      constructTreeLoop (e.toPostfix ++ rest) stack = constructTreeLoop rest (e.toTree :: stack) := by
  induction e with
  | num n =>
    intro rest stack
    exact constructTreeLoop_operand _ (by simp [isOperand]) rest stack
  | var name =>
    intro rest stack
    exact constructTreeLoop_operand _ (by simp [isOperand]) rest stack
  | bin op l r ihl ihr =>
    intro rest stack
    simp only [Expr.toPostfix, List.append_assoc, List.singleton_append]
    rw [ihl, ihr, constructTreeLoop_operator op.token (Or.inl rfl)]
    rfl
  | pow b ex ihb ihe =>
    intro rest stack
    simp only [Expr.toPostfix, List.append_assoc, List.singleton_append]
    rw [ihb, ihe, constructTreeLoop_operator _ (Or.inr rfl)]
    rfl
  | paren e ih =>
    intro rest stack
    exact ih rest stack

theorem constructTree_expr (e : Expr) : constructTree e.toPostfix = some e.toTree := by
  have h := constructTreeLoop_expr e [] []
  rw [List.append_nil] at h
  simp [constructTree, h, constructTreeLoop]

theorem copyTree_of_ne_null (n : Node) : n ≠ Node.null → copyTree n = some n := by
  induction n with
  | null => intro h; exact absurd rfl h
  | mk t l r ihl ihr =>
    intro _
    cases l with
    | null =>
      cases r with
      | null => simp [copyTree]
      | mk rt rl rr => rw [copyTree]; simp only [ihr (by simp)]
    | mk lt ll lr =>
      cases r with
      | null => rw [copyTree]; simp only [ihl (by simp)]
      | mk rt rl rr => rw [copyTree]; simp only [ihl (by simp), ihr (by simp)]

theorem Expr.toTree_ne_null (e : Expr) : e.toTree ≠ Node.null := by
  induction e with
  | num n => simp [Expr.toTree, Node.leaf]
  | var name => simp [Expr.toTree, Node.leaf]
  | bin op l r _ _ => simp [Expr.toTree]
  | pow b ex _ _ => simp [Expr.toTree]
  | paren e ih => exact ih

theorem copyTree_expr (e : Expr) : copyTree e.toTree = some e.toTree :=
  copyTree_of_ne_null _ e.toTree_ne_null

/-- Substitution leaves the tree of a variable-free expression, and the map, as they are. -/
theorem fillVariablesHelper_variableFree (e : Expr) (h : e.VariableFree) (vars : Variables) :
    fillVariablesHelper e.toTree vars = some (e.toTree, vars) := by
  induction e with
  | num n => simp [Expr.toTree, Node.leaf, fillVariablesHelper, isVariable]
  | var name => exact absurd h (by simp [Expr.VariableFree])
  | bin op l r ihl ihr =>
    obtain ⟨hl, hr⟩ := h
    simp [Expr.toTree, fillVariablesHelper, ihl hl, ihr hr, isVariable, BinOp.token]
  | pow b ex ihb ihe =>
    obtain ⟨hb, he⟩ := h
    simp [Expr.toTree, fillVariablesHelper, ihb hb, ihe he, isVariable]
  | paren e ih => exact ih h

theorem Expr.eval_inRange (e : Expr) (hv : e.VariableFree) (hr : e.InRange) :
    INT_MIN ≤ e.eval ∧ e.eval ≤ INT_MAX := by
  induction e with
  | num n =>
    simp only [Expr.InRange] at hr
    simp only [Expr.eval]
    refine ⟨?_, hr⟩
    have : (0 : Int) ≤ (n : Int) := Int.ofNat_nonneg n
    have h2 : INT_MIN ≤ 0 := by decide
    omega
  | var name => exact absurd hv (by simp [Expr.VariableFree])
  | bin op l r _ _ => exact ⟨hr.2.2.2.1, hr.2.2.2.2⟩
  | pow b ex _ _ => exact ⟨hr.2.2.2.1, hr.2.2.2.2⟩
  | paren e ih => exact ih hv hr


theorem to_string_natCast (n : Nat) : to_string (n : Int) = toString n := rfl

theorem asInt_of_inRange (n : Int) (h : INT_MIN ≤ n ∧ n ≤ INT_MAX) : asInt n = some n := by
  simp [asInt, h]

theorem calc_bin (op : BinOp) (a b : Int) (ha : INT_MIN ≤ a ∧ a ≤ INT_MAX)
    (hb : INT_MIN ≤ b ∧ b ≤ INT_MAX) (hdiv : op = BinOp.div → b ≠ 0)
    (hres : INT_MIN ≤ op.apply a b ∧ op.apply a b ≤ INT_MAX) :
    calc_ (to_string b) op.text (to_string a) = some (to_string (op.apply a b)) := by
  unfold calc_
  rw [stoi_to_string b hb, stoi_to_string a ha]
  cases op with
  | add =>
    simp only [BinOp.text, BinOp.apply] at hres ⊢
    simp [asInt_of_inRange _ hres]
  | sub =>
    simp only [BinOp.text, BinOp.apply] at hres ⊢
    simp [asInt_of_inRange _ hres]
  | mul =>
    simp only [BinOp.text, BinOp.apply] at hres ⊢
    simp [asInt_of_inRange _ hres]
  | div =>
    simp only [BinOp.text, BinOp.apply] at hres ⊢
    simp [asInt_of_inRange _ hres, hdiv rfl]

theorem calc_pow (a b : Int) (ha : INT_MIN ≤ a ∧ a ≤ INT_MAX)
    (hb : INT_MIN ≤ b ∧ b ≤ INT_MAX) (hnn : 0 ≤ b)
    (hres : INT_MIN ≤ a ^ b.toNat ∧ a ^ b.toNat ≤ INT_MAX) :
    calc_ (to_string b) "^" (to_string a) = some (to_string (a ^ b.toNat)) := by
  unfold calc_
  rw [stoi_to_string b hb, stoi_to_string a ha]
  simp [powInt, hnn, asInt_of_inRange _ hres]

/-- Constant folding turns the tree of a variable-free expression whose evaluation stays in
range into the number leaf of its value. -/
theorem traverseAndSimplifyHelper_expr (e : Expr) (hv : e.VariableFree) (hr : e.InRange) :
    traverseAndSimplifyHelper e.toTree = some (Node.leaf ⟨number, to_string e.eval⟩) := by
  induction e with
  | num n =>
    simp [Expr.toTree, Node.leaf, traverseAndSimplifyHelper, isOperator, isPower, Expr.eval,
      to_string_natCast, numberToken]
  | var name => exact absurd hv (by simp [Expr.VariableFree])
  | bin op l r ihl ihr =>
    obtain ⟨hvl, hvr⟩ := hv
    obtain ⟨hrl, hrr, hdiv, hres⟩ := hr
    have hc := calc_bin op l.eval r.eval (l.eval_inRange hvl hrl) (r.eval_inRange hvr hrr) hdiv hres
    simp [Expr.toTree, traverseAndSimplifyHelper, ihl hvl hrl, ihr hvr hrr, Node.leaf,
      isOperator, BinOp.token, hc, Expr.eval]
  | pow b ex ihb ihe =>
    obtain ⟨hvb, hve⟩ := hv
    obtain ⟨hrb, hre, hnn, hres⟩ := hr
    have hc := calc_pow b.eval ex.eval (b.eval_inRange hvb hrb) (ex.eval_inRange hve hre) hnn hres
    simp [Expr.toTree, traverseAndSimplifyHelper, ihb hvb hrb, ihe hve hre, Node.leaf,
      isOperator, isPower, hc, Expr.eval]
  | paren e ih => exact ih hv hr

theorem toInfix_number (v : String) : toInfix (Node.leaf ⟨number, v⟩) = v := by
  simp [toInfix, toInfixHelper, Node.leaf, isOperator]

/-- The whole pipeline on the tree of a variable-free expression. -/
theorem simplify_expr (e : Expr) (hv : e.VariableFree) (hr : e.InRange) (vars : Variables) :
    simplify e.toTree vars = some (Node.leaf ⟨number, to_string e.eval⟩, vars) := by
  simp [simplify, copyTree_expr, fillVariablesHelper_variableFree e hv,
    traverseAndSimplifyHelper_expr e hv hr]

/-! ## The variable map and the driver -/

theorem Variables.find_append (vars : Variables) (k : String) (a : Node) (key : String) :
    Variables.find (vars ++ [(k, a)]) key
      = match Variables.find vars key with
        | some x => some x
        | none => if k = key then some a else none := by
  induction vars with
  | nil => simp [Variables.find]
  | cons p rest ih =>
    obtain ⟨k1, a1⟩ := p
    by_cases h : k1 = key
    · simp [Variables.find, h]
    · simp only [List.cons_append, Variables.find, h, ↓reduceIte]
      exact ih

theorem Variables.erase_cons (k : String) (a : Node) (rest : Variables) (key : String) :
    Variables.erase ((k, a) :: rest) key
      = if k = key then Variables.erase rest key else (k, a) :: Variables.erase rest key := by
  by_cases h : k = key <;> simp [Variables.erase, List.filter_cons, h]

theorem Variables.find_erase_self (vars : Variables) (key : String) :
    (vars.erase key).find key = none := by
  induction vars with
  | nil => simp [Variables.erase, Variables.find]
  | cons p rest ih =>
    obtain ⟨k1, a1⟩ := p
    rw [Variables.erase_cons]
    by_cases h : k1 = key
    · simpa [h] using ih
    · simpa [h, Variables.find] using ih

theorem Variables.find_erase_ne (vars : Variables) (key other : String) (hne : other ≠ key) :
    (vars.erase key).find other = vars.find other := by
  induction vars with
  | nil => simp [Variables.erase, Variables.find]
  | cons p rest ih =>
    obtain ⟨k1, a1⟩ := p
    rw [Variables.erase_cons]
    by_cases h : k1 = key
    · subst h
      simpa [Variables.find, Ne.symm hne] using ih
    · by_cases h2 : k1 = other
      · subst h2
        simp [hne, Variables.find]
      · simpa [h, Variables.find, h2] using ih

theorem Variables.find_insert_self (vars : Variables) (key : String) (a : Node)
    (h : vars.find key = none) : (vars.insert key a).find key = some a := by
  simp [Variables.insert, h, Variables.find_append]

theorem Variables.find_insert_ne (vars : Variables) (key other : String) (a : Node)
    (hne : other ≠ key) : (vars.insert key a).find other = vars.find other := by
  unfold Variables.insert
  cases h : vars.find key with
  | some x => rfl
  | none =>
    simp only [Variables.find_append]
    cases vars.find other with
    | some y => rfl
    | none => simp [Ne.symm hne]

/-- The map after `assignVariable` has erased the entry of `v` and inserted a new tree. -/
theorem assignVariable_spec (v : String) (pfx : List Token) (vars : Variables) (ast : Node)
    (hlen : pfx.length ≠ 2) (hast : constructTree pfx = some ast) :
    ∃ vars1, assignVariable v pfx vars = some vars1 ∧ vars1.find v = some ast ∧
      ∀ other, other ≠ v → vars1.find other = vars.find other := by
  unfold assignVariable
  simp only [hlen, ↓reduceIte, hast]
  refine ⟨_, rfl, ?_, ?_⟩
  · cases h : vars.find v with
    | some x => simp [Variables.find_insert_self, Variables.find_erase_self]
    | none => simp [Variables.find_insert_self, h]
  · intro other hne
    cases h : vars.find v with
    | some x => simp [Variables.find_insert_ne _ _ _ _ hne, Variables.find_erase_ne _ _ _ hne]
    | none => simp [Variables.find_insert_ne _ _ _ _ hne]

theorem Expr.toPostfix_length_odd (e : Expr) : e.toPostfix.length % 2 = 1 := by
  induction e with
  | num n => rfl
  | var name => rfl
  | bin op l r ihl ihr => simp only [Expr.toPostfix, List.length_append, List.length_singleton]; omega
  | pow b ex ihb ihe => simp only [Expr.toPostfix, List.length_append, List.length_singleton]; omega
  | paren e ih => exact ih

theorem isValid_probeLine (rp : Int) (v : String) : isValid rp (probeLine v) = some true := rfl

theorem convertPostfix_probe (v : String) :
    convertPostfix [variableToken v, eolToken] = some [variableToken v] := by
  simp [convertPostfix, convertPostfixLoop, isLeftParen, isRightParen]

theorem constructTree_variable (v : String) :
    constructTree [variableToken v] = some (Node.leaf (variableToken v)) := by
  simp [constructTree, constructTreeLoop, isOperator, isPower, isOperand]

theorem constructTree_probeLine (v : String) :
    constructTree (probeLine v) = some (Node.leaf (variableToken v)) := by
  simp [probeLine, constructTree, constructTreeLoop, isOperator, isPower, isOperand]

/-- Function `simplify` on the single node of a variable: the stored tree, folded. -/
theorem simplify_variable_leaf (v : String) (vars : Variables) (a : Node)
    (hfind : vars.find v = some a) (ha : a ≠ Node.null) :
    simplify (Node.leaf (variableToken v)) vars
      = (traverseAndSimplifyHelper a).map (fun r => (r, vars)) := by
  simp [simplify, Node.leaf, copyTree, fillVariablesHelper, isVariable, hfind,
    copyTree_of_ne_null a ha]

/-- The bare-variable branch: the solution is the folded tree stored under `v`; the map
gains the key `:=`, every other key keeps its tree. -/
theorem evaluateStatement_probe (v : String) (vars : Variables) (a r : Node)
    (hv : v ≠ ":=") (hfind : vars.find v = some a) (ha : a ≠ Node.null)
    (hfold : traverseAndSimplifyHelper a = some r) :
    ∃ vars1, evaluateStatement (probeLine v) vars = some (toInfix r, vars1) ∧
      vars1.find ":=" = some (Node.leaf (variableToken v)) ∧
      ∀ other, other ≠ ":=" → vars1.find other = vars.find other := by
  obtain ⟨vars1, h1, h2, h3⟩ := assignVariable_spec ":=" [variableToken v] vars _
    (by simp) (constructTree_variable v)
  refine ⟨vars1, ?_, h2, h3⟩
  have hf : vars1.find v = some a := by rw [h3 v hv, hfind]
  have hc := constructTree_probeLine v
  simp only [probeLine] at hc
  simp [evaluateStatement, probeLine, isAnAssignment, hc, probeRewrite,
    assignVariableHelper, convertPostfix_probe, h1, simplify_variable_leaf v vars1 a hf ha, hfold]

/-- The assignment branch on `v := e` for a well-formed, variable-free expression in range. -/
theorem evaluateStatement_assign (v : String) (e : Expr) (vars : Variables)
    (hwf : e.WellFormed) (hvf : e.VariableFree) (hr : e.InRange) :
    ∃ vars1, evaluateStatement (assignLine v e) vars = some (to_string e.eval, vars1) ∧
      vars1.find v = some e.toTree ∧
      ∀ other, other ≠ v → vars1.find other = vars.find other := by
  obtain ⟨vars1, h1, h2, h3⟩ := assignVariable_spec v e.toPostfix vars _
    (by have := e.toPostfix_length_odd; omega) (constructTree_expr e)
  refine ⟨vars1, ?_, h2, h3⟩
  have hcp : convertPostfix (e.tokens ++ [eolToken]) = some e.toPostfix := convertPostfix_expr e hwf
  simp [evaluateStatement, assignLine, isAnAssignment, assignVariableHelper, hcp, h1,
    constructTree_expr, simplify_expr e hvf hr, toInfix_number]

/-- One substitution pass succeeds and returns the map it was given, when every variable of the
tree is bound to a tree. -/
theorem fillVariablesHelper_frame (t : Node) (s : Variables)
    (hb : ∀ v ∈ t.variables, ∃ a, s.find v = some a ∧ a ≠ Node.null) :
    ∃ filled, fillVariablesHelper t s = some (filled, s) := by
  induction t with
  | null => exact ⟨Node.null, rfl⟩
  | mk token left right ihl ihr =>
    have hl : ∀ v ∈ left.variables, ∃ a, s.find v = some a ∧ a ≠ Node.null := by
      intro v hv
      exact hb v (by simp [Node.variables, hv])
    have hr : ∀ v ∈ right.variables, ∃ a, s.find v = some a ∧ a ≠ Node.null := by
      intro v hv
      exact hb v (by simp [Node.variables, hv])
    obtain ⟨fl, hfl⟩ := ihl hl
    obtain ⟨fr, hfr⟩ := ihr hr
    by_cases hvar : isVariable token = true
    · obtain ⟨a, ha, hne⟩ := hb token.value_ (by simp [Node.variables, hvar])
      exact ⟨a, by simp [fillVariablesHelper, hfl, hfr, hvar, ha, copyTree_of_ne_null a hne]⟩
    · exact ⟨Node.mk token fl fr, by simp [fillVariablesHelper, hfl, hfr, hvar]⟩

theorem initializeVariables_find (c : Char) (hc : c ∈ alph.toList) :
    initializeVariables.find (String.singleton c)
      = some (Node.leaf (variableToken (String.singleton c))) := by
  revert c
  decide

theorem evaluateExpression_expr (e : Expr) (vars : Variables)
    (hwf : e.WellFormed) (hvf : e.VariableFree) (hr : e.InRange) :
    evaluateExpression (exprLine e) vars = some (to_string e.eval) := by
  unfold evaluateExpression exprLine
  rw [convertPostfix_expr e hwf]
  simp only [constructTree_expr, simplify_expr e hvf hr, Option.map_some', toInfix_number]

/-! ## The claims -/

/-- The line `c op n` for an unassigned variable `c`: the number is rendered first. -/
theorem evaluateExpression_variable_op_number (op : BinOp) (n : String) (c : Char)
    (hc : c ∈ alph.toList) :
    evaluateExpression [variableToken (String.singleton c), op.token, numberToken n, eolToken]
        initializeVariables
      = some ("(" ++ n ++ op.text ++ String.singleton c ++ ")") := by
  have hcp : convertPostfix
      [variableToken (String.singleton c), op.token, numberToken n, eolToken]
      = some [variableToken (String.singleton c), numberToken n, op.token] := by
    unfold convertPostfix
    rw [convertPostfixLoop_operand _ (by simp [isOperand]),
      convertPostfixLoop_operator op.token (Or.inl rfl),
      convertPostfixLoop_operand _ (by simp [isOperand]), convertPostfixLoop_eol]
    simp [popOperators]
  have hct : constructTree [variableToken (String.singleton c), numberToken n, op.token]
      = some (Node.mk op.token (Node.leaf (numberToken n))
          (Node.leaf (variableToken (String.singleton c)))) := by
    simp [constructTree, constructTreeLoop, isOperator, isPower, isOperand]
  have hfind := initializeVariables_find c hc
  simp [evaluateExpression, hcp, hct, simplify, copyTree, Node.leaf, fillVariablesHelper,
    isVariable, hfind, traverseAndSimplifyHelper, isOperator, isPower, toInfix, toInfixHelper]


/-- C1, as amended: for every well-formed expression without variables, whose number literals
are written without leading zeros and whose literals and intermediate values are all `int`s,
with no zero divisor and no negative exponent, rendering
`simplify(constructTree(convertPostfix(tokens)))` on its line yields the decimal text of the
value of the expression, evaluated with `^` above `* /` above `+ -`, left-associative
`+ - * /`, right-associative `^` and truncating division; whatever the variable map. -/
theorem roundTrip_wellFormed (e : Expr) (vars : Variables)
    (hwf : e.WellFormed) (hvf : e.VariableFree) (hr : e.InRange) :
    evaluateExpression (exprLine e) vars = some (to_string e.eval) :=
  evaluateExpression_expr e vars hwf hvf hr

/-- Witness for C1: the line `2^3^2-10/4*(1+2)` renders `506`. -/
theorem roundTrip_wellFormed_witness :
    sampleExpr.WellFormed ∧ sampleExpr.VariableFree ∧ sampleExpr.InRange ∧
      evaluateExpression (exprLine sampleExpr) initializeVariables = some "506" :=
  ⟨by decide, by decide, by decide,
    roundTrip_wellFormed sampleExpr initializeVariables (by decide) (by decide) (by decide)⟩

/-- Counterexample to C1 as stated. The line `3000000000+0` is well formed, has no variable and
is accepted by `isValid`; its value is 3000000000, but `stoi` throws on the first literal and
nothing is rendered. The line `1+2+` has no variable and is accepted by `isValid`, but
`constructTree` pops an empty stack. The line `007` is accepted and renders `007`, which is
not the decimal text `7` of its value. -/
theorem roundTrip_validated_counterexample :
    (bigSumExpr.WellFormed ∧ bigSumExpr.VariableFree ∧
      (∀ rp, isValid rp (exprLine bigSumExpr) = some true) ∧
      bigSumExpr.eval = 3000000000 ∧
      evaluateExpression (exprLine bigSumExpr) initializeVariables = none) ∧
    ((∀ rp, isValid rp trailingOperatorLine = some true) ∧
      (∀ t ∈ trailingOperatorLine, t.type_ ≠ .variable) ∧
      evaluateExpression trailingOperatorLine initializeVariables = none) ∧
    ((∀ rp, isValid rp [numberToken "007", eolToken] = some true) ∧
      stoi "007" = some 7 ∧
      evaluateExpression [numberToken "007", eolToken] initializeVariables = some "007" ∧
      to_string 7 = "7") :=
  ⟨⟨by decide, by decide, fun _ => rfl, by decide, by decide⟩,
    ⟨fun _ => rfl, by decide, by decide⟩,
    ⟨fun _ => rfl, by decide, by decide, by decide⟩⟩

/-- C2, as amended: for every variable name `v` other than the text `:=` (so for every
letter) and every well-formed variable-free expression `e` whose literals and intermediate
values are all `int`s, with no zero divisor and no negative exponent, and whose assignment
line `[Variable v, AssignOp, e..., EndOfLine]` is accepted by `isValid`: from any map, the
session renders the decimal value of `e` for that line, renders it again for the bare line
`[Variable v, EndOfLine]`, the probe leaves the binding of `v` as it was, and a second probe
renders the same value. -/
theorem assignment_persists (v : String) (e : Expr) (vars : Variables) (rp1 rp2 rp3 : Int)
    (hv : v ≠ ":=") (hwf : e.WellFormed) (hvf : e.VariableFree) (hr : e.InRange)
    (hvalid : isValid rp1 (assignLine v e) = some true) :
    ∃ vars1 vars2 vars3,
      calculateStep rp1 (assignLine v e) vars = some (some (to_string e.eval), vars1) ∧
      calculateStep rp2 (probeLine v) vars1 = some (some (to_string e.eval), vars2) ∧
      vars2.find v = vars1.find v ∧
      calculateStep rp3 (probeLine v) vars2 = some (some (to_string e.eval), vars3) := by
  obtain ⟨vars1, ha, hf1, _⟩ := evaluateStatement_assign v e vars hwf hvf hr
  have hfold := traverseAndSimplifyHelper_expr e hvf hr
  obtain ⟨vars2, hp2, _, hk2⟩ :=
    evaluateStatement_probe v vars1 e.toTree _ hv hf1 e.toTree_ne_null hfold
  have hf2 : vars2.find v = some e.toTree := by rw [hk2 v hv, hf1]
  obtain ⟨vars3, hp3, _, _⟩ :=
    evaluateStatement_probe v vars2 e.toTree _ hv hf2 e.toTree_ne_null hfold
  refine ⟨vars1, vars2, vars3, ?_, ?_, ?_, ?_⟩
  · simp [calculateStep, hvalid, ha]
  · simp [calculateStep, isValid_probeLine, hp2, toInfix_number]
  · rw [hf2, hf1]
  · simp [calculateStep, isValid_probeLine, hp3, toInfix_number]

/-- Witness for C2: from the initial map, `x:=4+1` renders `5`, then `x` renders `5`, twice,
with the binding of `x` unchanged by the probe. -/
theorem assignment_persists_witness :
    ∃ vars1 vars2 vars3,
      calculateStep 0 (assignLine "x" (.bin .add (.num 4) (.num 1))) initializeVariables
        = some (some "5", vars1) ∧
      calculateStep 0 (probeLine "x") vars1 = some (some "5", vars2) ∧
      vars2.find "x" = vars1.find "x" ∧
      calculateStep 0 (probeLine "x") vars2 = some (some "5", vars3) :=
  assignment_persists "x" (.bin .add (.num 4) (.num 1)) initializeVariables 0 0 0
    (by decide) (by decide) (by decide) (by decide) (by decide)

/-- Counterexample to C2 as stated. For `x := 3000000000+0`, a well-formed variable-free
expression whose line `isValid` accepts, `stoi` throws and the session renders nothing. For
`x := 1+1+...+1` with 40 additions, a well-formed variable-free expression of value 41, the
line has 84 tokens and is rejected, the map stays as it was, and the probe `x` renders `x`. -/
theorem assignment_persists_counterexample :
    (bigSumExpr.WellFormed ∧ bigSumExpr.VariableFree ∧
      isValid 0 (assignLine "x" bigSumExpr) = some true ∧
      calculateStep 0 (assignLine "x" bigSumExpr) initializeVariables = none) ∧
    ((onesSum 40).WellFormed ∧ (onesSum 40).VariableFree ∧ (onesSum 40).InRange ∧
      (onesSum 40).eval = 41 ∧
      calculateStep 0 (assignLine "x" (onesSum 40)) initializeVariables
        = some (none, initializeVariables) ∧
      (calculateStep 0 (probeLine "x") initializeVariables).map (fun r => r.1)
        = some (some "x")) :=
  ⟨⟨by decide, by decide, by decide, by decide⟩,
    ⟨by decide, by decide, by decide, by decide, by decide, by decide⟩⟩

/-- C3, the code at the failing input: with the initial map, the line `x-1` renders `(1-x)`,
the operands in reverse order, and not `(x-1)`; and so for every line `c op n` with a letter
`c`, a binary operator `op` and a number `n`, which renders `(n op c)`. -/
theorem render_reverses_operands :
    evaluateExpression [variableToken "x", BinOp.sub.token, numberToken "1", eolToken]
        initializeVariables = some "(1-x)" ∧
      evaluateExpression [variableToken "x", BinOp.sub.token, numberToken "1", eolToken]
        initializeVariables ≠ some "(x-1)" ∧
      (∀ (op : BinOp) (n : String) (c : Char), c ∈ alph.toList →
        evaluateExpression
            [variableToken (String.singleton c), op.token, numberToken n, eolToken]
            initializeVariables
          = some ("(" ++ n ++ op.text ++ String.singleton c ++ ")")) :=
  ⟨by decide, by decide, evaluateExpression_variable_op_number⟩

/-- C4, the code at the failing input: `toInfix` of a node that holds a `powop` token is the
text of that token alone, whatever its children; the tree of `x^2` renders `^`. A node that
holds a `binop` token does render as `(`, its `left` child, the operator text, its `right`
child, `)`, and a node that holds a number or a variable renders as its text. -/
theorem toInfix_power_node_text_only :
    (∀ (v : String) (l r : Node), toInfix (Node.mk ⟨powop, v⟩ l r) = v) ∧
      constructTree [variableToken "x", numberToken "2", powToken] = some xSquaredTree ∧
      toInfix xSquaredTree = "^" ∧
      evaluateExpression [variableToken "x", powToken, numberToken "2", eolToken]
        initializeVariables = some "^" ∧
      (∀ (v : String) (l r : Node),
        toInfix (Node.mk ⟨binop, v⟩ l r) = "(" ++ toInfix l ++ v ++ toInfix r ++ ")") ∧
      (∀ (v : String) (l r : Node), toInfix (Node.mk (numberToken v) l r) = v) ∧
      (∀ (v : String) (l r : Node), toInfix (Node.mk (variableToken v) l r) = v) :=
  ⟨fun v l r => by simp [toInfix, toInfixHelper, isOperator], by decide, by decide, by decide,
    fun v l r => by simp [toInfix, toInfixHelper, isOperator],
    fun v l r => by simp [toInfix, toInfixHelper, isOperator],
    fun v l r => by simp [toInfix, toInfixHelper, isOperator]⟩

/-- C5: higher precedence binds tighter. For all operand tokens `a b c`, every operator `lo`
among `+ -` and every operator `hi` among `* / ^`,
`convertPostfix [a, lo, b, hi, c] = [a, b, c, hi, lo]`. -/
theorem convertPostfix_higher_precedence (a b c lo hi : Token)
    (ha : isOperand a = true) (hb : isOperand b = true) (hc : isOperand c = true)
    (hlo : lo = BinOp.add.token ∨ lo = BinOp.sub.token)
    (hhi : hi = BinOp.mul.token ∨ hi = BinOp.div.token ∨ hi = powToken) :
    convertPostfix [a, lo, b, hi, c] = some [a, b, c, hi, lo] := by
  have hp : hasPrecedence lo hi = false := by
    rcases hlo with rfl | rfl <;> rcases hhi with rfl | rfl | rfl <;> decide
  have hlt : lo.type_ = binop ∨ lo.type_ = powop := by
    rcases hlo with rfl | rfl <;> exact Or.inl rfl
  have hht : hi.type_ = binop ∨ hi.type_ = powop := by
    rcases hhi with rfl | rfl | rfl
    · exact Or.inl rfl
    · exact Or.inl rfl
    · exact Or.inr rfl
  unfold convertPostfix
  rw [convertPostfixLoop_operand a ha, convertPostfixLoop_operator lo hlt,
    convertPostfixLoop_operand b hb, convertPostfixLoop_operator hi hht,
    convertPostfixLoop_operand c hc]
  simp [convertPostfixLoop, popOperators, hp]

/-- Witness for C5: the tokens of `1 + 2 * 3` yield `1 2 3 * +`. -/
theorem convertPostfix_higher_precedence_witness :
    convertPostfix
        [numberToken "1", BinOp.add.token, numberToken "2", BinOp.mul.token, numberToken "3"]
      = some
        [numberToken "1", numberToken "2", numberToken "3", BinOp.mul.token, BinOp.add.token] :=
  convertPostfix_higher_precedence (numberToken "1") (numberToken "2") (numberToken "3")
    BinOp.add.token BinOp.mul.token (by decide) (by decide) (by decide)
    (Or.inl rfl) (Or.inl rfl)

/-- C6: the power operator is right-associative. For all operand tokens `a b c` and power
tokens `p q`, `convertPostfix [a, p, b, q, c] = [a, b, c, q, p]`. -/
theorem convertPostfix_power_right_assoc (a b c p q : Token)
    (ha : isOperand a = true) (hb : isOperand b = true) (hc : isOperand c = true)
    (hp : p.type_ = powop) (hq : q.type_ = powop) :
    convertPostfix [a, p, b, q, c] = some [a, b, c, q, p] := by
  have hpq : hasPrecedence p q = false := by
    simp [hasPrecedence, precedence, isRightAssoc, hp, hq]
  unfold convertPostfix
  rw [convertPostfixLoop_operand a ha, convertPostfixLoop_operator p (Or.inr hp),
    convertPostfixLoop_operand b hb, convertPostfixLoop_operator q (Or.inr hq),
    convertPostfixLoop_operand c hc]
  simp [convertPostfixLoop, popOperators, hpq]

/-- Witness for C6: the tokens of `2 ^ 3 ^ 2` yield `2 3 2 ^ ^`, which is not
`2 3 ^ 2 ^`. -/
theorem convertPostfix_power_right_assoc_witness :
    convertPostfix [numberToken "2", powToken, numberToken "3", powToken, numberToken "2"]
        = some [numberToken "2", numberToken "3", numberToken "2", powToken, powToken] ∧
      convertPostfix [numberToken "2", powToken, numberToken "3", powToken, numberToken "2"]
        ≠ some [numberToken "2", numberToken "3", powToken, numberToken "2", powToken] :=
  ⟨convertPostfix_power_right_assoc (numberToken "2") (numberToken "3") (numberToken "2")
      powToken powToken (by decide) (by decide) (by decide) rfl rfl,
    by decide⟩

/-- C7: binary operators of equal precedence are left-associative. For all operand tokens
`a b c` and binary operators `o1 o2` of the same level (both among `+ -` or both among
`* /`), `convertPostfix [a, o1, b, o2, c] = [a, b, o1, c, o2]`. -/
theorem convertPostfix_equal_precedence_left_assoc (a b c : Token) (o1 o2 : BinOp)
    (ha : isOperand a = true) (hb : isOperand b = true) (hc : isOperand c = true)
    (hlevel : o1.level = o2.level) :
    convertPostfix [a, o1.token, b, o2.token, c] = some [a, b, o1.token, c, o2.token] := by
  have hpq : hasPrecedence o1.token o2.token = true := by
    rw [hasPrecedence_bin_bin]
    simp [hlevel]
  have hl : isLeftParen o1.token = false := isLeftParen_bin o1
  unfold convertPostfix
  rw [convertPostfixLoop_operand a ha, convertPostfixLoop_operator o1.token (Or.inl rfl),
    convertPostfixLoop_operand b hb, convertPostfixLoop_operator o2.token (Or.inl rfl),
    convertPostfixLoop_operand c hc]
  simp [convertPostfixLoop, popOperators, hpq, hl]

/-- Witness for C7: the tokens of `a - b - c` yield `a b - c -`. -/
theorem convertPostfix_equal_precedence_left_assoc_witness :
    convertPostfix
        [variableToken "a", BinOp.sub.token, variableToken "b", BinOp.sub.token,
          variableToken "c"]
      = some
        [variableToken "a", variableToken "b", BinOp.sub.token, variableToken "c",
          BinOp.sub.token] :=
  convertPostfix_equal_precedence_left_assoc (variableToken "a") (variableToken "b")
    (variableToken "c") BinOp.sub BinOp.sub (by decide) (by decide) (by decide) rfl

/-- C9: an unassigned variable simplifies to itself. With the initial map, for every letter
`c` of the alphabet, `simplify` of the single node `Variable(c)` returns that single node (and
the map as it was), and the node renders as `c`. -/
theorem simplify_unassigned_variable (c : Char) (hc : c ∈ alph.toList) :
    simplify (Node.leaf (variableToken (String.singleton c))) initializeVariables
        = some (Node.leaf (variableToken (String.singleton c)), initializeVariables) ∧
      toInfix (Node.leaf (variableToken (String.singleton c))) = String.singleton c := by
  constructor
  · rw [simplify_variable_leaf _ _ _ (initializeVariables_find c hc) (by simp [Node.leaf])]
    simp [Node.leaf, traverseAndSimplifyHelper, isOperator, isPower]
  · simp [toInfix, toInfixHelper, Node.leaf, isOperator]

/-- Witness for C9: the variable `q`. -/
theorem simplify_unassigned_variable_witness :
    simplify (Node.leaf (variableToken "q")) initializeVariables
        = some (Node.leaf (variableToken "q"), initializeVariables) ∧
      toInfix (Node.leaf (variableToken "q")) = "q" :=
  simplify_unassigned_variable 'q' (by decide)

/-- C10, the code at the failing input: `isValid` accepts the line `1+2+`, whose second `+` is
followed by `EndOfLine`: `isValidBinop` returns at the first `binop`. -/
theorem isValid_accepts_trailing_operator :
    (∀ rp, isValid rp trailingOperatorLine = some true) ∧
      isValidBinop trailingOperatorLine = some true :=
  ⟨fun _ => rfl, rfl⟩

/-! ## The validator, check by check -/

theorem andThen_eq_some_true (a b : Option Bool) :
    andThen a b = some true ↔ a = some true ∧ b = some true := by
  cases a with
  | none => simp [andThen]
  | some x => cases x <;> simp [andThen]

/-- What acceptance by `isValid` gives: every check returned true. -/
theorem isValid_accepts (rp : Int) (toks : List Token) (h : isValid rp toks = some true) :
    isValidToken toks = true ∧ isValidFirstToken toks = true ∧
      isValidLastToken toks = some true ∧ isValidSize toks = true ∧
      isValidBinop toks = some true ∧ isValidAssignop toks = true ∧ isValidEol toks = true ∧
      isValidLParen toks = some true ∧ isValidNumber toks = some true ∧
      isValidPowop rp toks = some true ∧ isValidRParen toks = some true := by
  simp only [isValid, andThen_eq_some_true, Option.some.injEq] at h
  exact h

theorem isValid_first_token_rejected (rp : Int) (t : Token) (rest : List Token)
    (h1 : t.type_ ≠ .variable) (h2 : t.type_ ≠ number) (h3 : t.type_ ≠ lparen) :
    isValid rp (t :: rest) = some false := by
  have hf : isValidFirstToken (t :: rest) = false := by simp [isValidFirstToken, h1, h2, h3]
  cases ht : isValidToken (t :: rest) <;> simp [isValid, andThen, ht, hf]

theorem isValidLastToken_cons (t : Token) (rest : List Token) :
    ∃ b, isValidLastToken (t :: rest) = some b := by
  unfold isValidLastToken
  cases h : (t :: rest).getLast? with
  | none => simp at h
  | some x => exact ⟨_, rfl⟩

theorem isValid_long_rejected (rp : Int) (toks : List Token) (h : toks.length > 80) :
    isValid rp toks = some false := by
  have hs : isValidSize toks = false := by simp [isValidSize, h]
  cases toks with
  | nil => simp at h
  | cons t rest =>
    obtain ⟨b, hb⟩ := isValidLastToken_cons t rest
    cases ht : isValidToken (t :: rest) <;> cases hf : isValidFirstToken (t :: rest) <;>
      cases b <;> simp [isValid, andThen, ht, hf, hb, hs]

theorem isValidSize_iff (toks : List Token) : isValidSize toks = true ↔ toks.length ≤ 80 := by
  unfold isValidSize
  by_cases h : toks.length > 80
  · simp [h]
  · simp [h]; omega

theorem isValid_last_is_eol (rp : Int) (toks : List Token) (h : isValid rp toks = some true) :
    ∃ t, toks.getLast? = some t ∧ t.type_ = eol := by
  have hl := (isValid_accepts rp toks h).2.2.1
  unfold isValidLastToken at hl
  cases hg : toks.getLast? with
  | none => simp [hg] at hl
  | some t =>
    refine ⟨t, rfl, ?_⟩
    simp only [hg, Option.some.injEq] at hl
    by_contra hne
    simp [hne] at hl

/-- `isValidNumber` returns at the first number: its verdict is the test on the token after it,
whatever follows. -/
theorem isValidNumber_first (pre post : List Token) (n x : Token)
    (hpre : ∀ t ∈ pre, t.type_ ≠ number) (hn : n.type_ = number) :
    isValidNumber (pre ++ n :: x :: post)
      = some (if x.type_ = binop ∨ x.type_ = rparen ∨ x.type_ = powop ∨ x.type_ = eol
          then true else false) := by
  induction pre with
  | nil => simp [isValidNumber, hn]
  | cons t rest ih =>
    have ht : t.type_ ≠ number := hpre t (List.mem_cons_self _ _)
    simp only [List.cons_append, isValidNumber, ht, ↓reduceIte]
    exact ih (fun u hu => hpre u (List.mem_cons_of_mem _ hu))

theorem isValidPowopLoop_skip (rp : Int) (whole pre rest : List Token) (i : Nat)
    (hpre : ∀ t ∈ pre, t.type_ ≠ powop) :
    isValidPowopLoop rp whole (pre ++ rest) i
      = isValidPowopLoop rp whole rest (i + pre.length) := by
  induction pre generalizing i with
  | nil => simp
  | cons t tl ih =>
    have ht : t.type_ ≠ powop := hpre t (List.mem_cons_self _ _)
    simp only [List.cons_append, isValidPowopLoop, ht, ↓reduceIte, List.length_cons,
      List.append_eq]
    rw [ih (i + 1) (fun u hu => hpre u (List.mem_cons_of_mem _ hu))]
    congr 1
    omega

/-- `isValidPowop` returns at the first power operator: true when a number follows it. -/
theorem isValidPowop_first_number (rp : Int) (pre post : List Token) (p n : Token)
    (hpre : ∀ t ∈ pre, t.type_ ≠ powop) (hp : p.type_ = powop) (hn : n.type_ = number) :
    isValidPowop rp (pre ++ p :: n :: post) = some true := by
  unfold isValidPowop
  rw [isValidPowopLoop_skip rp _ pre _ 0 hpre]
  simp [isValidPowopLoop, hp, hn]

/-- `isValidPowop` returns at the first power operator: false when neither a number nor a left
parenthesis follows it. -/
theorem isValidPowop_first_other (rp : Int) (pre post : List Token) (p n : Token)
    (hpre : ∀ t ∈ pre, t.type_ ≠ powop) (hp : p.type_ = powop)
    (hn : n.type_ ≠ number) (hl : n.type_ ≠ lparen) :
    isValidPowop rp (pre ++ p :: n :: post) = some false := by
  unfold isValidPowop
  rw [isValidPowopLoop_skip rp _ pre _ 0 hpre]
  simp [isValidPowopLoop, hp, hn, hl]

/-- `isValidPowop` at a first power operator followed by a left parenthesis is
`isValidPowHelper` at the index of that parenthesis. -/
theorem isValidPowop_first_lparen (rp : Int) (pre post : List Token) (p n : Token)
    (hpre : ∀ t ∈ pre, t.type_ ≠ powop) (hp : p.type_ = powop) (hl : n.type_ = lparen) :
    isValidPowop rp (pre ++ p :: n :: post)
      = isValidPowHelper rp (pre ++ p :: n :: post) (pre.length + 1) := by
  unfold isValidPowop
  rw [isValidPowopLoop_skip rp _ pre _ 0 hpre]
  simp [isValidPowopLoop, hp, hl]

/-- The second loop of `isValidPowHelper` runs to its end only when the bound `rp` lies below
the end of the vector. -/
theorem isValidPowHelperCheck_true (rp : Int) (l : List Token) (j : Nat)
    (h : isValidPowHelperCheck rp l j = some true) : rp < (j + l.length : Nat) := by
  induction l generalizing j with
  | nil =>
    unfold isValidPowHelperCheck at h
    by_cases hj : (j : Int) ≤ rp
    · simp [hj] at h
    · simp only [List.length_nil, Nat.add_zero]; omega
  | cons t rest ih =>
    unfold isValidPowHelperCheck at h
    by_cases hj : (j : Int) ≤ rp
    · simp only [hj, ↓reduceIte] at h
      by_cases hv : t.type_ = .variable
      · simp [hv] at h
      · simp only [hv, ↓reduceIte] at h
        have := ih (j + 1) h
        simp only [List.length_cons]
        omega
    · simp only [List.length_cons]; push_cast; omega

/-- The first loop of `isValidPowHelper`, started inside the vector, ends only after `j` has been
set to `rp + 1` beyond the end of the vector. -/
theorem isValidPowHelperScan_some (toks : List Token) (rp : Int) (fuel j : Nat)
    (hj : j ≤ toks.length) (h : isValidPowHelperScan toks rp fuel j = some ()) :
    toks.length < rp.toNat + 1 := by
  induction fuel generalizing j with
  | zero => simp [isValidPowHelperScan] at h
  | succ fuel ih =>
    unfold isValidPowHelperScan at h
    simp only [hj, ↓reduceIte, List.get?_eq_getElem?] at h
    cases hg : toks[j]? with
    | none => simp [hg] at h
    | some t =>
      have hlt : j < toks.length := by
        by_contra hge
        have : toks[j]? = none := List.getElem?_eq_none (by omega)
        rw [this] at hg
        cases hg
      simp only [hg] at h
      by_cases ht : t.type_.toInt = rp
      · simp only [ht, ↓reduceIte] at h
        by_contra hle
        exact hle (ih (rp.toNat + 1) (by omega) h)
      · simp only [ht, ↓reduceIte] at h
        exact ih (j + 1) (by omega) h

/-- `isValidPowHelper`, called at an index inside the vector, never returns true. -/
theorem isValidPowHelper_ne_true (rp : Int) (toks : List Token) (lparen : Nat)
    (hl : lparen < toks.length) : isValidPowHelper rp toks lparen ≠ some true := by
  intro h
  unfold isValidPowHelper at h
  cases hs : isValidPowHelperScan toks rp (2 * toks.length + 4) (lparen + 1) with
  | none => simp [hs] at h
  | some u =>
    simp only [hs] at h
    have h1 := isValidPowHelperScan_some toks rp _ _ (by omega) hs
    have h2 := isValidPowHelperCheck_true rp _ _ h
    simp only [List.length_drop] at h2
    have h3 : lparen + 1 + (toks.length - (lparen + 1)) = toks.length := by omega
    rw [h3] at h2
    omega

/-- A sequence whose first power operator is followed by a left parenthesis is never accepted by
`isValidPowop`. -/
theorem isValidPowop_lparen_ne_true (rp : Int) (pre post : List Token) (p n : Token)
    (hpre : ∀ t ∈ pre, t.type_ ≠ powop) (hp : p.type_ = powop) (hl : n.type_ = lparen) :
    isValidPowop rp (pre ++ p :: n :: post) ≠ some true := by
  rw [isValidPowop_first_lparen rp pre post p n hpre hp hl]
  exact isValidPowHelper_ne_true rp _ _ (by simp)

/-- The second loop of `isValidPowHelper` returns false only at a variable. -/
theorem isValidPowHelperCheck_false (rp : Int) (l : List Token) (j : Nat)
    (h : isValidPowHelperCheck rp l j = some false) : ∃ t ∈ l, t.type_ = .variable := by
  induction l generalizing j with
  | nil =>
    unfold isValidPowHelperCheck at h
    by_cases hj : (j : Int) ≤ rp <;> simp [hj] at h
  | cons t rest ih =>
    unfold isValidPowHelperCheck at h
    by_cases hj : (j : Int) ≤ rp
    · simp only [hj, ↓reduceIte] at h
      by_cases hv : t.type_ = .variable
      · exact ⟨t, List.mem_cons_self _ _, hv⟩
      · simp only [hv, ↓reduceIte] at h
        obtain ⟨u, hu, huv⟩ := ih (j + 1) h
        exact ⟨u, List.mem_cons_of_mem _ hu, huv⟩
    · simp [hj] at h

/-- `isValidPowHelper` returns false only when a variable comes after the parenthesis. -/
theorem isValidPowHelper_false (rp : Int) (toks : List Token) (lparen : Nat)
    (h : isValidPowHelper rp toks lparen = some false) :
    ∃ t ∈ toks.drop (lparen + 1), t.type_ = .variable := by
  unfold isValidPowHelper at h
  split at h
  · cases h
  · exact isValidPowHelperCheck_false rp _ _ h

/-- When the first power operator is followed by a left parenthesis and no variable comes after
it, `isValidPowop` has no result, whatever value the uninitialised local holds. -/
theorem isValidPowop_lparen_none (rp : Int) (pre post : List Token) (p n : Token)
    (hpre : ∀ t ∈ pre, t.type_ ≠ powop) (hp : p.type_ = powop) (hl : n.type_ = lparen)
    (hpost : ∀ t ∈ post, t.type_ ≠ .variable) :
    isValidPowop rp (pre ++ p :: n :: post) = none := by
  have hne := isValidPowop_lparen_ne_true rp pre post p n hpre hp hl
  cases hr : isValidPowop rp (pre ++ p :: n :: post) with
  | none => rfl
  | some b =>
    cases b with
    | true => exact absurd hr hne
    | false =>
      exfalso
      rw [isValidPowop_first_lparen rp pre post p n hpre hp hl] at hr
      obtain ⟨t, ht, htv⟩ := isValidPowHelper_false rp _ _ hr
      have hd : List.drop (pre.length + 1 + 1) (pre ++ p :: n :: post) = post := by
        have : pre ++ p :: n :: post = (pre ++ [p, n]) ++ post := by simp
        rw [this, List.drop_append_of_le_length (by simp)]
        simp
      rw [hd] at ht
      exact hpost t ht htv

theorem isValidPowop_powParenLine (rp : Int) : isValidPowop rp powParenLine = none :=
  isValidPowop_lparen_none rp [numberToken "3"] _ powToken lparenToken
    (by decide) rfl rfl (by decide)

theorem isValidPowop_powParenVariableLine (rp : Int) :
    isValidPowop rp powParenVariableLine ≠ some true :=
  isValidPowop_lparen_ne_true rp [numberToken "3"] _ powToken lparenToken (by decide) rfl rfl

/-- `isValidEol` returns true on every vector. -/
theorem isValidEol_true (toks : List Token) : isValidEol toks = true := by
  induction toks with
  | nil => rfl
  | cons t rest ih =>
    unfold isValidEol
    by_cases h : t.type_ = eol
    · by_cases hr : rest = [] <;> simp [h, hr, ih]
    · simp [h, ih]

theorem probeRewrite_probeLine (v : String) :
    probeRewrite (probeLine v) = [assignToken, assignToken, variableToken v, eolToken] := rfl

/-! ## More on the variable map -/

theorem Variables.filter_of_find_none (vars : Variables) (key : String)
    (h : vars.find key = none) : vars.filter (fun q => decide (q.1 = key)) = [] := by
  induction vars with
  | nil => rfl
  | cons q rest ih =>
    obtain ⟨k, a⟩ := q
    by_cases hk : k = key
    · simp [Variables.find, hk] at h
    · simp only [Variables.find, hk, ↓reduceIte] at h
      simp [List.filter_cons, hk, ih h]

/-- After `assignVariable` on a sequence that is not two tokens long, the map holds exactly one
entry for `v`, the new tree. -/
theorem assignVariable_single_entry (v : String) (pfx : List Token) (vars : Variables)
    (ast : Node) (hlen : pfx.length ≠ 2) (hast : constructTree pfx = some ast) :
    ∃ vars1, assignVariable v pfx vars = some vars1 ∧
      vars1.filter (fun q => decide (q.1 = v)) = [(v, ast)] := by
  unfold assignVariable
  simp only [hlen, ↓reduceIte, hast]
  refine ⟨_, rfl, ?_⟩
  cases h : vars.find v with
  | some x =>
    have he := Variables.find_erase_self vars v
    simp only [Variables.insert, he]
    simp [Variables.filter_of_find_none _ _ he]
  | none =>
    simp only [Variables.insert, h]
    simp [Variables.filter_of_find_none _ _ h]

theorem assignVariable_two_tokens (v : String) (pfx : List Token) (vars : Variables)
    (hlen : pfx.length = 2) : assignVariable v pfx vars = some vars := by
  simp [assignVariable, hlen]

/-! ## The claims, continued -/

/-- C11, the code at the failing input: `isValid` accepts the tokens of `1+2 3`, in which the
number 2 is followed by the number 3, because `isValidNumber` returns at the first number of
the vector: its verdict is the test on the token after that number, whatever follows. The
tokens of `5 5` are rejected. -/
theorem isValid_accepts_number_after_number :
    (∀ rp, isValid rp numberAfterNumberLine = some true) ∧
      isValidNumber numberAfterNumberLine = some true ∧
      (∀ rp, isValid rp fiveFiveLine = some false) ∧
      (∀ (pre post : List Token) (n x : Token),
        (∀ t ∈ pre, t.type_ ≠ number) → n.type_ = number →
          isValidNumber (pre ++ n :: x :: post)
            = some (if x.type_ = binop ∨ x.type_ = rparen ∨ x.type_ = powop ∨ x.type_ = eol
                then true else false)) :=
  ⟨fun _ => rfl, rfl, fun _ => rfl, isValidNumber_first⟩

/-- C12: `isValid` rejects every non-empty token sequence whose first token is not Variable,
Number or LParen. -/
theorem isValid_rejects_first_token (rp : Int) (t : Token) (rest : List Token)
    (h1 : t.type_ ≠ .variable) (h2 : t.type_ ≠ number) (h3 : t.type_ ≠ lparen) :
    isValid rp (t :: rest) = some false :=
  isValid_first_token_rejected rp t rest h1 h2 h3

/-- Witness for C12: the tokens of `+5`, whose first token is a BinaryOp, are rejected. -/
theorem isValid_rejects_first_token_witness : isValid 0 plusFiveLine = some false :=
  isValid_rejects_first_token 0 BinOp.add.token [numberToken "5", eolToken]
    (by decide) (by decide) (by decide)

/-- C13, the code at the failing input: `isValid` accepts the tokens of `ab`, two adjacent
Variable tokens, which is what the tokenizer makes of the characters `ab`; `isValidVariable`
returns false on them, but `isValid` never calls it. -/
theorem isValid_never_checks_variables :
    (∀ rp, isValid rp twoVariablesLine = some true) ∧
      isValidVariable twoVariablesLine = some false ∧
      readLine "ab\n".toList = some (twoVariablesLine, []) :=
  ⟨fun _ => rfl, rfl, rfl⟩

/-- C14, the code at the failing inputs: on the tokens of `3^(2+1)` `isValidPowop` returns no
verdict, whatever value the uninitialised local `rparen` of `isValidPowHelper` holds, and so
does `isValid`; no vector whose first PowerOp is followed by LParen is ever accepted. On the
tokens of `3^(x+1)` it returns false when that value is 10 and nothing when it is 4, and never
true. `isValid` accepts the tokens of `2^3^x`, whose second PowerOp is followed by a
Variable. -/
theorem isValidPowop_parenthesis_no_verdict :
    (∀ rp, isValidPowop rp powParenLine = none) ∧
      (∀ rp, isValid rp powParenLine = none) ∧
      (∀ rp (pre post : List Token) (p n : Token),
        (∀ t ∈ pre, t.type_ ≠ powop) → p.type_ = powop → n.type_ = lparen →
          isValidPowop rp (pre ++ p :: n :: post) ≠ some true) ∧
      (∀ rp, isValidPowop rp powParenVariableLine ≠ some true) ∧
      isValidPowop 10 powParenVariableLine = some false ∧
      isValidPowop 4 powParenVariableLine = none ∧
      (∀ rp, isValid rp powPowVariableLine = some true) :=
  ⟨isValidPowop_powParenLine,
    fun rp => by
      have h := isValidPowop_powParenLine rp
      simp only [isValid, h]
      rfl,
    isValidPowop_lparen_ne_true, isValidPowop_powParenVariableLine, by decide, by decide,
    fun _ => rfl⟩

/-- C15: `isValidPowop` decides at the first PowerOp of the vector: it returns true when a
Number follows it, and false when the token that follows it is neither a Number nor an
LParen. -/
theorem isValidPowop_first_power (rp : Int) (pre post : List Token) (p n : Token)
    (hpre : ∀ t ∈ pre, t.type_ ≠ powop) (hp : p.type_ = powop) :
    (n.type_ = number → isValidPowop rp (pre ++ p :: n :: post) = some true) ∧
      (n.type_ ≠ number → n.type_ ≠ lparen →
        isValidPowop rp (pre ++ p :: n :: post) = some false) :=
  ⟨isValidPowop_first_number rp pre post p n hpre hp,
    isValidPowop_first_other rp pre post p n hpre hp⟩

/-- Witness for C15: the tokens of `3^2` are accepted and those of `3^x` rejected. -/
theorem isValidPowop_first_power_witness :
    isValidPowop 0 powNumberLine = some true ∧ isValidPowop 0 powVariableLine = some false :=
  ⟨(isValidPowop_first_power 0 [numberToken "3"] [eolToken] powToken (numberToken "2")
      (by decide) rfl).1 rfl,
    (isValidPowop_first_power 0 [numberToken "3"] [eolToken] powToken (variableToken "x")
      (by decide) rfl).2 (by decide) (by decide)⟩

/-- C16: `isValid` rejects every token sequence with more than 80 tokens, and `isValidSize`
returns true exactly when the sequence has at most 80 tokens, the final EndOfLine counted. -/
theorem isValid_size_limit (rp : Int) (toks : List Token) :
    (toks.length > 80 → isValid rp toks = some false) ∧
      (isValidSize toks = true ↔ toks.length ≤ 80) :=
  ⟨isValid_long_rejected rp toks, isValidSize_iff toks⟩

/-- Witness for C16: 80 numbers and an EndOfLine, 81 tokens, are rejected; 79 numbers and an
EndOfLine pass `isValidSize`. -/
theorem isValid_size_limit_witness :
    isValid 0 (List.replicate 80 (numberToken "1") ++ [eolToken]) = some false ∧
      isValidSize (List.replicate 79 (numberToken "1") ++ [eolToken]) = true :=
  ⟨(isValid_size_limit 0 (List.replicate 80 (numberToken "1") ++ [eolToken])).1 (by decide),
    (isValid_size_limit 0 (List.replicate 79 (numberToken "1") ++ [eolToken])).2.mpr
      (by decide)⟩

/-- The function `isValid` taken alone accepts the vector `1`, `eol`, `2`, `eol`, which holds
an `eol` before its last position: `isValidEol` returns true on every vector. The read loop
of `calculate` stops at the first `eol`, so it never builds such a vector. The last token of
an accepted vector is an `eol`. -/
theorem isValid_early_eol_vector :
    (∀ rp, isValid rp earlyEolLine = some true) ∧
      (∀ toks, isValidEol toks = true) ∧
      (∀ rp toks, isValid rp toks = some true → ∃ t, toks.getLast? = some t ∧ t.type_ = eol) :=
  ⟨fun _ => rfl, isValidEol_true, isValid_last_is_eol⟩

/-- C18, as amended: fed the character lines `x:=4+1` and `x`, written without blanks, and the
closing line `.`, the session reads the token lines of `x:=4+1` and of `x` and renders `5`
for the first and `5` for the second statement; fed `x := 4+1` with its blanks, it renders
nothing for that line and `x` for the second statement. -/
theorem session_assignment_then_probe (rp : Nat → Int) :
    readLine "x:=4+1\nx\n.\n".toList
        = some (assignLine "x" (.bin .add (.num 4) (.num 1)), "x\n.\n".toList) ∧
      readLine "x\n.\n".toList = some (probeLine "x", ".\n".toList) ∧
      (calculate rp "x:=4+1\nx\n.\n").map (fun r => r.1) = some ["5", "5"] ∧
      (calculate rp "x := 4+1\nx\n.\n").map (fun r => r.1) = some ["x"] :=
  ⟨rfl, rfl, rfl, rfl⟩

/-- Counterexample to C18 as stated: the tokenizer turns each blank of `x := 4+1` into an
Invalid token, `isValid` rejects the line and the map stays as it was; the line `x` then
renders `x`, and the session as a whole records the single solution `x`. -/
theorem session_blank_counterexample :
    readLine "x := 4+1\nx\n.\n".toList
        = some ([variableToken "x", ⟨invalid, "invalid"⟩, assignToken, ⟨invalid, "invalid"⟩,
            numberToken "4", BinOp.add.token, numberToken "1", eolToken], "x\n.\n".toList) ∧
      calculateStep 0
          [variableToken "x", ⟨invalid, "invalid"⟩, assignToken, ⟨invalid, "invalid"⟩,
            numberToken "4", BinOp.add.token, numberToken "1", eolToken] initializeVariables
        = some (none, initializeVariables) ∧
      readLine "x\n.\n".toList = some (probeLine "x", ".\n".toList) ∧
      (calculateStep 0 (probeLine "x") initializeVariables).map (fun r => r.1)
        = some (some "x") ∧
      (calculate (fun _ => 0) "x := 4+1\nx\n.\n").map (fun r => r.1) = some ["x"] := by
  decide

/-- C19, the code at the failing input: for the bare variable `v` the vector handed to
`assignVariableHelper` is `:=`, `:=`, `v`, `eol`, not `v`, `:=`, `v`, `eol`; the name
extracted there is the text `:=`, and after the probe `x` from the initial map the key `:=`
is bound to the single node of `x`. -/
theorem probe_rewrite_duplicates_assignop :
    (∀ v, probeRewrite (probeLine v) = [assignToken, assignToken, variableToken v, eolToken]) ∧
      (∀ v, probeRewrite (probeLine v)
        ≠ [variableToken v, assignToken, variableToken v, eolToken]) ∧
      (∀ v, (probeRewrite (probeLine v)).head?.map (fun t => t.value_) = some ":=") ∧
      (calculateStep 0 (probeLine "x") initializeVariables).map (fun r => r.2.find ":=")
        = some (some (Node.leaf (variableToken "x"))) ∧
      initializeVariables.find ":=" = none :=
  ⟨probeRewrite_probeLine,
    fun v h => by
      rw [probeRewrite_probeLine] at h
      injection h with h1 _
      have := congrArg Token.type_ h1
      simp at this,
    fun _ => rfl, by decide, by decide⟩

/-- C20, as amended: for every map, every name `v` and every postfix sequence `p` from which
`constructTree` builds a tree: when `p` does not have exactly two tokens, after
`assignVariable(v, p)` the map binds `v` to that tree, holds no other entry for `v`, and binds
every other key as before; when `p` has exactly two tokens, the map is left as it was. -/
theorem assignVariable_frame (v : String) (p : List Token) (vars : Variables) (ast : Node)
    (hast : constructTree p = some ast) :
    (p.length ≠ 2 → ∃ vars1, assignVariable v p vars = some vars1 ∧
        vars1.find v = some ast ∧ vars1.filter (fun q => decide (q.1 = v)) = [(v, ast)] ∧
        ∀ other, other ≠ v → vars1.find other = vars.find other) ∧
      (p.length = 2 → assignVariable v p vars = some vars) := by
  constructor
  · intro hlen
    obtain ⟨vars1, h1, h2, h3⟩ := assignVariable_spec v p vars ast hlen hast
    obtain ⟨vars2, h4, h5⟩ := assignVariable_single_entry v p vars ast hlen hast
    rw [h1] at h4
    injection h4 with h4
    subst h4
    exact ⟨vars1, h1, h2, h5, h3⟩
  · exact assignVariable_two_tokens v p vars

/-- Witness for C20: the postfix form `4 1 +` assigned to `x` in the initial map. -/
theorem assignVariable_frame_witness :
    ∃ vars1,
      assignVariable "x" [numberToken "4", numberToken "1", BinOp.add.token]
          initializeVariables = some vars1 ∧
        vars1.find "x"
          = some (Node.mk BinOp.add.token (Node.leaf (numberToken "1"))
              (Node.leaf (numberToken "4"))) ∧
        vars1.filter (fun q => decide (q.1 = "x"))
          = [("x", Node.mk BinOp.add.token (Node.leaf (numberToken "1"))
              (Node.leaf (numberToken "4")))] ∧
        ∀ other, other ≠ "x" → vars1.find other = initializeVariables.find other :=
  (assignVariable_frame "x" [numberToken "4", numberToken "1", BinOp.add.token]
    initializeVariables _ (by decide)).1 (by decide)

/-- Counterexample to C20 as stated: from the two-token sequence `y 2` `constructTree` builds
the single node `2`, but `assignVariable("x", y 2)` leaves the initial map as it was, in
which `x` is bound to the single node of `x`. -/
theorem assignVariable_two_tokens_counterexample :
    constructTree [variableToken "y", numberToken "2"] = some (Node.leaf (numberToken "2")) ∧
      assignVariable "x" [variableToken "y", numberToken "2"] initializeVariables
        = some initializeVariables ∧
      initializeVariables.find "x" = some (Node.leaf (variableToken "x")) ∧
      initializeVariables.find "x" ≠ some (Node.leaf (numberToken "2")) := by
  decide

theorem simplify_number_leaf (text : String) (vars : Variables) :
    simplify (Node.leaf (numberToken text)) vars = some (Node.leaf (numberToken text), vars) := by
  simp [simplify, Node.leaf, copyTree, fillVariablesHelper, isVariable,
    traverseAndSimplifyHelper, isOperator, isPower]

theorem nextToken_colon_eq (rest : List Char) :
    nextToken (':' :: '=' :: rest) = some (assignToken, rest) := by
  simp [nextToken]

theorem nextToken_colon_other (c : Char) (rest : List Char) (h : c ≠ '=') :
    nextToken (':' :: c :: rest) = some (⟨invalid, "invalid"⟩, c :: rest) := by
  unfold nextToken
  simp only [show ¬ (':' = '.') by decide, show ¬ ((':' : Char).toNat = 40) by decide,
    show ¬ ((':' : Char).toNat = 41) by decide, show ¬ (':' = '+') by decide,
    show ¬ (':' = '-') by decide, show ¬ (':' = '/') by decide, show ¬ (':' = '*') by decide,
    show ¬ (':' = '^') by decide, ↓reduceIte]
  split
  · rename_i h2
    injection h2 with h3 _
    exact absurd h3 h
  · rfl

theorem nextToken_colon_end : nextToken [':'] = some (⟨invalid, "invalid"⟩, []) := by decide

theorem constructTree_operands_operator (a b op : Token) (ha : isOperand a = true)
    (hb : isOperand b = true) (hop : op.type_ = binop ∨ op.type_ = powop) :
    constructTree [a, b, op] = some (Node.mk op (Node.leaf b) (Node.leaf a)) := by
  unfold constructTree
  rw [constructTreeLoop_operand a ha, constructTreeLoop_operand b hb,
    constructTreeLoop_operator op hop]
  simp [constructTreeLoop]

/-- The truncated quotient of two `int`s is an `int`, except for `INT_MIN / -1`. -/
theorem tdiv_inRange (a b : Int) (ha : INT_MIN ≤ a ∧ a ≤ INT_MAX)
    (hne : ¬ (a = INT_MIN ∧ b = -1)) :
    INT_MIN ≤ Int.tdiv a b ∧ Int.tdiv a b ≤ INT_MAX := by
  have hq : (Int.tdiv a b).natAbs = a.natAbs / b.natAbs := Int.natAbs_tdiv a b
  simp only [INT_MIN, INT_MAX] at ha hne ⊢
  have hle : a.natAbs / b.natAbs ≤ a.natAbs := Nat.div_le_self _ _
  by_cases hb1 : b = -1
  · subst hb1
    have : Int.tdiv a (-1) = -a := by
      rw [Int.tdiv_neg, Int.tdiv_one]
    rw [this]
    have : a ≠ -2147483648 := fun h => hne ⟨h, rfl⟩
    omega
  · by_cases hb2 : b = 1
    · subst hb2
      rw [Int.tdiv_one]
      exact ha
    · by_cases hb0 : b = 0
      · subst hb0
        simp
      · have h2 : 2 ≤ b.natAbs := by omega
        have h3 : a.natAbs / b.natAbs ≤ a.natAbs / 2 :=
          Nat.div_le_div_left h2 (by norm_num)
        omega

theorem fold_quotient (a b : Int) (ha : INT_MIN ≤ a ∧ a ≤ INT_MAX)
    (hb : INT_MIN ≤ b ∧ b ≤ INT_MAX) (hb0 : b ≠ 0) (hne : ¬ (a = INT_MIN ∧ b = -1)) :
    constructTree [numberToken (to_string a), numberToken (to_string b), BinOp.div.token]
        = some (Node.mk BinOp.div.token (Node.leaf (numberToken (to_string b)))
            (Node.leaf (numberToken (to_string a)))) ∧
      traverseAndSimplifyHelper
          (Node.mk BinOp.div.token (Node.leaf (numberToken (to_string b)))
            (Node.leaf (numberToken (to_string a))))
        = some (Node.leaf (numberToken (to_string (Int.tdiv a b)))) := by
  constructor
  · exact constructTree_operands_operator _ _ _ (by simp [isOperand]) (by simp [isOperand])
      (Or.inl rfl)
  · have hc := calc_bin BinOp.div a b ha hb (fun _ => hb0) (tdiv_inRange a b ha hne)
    simp only [BinOp.text, BinOp.apply] at hc
    simp [traverseAndSimplifyHelper, Node.leaf, isOperator, isPower, BinOp.text, hc, numberToken]

theorem fold_power (a b : Int) (ha : INT_MIN ≤ a ∧ a ≤ INT_MAX)
    (hb : INT_MIN ≤ b ∧ b ≤ INT_MAX) (hnn : 0 ≤ b)
    (hres : INT_MIN ≤ a ^ b.toNat ∧ a ^ b.toNat ≤ INT_MAX) :
    constructTree [numberToken (to_string a), numberToken (to_string b), powToken]
        = some (Node.mk powToken (Node.leaf (numberToken (to_string b)))
            (Node.leaf (numberToken (to_string a)))) ∧
      traverseAndSimplifyHelper
          (Node.mk powToken (Node.leaf (numberToken (to_string b)))
            (Node.leaf (numberToken (to_string a))))
        = some (Node.leaf (numberToken (to_string (a ^ b.toNat)))) := by
  constructor
  · exact constructTree_operands_operator _ _ _ (by simp [isOperand]) (by simp [isOperand])
      (Or.inr rfl)
  · have hc := calc_pow a b ha hb hnn hres
    simp [traverseAndSimplifyHelper, Node.leaf, isOperator, isPower, hc, numberToken]

theorem takeWhile_append_stop {α : Type} (p : α → Bool) (l rest : List α)
    (hl : ∀ x ∈ l, p x = true) (hr : ∀ x, rest.head? = some x → p x = false) :
    (l ++ rest).takeWhile p = l ∧ (l ++ rest).dropWhile p = rest := by
  induction l with
  | nil =>
    cases rest with
    | nil => simp
    | cons x xs =>
      have := hr x rfl
      simp [List.takeWhile, List.dropWhile, this]
  | cons y ys ih =>
    have hy := hl y (List.mem_cons_self _ _)
    have := ih (fun x hx => hl x (List.mem_cons_of_mem _ hx))
    simp [List.takeWhile, List.dropWhile, hy, this.1, this.2]

/-- A run of digits in front of a character that is not a digit is read as one number token
that carries the whole run. -/
theorem nextToken_digits (c : Char) (cs rest : List Char)
    (hd : ∀ x ∈ c :: cs, x.isDigit = true)
    (hr : ∀ x, rest.head? = some x → x.isDigit = false) :
    nextToken (c :: cs ++ rest) = some (numberToken (String.mk (c :: cs)), rest) := by
  have hc := hd c (List.mem_cons_self _ _)
  have hn := isDigit_toNat c hc
  have htd := takeWhile_append_stop Char.isDigit cs rest
    (fun x hx => hd x (List.mem_cons_of_mem _ hx)) hr
  have h1 : c ≠ '.' := by rintro rfl; revert hn; decide
  have h2 : c.toNat ≠ 40 := by omega
  have h3 : c.toNat ≠ 41 := by omega
  have h4 : c ≠ '+' := by rintro rfl; revert hn; decide
  have h5 : c ≠ '-' := by rintro rfl; revert hn; decide
  have h6 : c ≠ '/' := by rintro rfl; revert hn; decide
  have h7 : c ≠ '*' := by rintro rfl; revert hn; decide
  have h8 : c ≠ '^' := by rintro rfl; revert hn; decide
  have h9 : c ≠ ':' := by rintro rfl; revert hn; decide
  simp only [List.cons_append, nextToken, h1, h2, h3, h4, h5, h6, h7, h8, h9, ↓reduceIte, hc,
    htd.1, htd.2]
  rfl

theorem nextToken_operator (o : BinOp) (rest : List Char) :
    nextToken (o.char :: rest) = some (o.token, rest) := by
  cases o <;> simp [nextToken, BinOp.char] <;> rfl

theorem nextToken_newline (rest : List Char) :
    nextToken ('\n' :: rest) = some (eolToken, rest) := by
  simp [nextToken]

theorem BinOp.char_not_digit (o : BinOp) : o.char.isDigit = false := by
  cases o <;> decide

theorem readLineLoop_next (fuel : Nat) (cs rest : List Char) (toks : List Token) (tok : Token)
    (h : nextToken cs = some (tok, rest)) (hne : tok.type_ ≠ eol) :
    readLineLoop (fuel + 1) cs toks = readLineLoop fuel rest (toks ++ [tok]) := by
  simp [readLineLoop, h, hne]

theorem readLineLoop_eol (fuel : Nat) (cs rest : List Char) (toks : List Token) (tok : Token)
    (h : nextToken cs = some (tok, rest)) (he : tok.type_ = eol) :
    readLineLoop (fuel + 1) cs toks = some (toks ++ [tok], rest) := by
  simp [readLineLoop, h, he]

/-- The tokens of a line `d1 o d2`: two number tokens that carry the whole digit runs. -/
theorem readLine_number_operator_number (d1 d2 : List Char) (o : BinOp)
    (h1 : d1 ≠ []) (h2 : d2 ≠ [])
    (hd1 : ∀ x ∈ d1, x.isDigit = true) (hd2 : ∀ x ∈ d2, x.isDigit = true) :
    readLine (d1 ++ [o.char] ++ d2 ++ ['\n'])
      = some ([numberToken (String.mk d1), o.token, numberToken (String.mk d2), eolToken],
          []) := by
  obtain ⟨c1, cs1, rfl⟩ := List.exists_cons_of_ne_nil h1
  obtain ⟨c2, cs2, rfl⟩ := List.exists_cons_of_ne_nil h2
  have hlen : ∃ n, (c1 :: cs1 ++ [o.char] ++ (c2 :: cs2) ++ ['\n']).length = n + 4 := by
    refine ⟨cs1.length + cs2.length, ?_⟩
    simp only [List.length_append, List.length_cons, List.length_nil]
    omega
  obtain ⟨n, hn⟩ := hlen
  have e1 : c1 :: cs1 ++ [o.char] ++ (c2 :: cs2) ++ ['\n']
      = c1 :: cs1 ++ (o.char :: (c2 :: cs2 ++ ['\n'])) := by simp
  have t1 := nextToken_digits c1 cs1 (o.char :: (c2 :: cs2 ++ ['\n'])) hd1
    (by intro x hx; simp only [List.head?_cons, Option.some.injEq] at hx
        rw [← hx]; exact o.char_not_digit)
  have t2 := nextToken_operator o (c2 :: cs2 ++ ['\n'])
  have t3 := nextToken_digits c2 cs2 ['\n'] hd2
    (by intro x hx; simp only [List.head?_cons, Option.some.injEq] at hx
        rw [← hx]; decide)
  have t4 := nextToken_newline []
  unfold readLine
  rw [hn, e1, readLineLoop_next (n + 3) _ _ _ _ t1 (by simp),
    readLineLoop_next (n + 2) _ _ _ _ t2 (by simp),
    readLineLoop_next (n + 1) _ _ _ _ t3 (by simp),
    readLineLoop_eol n _ _ _ _ t4 rfl]
  rfl

/-- The substitution pass of the code is the single pass of the specification, and hands back
the map, when every variable of the tree is bound to a tree. -/
theorem fillVariablesHelper_eq_substituteOnce (t : Node) (s : Variables)
    (hb : ∀ v ∈ t.variables, ∃ a, s.find v = some a ∧ a ≠ Node.null) :
    fillVariablesHelper t s = some (substituteOnce s t, s) := by
  induction t with
  | null => rfl
  | mk token left right ihl ihr =>
    have hl := ihl (fun v hv => hb v (by simp [Node.variables, hv]))
    have hr := ihr (fun v hv => hb v (by simp [Node.variables, hv]))
    by_cases hvar : isVariable token = true
    · obtain ⟨a, ha, hne⟩ := hb token.value_ (by simp [Node.variables, hvar])
      simp [fillVariablesHelper, substituteOnce, hl, hr, hvar, ha, copyTree_of_ne_null a hne]
    · simp [fillVariablesHelper, substituteOnce, hl, hr, hvar]

theorem operatorToken_facts (tok : Token) (h : (∃ o : BinOp, tok = o.token) ∨ tok = powToken) :
    (isOperator tok || isPower tok) = true ∧ isVariable tok = false ∧ tok.type_ ≠ number := by
  rcases h with ⟨o, rfl⟩ | rfl
  · cases o <;> decide
  · decide

theorem leafToken_facts (tok : Token) (h : tok.type_ = number ∨ tok.type_ = .variable) :
    (isOperator tok || isPower tok) = false := by
  rcases h with h | h <;> simp [isOperator, isPower, h]

theorem Token.operate_inRange (tok : Token) (a b v : Int) (h : tok.operate a b = some v) :
    INT_MIN ≤ v ∧ v ≤ INT_MAX := by
  have key : ∀ n : Int, asInt n = some v → INT_MIN ≤ v ∧ v ≤ INT_MAX := by
    intro n hn
    unfold asInt at hn
    by_cases hr : INT_MIN ≤ n ∧ n ≤ INT_MAX
    · rw [if_pos hr] at hn
      injection hn with hn
      rw [← hn]; exact hr
    · rw [if_neg hr] at hn
      cases hn
  unfold Token.operate at h
  split at h
  · exact key _ h
  · split at h
    · exact key _ h
    · split at h
      · exact key _ h
      · split at h
        · split at h
          · cases h
          · exact key _ h
        · split at h
          · split at h
            · exact key _ h
            · cases h
          · cases h

/-- The arithmetic of `calc` on the texts of two ints is the arithmetic of the operator token,
with the operands in the order right child, left child. -/
theorem calc_operate (tok : Token) (h : (∃ o : BinOp, tok = o.token) ∨ tok = powToken)
    (x y : String) (a b v : Int) (hx : stoi x = some b) (hy : stoi y = some a)
    (hv : tok.operate a b = some v) :
    calc_ x tok.value_ y = some (to_string v) := by
  unfold calc_
  rw [hx, hy]
  rcases h with ⟨o, rfl⟩ | rfl
  · cases o
    · have : asInt (a + b) = some v := by simpa [Token.operate] using hv
      simp [BinOp.token, BinOp.text, this]
    · have : asInt (a - b) = some v := by
        simpa [Token.operate, show ¬ (BinOp.sub.token = BinOp.add.token) by decide] using hv
      simp [BinOp.token, BinOp.text, this]
    · have : asInt (a * b) = some v := by
        simpa [Token.operate, show ¬ (BinOp.mul.token = BinOp.add.token) by decide,
          show ¬ (BinOp.mul.token = BinOp.sub.token) by decide] using hv
      simp [BinOp.token, BinOp.text, this]
    · have h1 : (if b = 0 then none else asInt (Int.tdiv a b)) = some v := by
        simpa [Token.operate, show ¬ (BinOp.div.token = BinOp.add.token) by decide,
          show ¬ (BinOp.div.token = BinOp.sub.token) by decide,
          show ¬ (BinOp.div.token = BinOp.mul.token) by decide] using hv
      simp [BinOp.token, BinOp.text, h1]
  · have h1 : (if 0 ≤ b then asInt (a ^ b.toNat) else none) = some v := by
      simpa [Token.operate, show ¬ (powToken = BinOp.add.token) by decide,
        show ¬ (powToken = BinOp.sub.token) by decide,
        show ¬ (powToken = BinOp.mul.token) by decide,
        show ¬ (powToken = BinOp.div.token) by decide] using hv
    by_cases hb : 0 ≤ b
    · rw [if_pos hb] at h1
      simp [powInt, hb, h1]
    · rw [if_neg hb] at h1
      cases h1

theorem numberNode_eq_leaf (tok : Token) (h : tok.type_ = number) :
    Node.mk tok Node.null Node.null = Node.leaf (numberToken tok.value_) := by
  cases tok with
  | mk ty v =>
    simp only at h
    subst h
    rfl

/-- A well-formed tree without variables that has a value folds, in the specification, to a
number leaf whose text reads back as that value. -/
theorem Node.foldSpec_value (t : Node) (hwf : t.WellFormed) (hnv : t.hasVariable = false)
    (v : Int) (hv : t.value = some v) :
    ∃ text, t.foldSpec = some (Node.leaf (numberToken text)) ∧ stoi text = some v := by
  cases t with
  | null => exact absurd hwf (by simp [Node.WellFormed])
  | mk tok l r =>
    rcases hwf with ⟨hop, _, _⟩ | ⟨hleaf, hl, hr⟩
    · have hf := operatorToken_facts tok hop
      refine ⟨to_string v, ?_, ?_⟩
      · simp only [Node.foldSpec, hnv, hf.1, hv, Option.map_some']
        simp
      · have hv2 := hv
        simp only [Node.value, hf.1, ↓reduceIte] at hv2
        cases hr : r.value with
        | none => simp [hr] at hv2
        | some a =>
          cases hl : l.value with
          | none => simp [hr, hl] at hv2
          | some b =>
            simp only [hr, hl] at hv2
            exact stoi_to_string v (Token.operate_inRange tok a b v hv2)
    · subst hl
      subst hr
      have hf := leafToken_facts tok hleaf
      have hnum : tok.type_ = number := by
        rcases hleaf with h | h
        · exact h
        · simp [Node.hasVariable, isVariable, h] at hnv
      refine ⟨tok.value_, ?_, ?_⟩
      · simp only [Node.foldSpec, hnv, hf]
        simp [numberNode_eq_leaf tok hnum]
      · simpa [Node.value, hf, hnum] using hv

/-- The root of a specification fold is a number node exactly when the tree has no variable. -/
theorem Node.foldSpec_root (t : Node) (hwf : t.WellFormed) (r : Node)
    (h : t.foldSpec = some r) : r.isNumberNode = !t.hasVariable := by
  cases t with
  | null => exact absurd hwf (by simp [Node.WellFormed])
  | mk tok l r1 =>
    by_cases hv : (Node.mk tok l r1).hasVariable = true
    · simp only [Node.foldSpec, hv, ↓reduceIte] at h
      have hty : tok.type_ ≠ number := by
        rcases hwf with ⟨hop, _, _⟩ | ⟨hleaf, hl, hr⟩
        · exact (operatorToken_facts tok hop).2.2
        · subst hl; subst hr
          rcases hleaf with hn | hn
          · simp [Node.hasVariable, isVariable, hn] at hv
          · simp [hn]
      split at h
      · injection h with h
        subst h
        simp [Node.isNumberNode, hv, hty]
      · cases h
    · have hv2 : (Node.mk tok l r1).hasVariable = false := by simpa using hv
      simp only [Node.foldSpec, hv2] at h
      rcases hwf with ⟨hop, _, _⟩ | ⟨hleaf, hl, hr⟩
      · have hf := operatorToken_facts tok hop
        simp only [hf.1, ↓reduceIte, Bool.false_eq_true] at h
        cases hval : (Node.mk tok l r1).value with
        | none => simp [hval] at h
        | some v =>
          simp only [hval, Option.map_some', Option.some.injEq] at h
          subst h
          simp [Node.isNumberNode, Node.leaf, hv2]
      · subst hl; subst hr
        have hf := leafToken_facts tok hleaf
        simp only [hf, Bool.false_eq_true, ↓reduceIte, Option.some.injEq] at h
        subst h
        rcases hleaf with hn | hn
        · simp [Node.isNumberNode, hn, hv2]
        · simp [Node.hasVariable, isVariable, hn] at hv2

theorem traverse_keep (tok : Token) (l r l1 r1 : Node)
    (hop : (isOperator tok || isPower tok) = true)
    (hl : traverseAndSimplifyHelper l = some l1) (hr : traverseAndSimplifyHelper r = some r1)
    (hl1 : l1 ≠ Node.null) (hr1 : r1 ≠ Node.null)
    (hnum : l1.isNumberNode = false ∨ r1.isNumberNode = false) :
    traverseAndSimplifyHelper (Node.mk tok l r) = some (Node.mk tok l1 r1) := by
  cases l1 with
  | null => exact absurd rfl hl1
  | mk ltok ll lr =>
    cases r1 with
    | null => exact absurd rfl hr1
    | mk rtok rl rr =>
      simp only [Node.isNumberNode, decide_eq_false_iff_not] at hnum
      by_cases h1 : ltok.type_ = number
      · have h2 : rtok.type_ ≠ number := by
          rcases hnum with h | h
          · exact absurd h1 h
          · exact h
        simp [traverseAndSimplifyHelper, hl, hr, hop, h1, h2]
      · simp [traverseAndSimplifyHelper, hl, hr, hop, h1]

theorem traverse_fold (tok : Token) (l r : Node) (x y : String)
    (hop : (isOperator tok || isPower tok) = true)
    (hl : traverseAndSimplifyHelper l = some (Node.leaf (numberToken x)))
    (hr : traverseAndSimplifyHelper r = some (Node.leaf (numberToken y))) :
    traverseAndSimplifyHelper (Node.mk tok l r)
      = (calc_ x tok.value_ y).map (fun v => Node.leaf (numberToken v)) := by
  simp [traverseAndSimplifyHelper, hl, hr, hop, Node.leaf, numberToken]

theorem Node.foldSpec_ne_null (t : Node) (hwf : t.WellFormed) (r : Node)
    (h : t.foldSpec = some r) : r ≠ Node.null := by
  cases t with
  | null => exact absurd hwf (by simp [Node.WellFormed])
  | mk tok l r1 =>
    intro hr
    subst hr
    simp only [Node.foldSpec] at h
    split at h
    · split at h
      · cases h
      · cases h
    · split at h
      · cases hval : (Node.mk tok l r1).value with
        | none => simp [hval] at h
        | some v => simp [hval, Node.leaf] at h
      · cases h

/-- Whenever the specification fold of a well-formed tree is defined, the folding pass of the
code returns it. -/
theorem traverse_refines_foldSpec (t : Node) (hwf : t.WellFormed) :
    ∀ r, t.foldSpec = some r → traverseAndSimplifyHelper t = some r := by
  induction t with
  | null => exact absurd hwf (by simp [Node.WellFormed])
  | mk tok l r1 ihl ihr =>
    intro r h
    rcases hwf with ⟨hop, hwl, hwr⟩ | ⟨hleaf, hl, hr⟩
    · have hf := operatorToken_facts tok hop
      by_cases hv : (Node.mk tok l r1).hasVariable = true
      · simp only [Node.foldSpec, hv, ↓reduceIte] at h
        cases hfl : l.foldSpec with
        | none => simp [hfl] at h
        | some l2 =>
          cases hfr : r1.foldSpec with
          | none => simp [hfl, hfr] at h
          | some r2 =>
            simp only [hfl, hfr, Option.some.injEq] at h
            subst h
            have hchild : l.hasVariable = true ∨ r1.hasVariable = true := by
              simpa [Node.hasVariable, hf.2.1] using hv
            apply traverse_keep tok l r1 l2 r2 hf.1 (ihl hwl l2 hfl) (ihr hwr r2 hfr)
              (Node.foldSpec_ne_null l hwl l2 hfl) (Node.foldSpec_ne_null r1 hwr r2 hfr)
            rcases hchild with hc | hc
            · left; rw [Node.foldSpec_root l hwl l2 hfl, hc]; rfl
            · right; rw [Node.foldSpec_root r1 hwr r2 hfr, hc]; rfl
      · have hv2 : (Node.mk tok l r1).hasVariable = false := by simpa using hv
        have hchild : l.hasVariable = false ∧ r1.hasVariable = false := by
          simpa [Node.hasVariable, hf.2.1] using hv2
        simp only [Node.foldSpec, hv2, hf.1, ↓reduceIte, Bool.false_eq_true] at h
        cases hval : (Node.mk tok l r1).value with
        | none => simp [hval] at h
        | some v =>
          simp only [hval, Option.map_some', Option.some.injEq] at h
          subst h
          have hv3 := hval
          simp only [Node.value, hf.1, ↓reduceIte] at hv3
          cases hr : r1.value with
          | none => simp [hr] at hv3
          | some a =>
            cases hl : l.value with
            | none => simp [hr, hl] at hv3
            | some b =>
              simp only [hr, hl] at hv3
              obtain ⟨x, hx1, hx2⟩ := Node.foldSpec_value l hwl hchild.1 b hl
              obtain ⟨y, hy1, hy2⟩ := Node.foldSpec_value r1 hwr hchild.2 a hr
              rw [traverse_fold tok l r1 x y hf.1 (ihl hwl _ hx1) (ihr hwr _ hy1),
                calc_operate tok hop x y a b v hx2 hy2 hv3]
              rfl
    · subst hl; subst hr
      have hf := leafToken_facts tok hleaf
      have h2 : (Node.mk tok Node.null Node.null).foldSpec
          = some (Node.mk tok Node.null Node.null) := by
        simp only [Node.foldSpec, hf]
        split <;> simp
      rw [h2] at h
      injection h with h
      subst h
      simp [traverseAndSimplifyHelper, hf]

theorem traverse_children (tok : Token) (l r res : Node)
    (h : traverseAndSimplifyHelper (Node.mk tok l r) = some res) :
    ∃ l1 r1, traverseAndSimplifyHelper l = some l1 ∧ traverseAndSimplifyHelper r = some r1 := by
  cases hl : traverseAndSimplifyHelper l with
  | none => simp [traverseAndSimplifyHelper, hl] at h
  | some l1 =>
    cases hr : traverseAndSimplifyHelper r with
    | none => simp [traverseAndSimplifyHelper, hl, hr] at h
    | some r1 => exact ⟨l1, r1, rfl, rfl⟩

theorem wellFormed_numberNode (t : Node) (hwf : t.WellFormed) (hn : t.isNumberNode = true) :
    ∃ text, t = Node.leaf (numberToken text) := by
  cases t with
  | null => exact absurd hwf (by simp [Node.WellFormed])
  | mk tok l r =>
    have hty : tok.type_ = number := by simpa [Node.isNumberNode] using hn
    rcases hwf with ⟨hop, _, _⟩ | ⟨_, hl, hr⟩
    · exact absurd hty (operatorToken_facts tok hop).2.2
    · subst hl; subst hr
      exact ⟨tok.value_, numberNode_eq_leaf tok hty⟩

/-- The shape of the result of the folding pass on a well-formed tree. -/
theorem traverse_structure (t : Node) (hwf : t.WellFormed) :
    ∀ res, traverseAndSimplifyHelper t = some res →
      res.WellFormed ∧ res.Folded ∧ res.isNumberNode = !t.hasVariable ∧
        (t.hasVariable = true → ∀ tok l r, t = Node.mk tok l r →
          ∃ l1 r1, traverseAndSimplifyHelper l = some l1 ∧
            traverseAndSimplifyHelper r = some r1 ∧ res = Node.mk tok l1 r1) := by
  induction t with
  | null => exact absurd hwf (by simp [Node.WellFormed])
  | mk tok l r ihl ihr =>
    intro res h
    rcases hwf with ⟨hop, hwl, hwr⟩ | ⟨hleaf, hl, hr⟩
    · have hf := operatorToken_facts tok hop
      obtain ⟨l1, r1, hl1, hr1⟩ := traverse_children tok l r res h
      obtain ⟨wl, fl, nl, _⟩ := ihl hwl l1 hl1
      obtain ⟨wr, fr, nr, _⟩ := ihr hwr r1 hr1
      have hnl : l1 ≠ Node.null := by
        intro hc; subst hc; exact absurd wl (by simp [Node.WellFormed])
      have hnr : r1 ≠ Node.null := by
        intro hc; subst hc; exact absurd wr (by simp [Node.WellFormed])
      by_cases hboth : l1.isNumberNode = true ∧ r1.isNumberNode = true
      · obtain ⟨x, hx⟩ := wellFormed_numberNode l1 wl hboth.1
        obtain ⟨y, hy⟩ := wellFormed_numberNode r1 wr hboth.2
        rw [hx] at hl1
        rw [hy] at hr1
        rw [traverse_fold tok l r x y hf.1 hl1 hr1] at h
        cases hc : calc_ x tok.value_ y with
        | none => simp [hc] at h
        | some s =>
          simp only [hc, Option.map_some', Option.some.injEq] at h
          subst h
          have hlv : l.hasVariable = false := by
            rw [hboth.1] at nl
            simpa using nl
          have hrv : r.hasVariable = false := by
            rw [hboth.2] at nr
            simpa using nr
          have htv : (Node.mk tok l r).hasVariable = false := by
            simp [Node.hasVariable, hf.2.1, hlv, hrv]
          refine ⟨?_, ?_, ?_, ?_⟩
          · simp [Node.leaf, Node.WellFormed, numberToken]
          · simp [Node.leaf, Node.Folded, Node.isNumberNode]
          · rw [htv]; simp [Node.leaf, Node.isNumberNode, numberToken]
          · intro hc2
            rw [htv] at hc2
            cases hc2
      · have hnum : l1.isNumberNode = false ∨ r1.isNumberNode = false := by
          by_cases h1 : l1.isNumberNode = true
          · right
            by_cases h2 : r1.isNumberNode = true
            · exact absurd ⟨h1, h2⟩ hboth
            · simpa using h2
          · left; simpa using h1
        rw [traverse_keep tok l r l1 r1 hf.1 hl1 hr1 hnl hnr hnum] at h
        injection h with h
        subst h
        have htv : (Node.mk tok l r).hasVariable = true := by
          rcases hnum with hc | hc
          · rw [hc] at nl
            have : l.hasVariable = true := by simpa using nl.symm
            simp [Node.hasVariable, this]
          · rw [hc] at nr
            have : r.hasVariable = true := by simpa using nr.symm
            simp [Node.hasVariable, this]
        refine ⟨Or.inl ⟨hop, wl, wr⟩, ⟨?_, fl, fr⟩, ?_, ?_⟩
        · intro hc
          exact hboth ⟨hc.2.1, hc.2.2⟩
        · rw [htv]
          simp [Node.isNumberNode, hf.2.2]
        · intro _ tok2 l2 r2 heq
          injection heq with e1 e2 e3
          subst e1; subst e2; subst e3
          exact ⟨l1, r1, hl1, hr1, rfl⟩
    · subst hl; subst hr
      have hf := leafToken_facts tok hleaf
      have h2 : traverseAndSimplifyHelper (Node.mk tok Node.null Node.null)
          = some (Node.mk tok Node.null Node.null) := by
        simp [traverseAndSimplifyHelper, hf]
      rw [h2] at h
      injection h with h
      subst h
      refine ⟨Or.inr ⟨hleaf, rfl, rfl⟩, ?_, ?_, ?_⟩
      · simp [Node.Folded, hf]
      · rcases hleaf with hn | hn
        · simp [Node.isNumberNode, Node.hasVariable, isVariable, hn]
        · simp [Node.isNumberNode, Node.hasVariable, isVariable, hn]
      · intro _ tok2 l2 r2 heq
        injection heq with e1 e2 e3
        subst e1; subst e2; subst e3
        exact ⟨Node.null, Node.null, by simp [traverseAndSimplifyHelper],
          by simp [traverseAndSimplifyHelper], rfl⟩

/-- C21, the code at the failing input: the keys of the initial map are the 26 lowercase
letters, but after the session has read the single probe line `x` the map has the further
key `:=`, which is not a letter. -/
theorem store_gains_assignop_key :
    initializeVariables.map (fun q => q.1) = alph.toList.map String.singleton ∧
      (∀ rp, (calculate rp "x\n.\n").map (fun r => r.2.map (fun q => q.1))
        = some (alph.toList.map String.singleton ++ [":="])) ∧
      ":=" ∉ alph.toList.map String.singleton ∧ (":=" : String).length = 2 :=
  ⟨by decide, fun _ => rfl, by decide, by decide⟩

/-- C22, amended: for all `int`s `a` and `b` with `b` not zero, other than `INT_MIN / -1`,
`constructTree` builds from the postfix `a b /` the operator node with the leaf `b` as left
and the leaf `a` as right child, and the folding pass turns it into the number leaf of the
quotient of `a` by `b` truncated toward zero. -/
theorem fold_division_truncates (a b : Int) (ha : INT_MIN ≤ a ∧ a ≤ INT_MAX)
    (hb : INT_MIN ≤ b ∧ b ≤ INT_MAX) (hb0 : b ≠ 0) (hne : ¬ (a = INT_MIN ∧ b = -1)) :
    constructTree [numberToken (to_string a), numberToken (to_string b), BinOp.div.token]
        = some (Node.mk BinOp.div.token (Node.leaf (numberToken (to_string b)))
            (Node.leaf (numberToken (to_string a)))) ∧
      traverseAndSimplifyHelper
          (Node.mk BinOp.div.token (Node.leaf (numberToken (to_string b)))
            (Node.leaf (numberToken (to_string a))))
        = some (Node.leaf (numberToken (to_string (Int.tdiv a b)))) :=
  fold_quotient a b ha hb hb0 hne

/-- C22, witness: `-7 / 2` folds to the leaf `-3`. -/
theorem fold_division_truncates_witness :
    ((INT_MIN ≤ (-7 : Int) ∧ (-7 : Int) ≤ INT_MAX) ∧ (INT_MIN ≤ (2 : Int) ∧ (2 : Int) ≤ INT_MAX) ∧
      (2 : Int) ≠ 0 ∧ ¬ ((-7 : Int) = INT_MIN ∧ (2 : Int) = -1)) ∧
    (constructTree [numberToken (to_string (-7)), numberToken (to_string 2), BinOp.div.token]
        = some (Node.mk BinOp.div.token (Node.leaf (numberToken (to_string 2)))
            (Node.leaf (numberToken (to_string (-7))))) ∧
      traverseAndSimplifyHelper
          (Node.mk BinOp.div.token (Node.leaf (numberToken (to_string 2)))
            (Node.leaf (numberToken (to_string (-7)))))
        = some (Node.leaf (numberToken (to_string (Int.tdiv (-7) 2))))) ∧
    to_string (Int.tdiv (-7) 2) = "-3" :=
  ⟨⟨by decide, by decide, by decide, by decide⟩,
    fold_division_truncates (-7) 2 (by decide) (by decide) (by decide) (by decide), by decide⟩

/-- C22, counterexample: for `a = 3000000000`, `b = 1` the tree of `a / b` is built but its
fold has no result (the text of `a` is not an `int`), and likewise for `a = -2147483648`,
`b = -1` (the quotient is not an `int`); in both cases `b` is not zero. -/
theorem fold_division_counterexample :
    ((1 : Int) ≠ 0 ∧
      constructTree [numberToken (to_string 3000000000), numberToken (to_string 1),
          BinOp.div.token]
        = some (Node.mk BinOp.div.token (Node.leaf (numberToken (to_string 1)))
            (Node.leaf (numberToken (to_string 3000000000)))) ∧
      traverseAndSimplifyHelper
          (Node.mk BinOp.div.token (Node.leaf (numberToken (to_string 1)))
            (Node.leaf (numberToken (to_string 3000000000)))) = none) ∧
    ((-1 : Int) ≠ 0 ∧
      constructTree [numberToken (to_string (-2147483648)), numberToken (to_string (-1)),
          BinOp.div.token]
        = some (Node.mk BinOp.div.token (Node.leaf (numberToken (to_string (-1))))
            (Node.leaf (numberToken (to_string (-2147483648))))) ∧
      traverseAndSimplifyHelper
          (Node.mk BinOp.div.token (Node.leaf (numberToken (to_string (-1))))
            (Node.leaf (numberToken (to_string (-2147483648))))) = none) :=
  ⟨⟨by decide, by decide, by decide⟩, ⟨by decide, by decide, by decide⟩⟩

/-- C23, amended: for all `int`s `a` and `b` with `b` not negative and the power of `a` to
`b` an `int`, `constructTree` builds from the postfix `a b ^` the operator node with the leaf
`b` as left and the leaf `a` as right child, and the folding pass turns it into the number
leaf of `a` multiplied by itself `b` times (1 when `b` is 0). -/
theorem fold_power_repeated_multiplication (a b : Int) (ha : INT_MIN ≤ a ∧ a ≤ INT_MAX)
    (hb : INT_MIN ≤ b ∧ b ≤ INT_MAX) (hnn : 0 ≤ b)
    (hres : INT_MIN ≤ a ^ b.toNat ∧ a ^ b.toNat ≤ INT_MAX) :
    constructTree [numberToken (to_string a), numberToken (to_string b), powToken]
        = some (Node.mk powToken (Node.leaf (numberToken (to_string b)))
            (Node.leaf (numberToken (to_string a)))) ∧
      traverseAndSimplifyHelper
          (Node.mk powToken (Node.leaf (numberToken (to_string b)))
            (Node.leaf (numberToken (to_string a))))
        = some (Node.leaf (numberToken (to_string (a ^ b.toNat)))) :=
  fold_power a b ha hb hnn hres

/-- C23, witness: `2 ^ 10` folds to the leaf `1024`, and `5 ^ 0` to the leaf `1`. -/
theorem fold_power_repeated_multiplication_witness :
    ((INT_MIN ≤ (2 : Int) ∧ (2 : Int) ≤ INT_MAX) ∧ (INT_MIN ≤ (10 : Int) ∧ (10 : Int) ≤ INT_MAX) ∧
      (0 : Int) ≤ 10 ∧
      (INT_MIN ≤ (2 : Int) ^ (10 : Int).toNat ∧ (2 : Int) ^ (10 : Int).toNat ≤ INT_MAX)) ∧
    (constructTree [numberToken (to_string 2), numberToken (to_string 10), powToken]
        = some (Node.mk powToken (Node.leaf (numberToken (to_string 10)))
            (Node.leaf (numberToken (to_string 2)))) ∧
      traverseAndSimplifyHelper
          (Node.mk powToken (Node.leaf (numberToken (to_string 10)))
            (Node.leaf (numberToken (to_string 2))))
        = some (Node.leaf (numberToken (to_string ((2 : Int) ^ (10 : Int).toNat))))) ∧
    to_string ((2 : Int) ^ (10 : Int).toNat) = "1024" ∧
    traverseAndSimplifyHelper
        (Node.mk powToken (Node.leaf (numberToken "0")) (Node.leaf (numberToken "5")))
      = some (Node.leaf (numberToken "1")) :=
  ⟨⟨by decide, by decide, by decide, by decide⟩,
    fold_power_repeated_multiplication 2 10 (by decide) (by decide) (by decide) (by decide),
    by decide, by decide⟩

/-- C23, counterexample: for `a = 2`, `b = 31` the tree of `a ^ b` is built but its fold has
no result (the power is not an `int`), and for `a = 3000000000`, `b = 1` neither (the text of
`a` is not an `int`); in both cases `b` is not negative. -/
theorem fold_power_counterexample :
    ((0 : Int) ≤ 31 ∧
      constructTree [numberToken (to_string 2), numberToken (to_string 31), powToken]
        = some (Node.mk powToken (Node.leaf (numberToken (to_string 31)))
            (Node.leaf (numberToken (to_string 2)))) ∧
      traverseAndSimplifyHelper
          (Node.mk powToken (Node.leaf (numberToken (to_string 31)))
            (Node.leaf (numberToken (to_string 2)))) = none) ∧
    ((0 : Int) ≤ 1 ∧
      traverseAndSimplifyHelper
          (Node.mk powToken (Node.leaf (numberToken (to_string 1)))
            (Node.leaf (numberToken (to_string 3000000000)))) = none) :=
  ⟨⟨by decide, by decide, by decide⟩, ⟨by decide, by decide⟩⟩

/-- C24: for every map and every text, `simplify` of the single number leaf with that text
returns the single number leaf with the same text, and the map as it was. -/
theorem simplify_number_leaf_idempotent (text : String) (vars : Variables) :
    simplify (Node.leaf (numberToken text)) vars = some (Node.leaf (numberToken text), vars) :=
  simplify_number_leaf text vars

/-- C25: for all non-empty runs of digits `d1` and `d2` and every operator character `o` of
`+ - * /`, reading the characters of `d1 o d2` and a newline up to the end of the line gives
exactly the number token with text `d1`, the operator token of `o`, the number token with
text `d2` and the end-of-line token, and leaves no character unread. -/
theorem readLine_greedy_numbers (d1 d2 : List Char) (o : BinOp)
    (h1 : d1 ≠ []) (h2 : d2 ≠ [])
    (hd1 : ∀ x ∈ d1, x.isDigit = true) (hd2 : ∀ x ∈ d2, x.isDigit = true) :
    readLine (d1 ++ [o.char] ++ d2 ++ ['\n'])
      = some ([numberToken (String.mk d1), o.token, numberToken (String.mk d2), eolToken],
          []) :=
  readLine_number_operator_number d1 d2 o h1 h2 hd1 hd2

/-- C25, witness: the line `12+3` gives the tokens `12`, `+`, `3` and end of line. -/
theorem readLine_greedy_numbers_witness :
    (['1', '2'] ≠ [] ∧ ['3'] ≠ [] ∧ (∀ x ∈ ['1', '2'], x.isDigit = true) ∧
      (∀ x ∈ ['3'], x.isDigit = true)) ∧
    readLine (['1', '2'] ++ [BinOp.add.char] ++ ['3'] ++ ['\n'])
      = some ([numberToken (String.mk ['1', '2']), BinOp.add.token,
          numberToken (String.mk ['3']), eolToken], []) ∧
    ['1', '2'] ++ [BinOp.add.char] ++ ['3'] ++ ['\n'] = "12+3\n".toList ∧
    String.mk ['1', '2'] = "12" ∧ BinOp.add.token = ⟨binop, "+"⟩ :=
  ⟨⟨by decide, by decide, by decide, by decide⟩,
    readLine_greedy_numbers ['1', '2'] ['3'] BinOp.add (by decide) (by decide) (by decide)
      (by decide),
    by decide, by decide, by decide⟩

/-- C26: a colon followed by `=` is read as the assignment token with text `:=` and both
characters are consumed; a colon followed by another character is read as an invalid token
and that character stays unread; a colon at the end of the input is read as an invalid token;
and the line `a:=5` gives the tokens variable `a`, `:=`, number `5` and end of line. -/
theorem nextToken_colon :
    (∀ rest, nextToken (':' :: '=' :: rest) = some (⟨assignop, ":="⟩, rest)) ∧
      (∀ c rest, c ≠ '=' →
        nextToken (':' :: c :: rest) = some (⟨invalid, "invalid"⟩, c :: rest)) ∧
      nextToken [':'] = some (⟨invalid, "invalid"⟩, []) ∧
      readLine "a:=5\n".toList
        = some ([⟨.variable, "a"⟩, ⟨assignop, ":="⟩, ⟨number, "5"⟩, ⟨eol, "\n"⟩], []) :=
  ⟨nextToken_colon_eq, nextToken_colon_other, nextToken_colon_end, by decide⟩

/-- C26, witness: in `:x` the colon is read as an invalid token and `x` stays unread. -/
theorem nextToken_colon_witness :
    'x' ≠ '=' ∧ nextToken (':' :: 'x' :: []) = some (⟨invalid, "invalid"⟩, ['x']) :=
  ⟨by decide, nextToken_colon.2.1 'x' [] (by decide)⟩

/-- C27, the code at the failing inputs: the line `1+2+` is accepted by `isValid`, its
postfix form is `1 2 + +`, and `constructTree` finds a single node on its stack at the second
operator; the line `1)` is accepted by `isValid` and `convertPostfix` pops its empty operator
stack at the right parenthesis. -/
theorem isValid_accepts_unsafe_lines :
    ((∀ rp, isValid rp trailingOperatorLine = some true) ∧
      convertPostfix trailingOperatorLine
        = some [numberToken "1", numberToken "2", BinOp.add.token, BinOp.add.token] ∧
      constructTree [numberToken "1", numberToken "2", BinOp.add.token, BinOp.add.token]
        = none) ∧
    ((∀ rp, isValid rp unmatchedParenLine = some true) ∧
      convertPostfix unmatchedParenLine = none) :=
  ⟨⟨fun _ => rfl, by decide, by decide⟩, ⟨fun _ => rfl, by decide⟩⟩

/-- C28, the code at the failing input: for all operand tokens `a` and `b` and every operator
token `op`, `constructTree` on `a b op` returns the node of `op` whose left child is the leaf
`b` (the first node popped) and whose right child is the leaf `a`; for `1 2 -` the left child
is the leaf `2`, not the leaf `1`. -/
theorem constructTree_first_pop_is_left :
    (∀ a b op : Token, isOperand a = true → isOperand b = true →
      (op.type_ = binop ∨ op.type_ = powop) →
      constructTree [a, b, op] = some (Node.mk op (Node.leaf b) (Node.leaf a))) ∧
    constructTree [numberToken "1", numberToken "2", BinOp.sub.token]
      = some (Node.mk BinOp.sub.token (Node.leaf (numberToken "2"))
          (Node.leaf (numberToken "1"))) ∧
    constructTree [numberToken "1", numberToken "2", BinOp.sub.token]
      ≠ some (Node.mk BinOp.sub.token (Node.leaf (numberToken "1"))
          (Node.leaf (numberToken "2"))) :=
  ⟨constructTree_operands_operator, by decide, by decide⟩

/-- C29: for every tree `t` and every map `s` that binds every variable of `t` to a tree, the
substitution pass returns `t` with each variable node replaced by the tree bound to it, taken
as it is, every other node in place, and hands back the map unchanged. -/
theorem fillVariables_single_pass (t : Node) (s : Variables)
    (hb : ∀ v ∈ t.variables, ∃ a, s.find v = some a ∧ a ≠ Node.null) :
    fillVariablesHelper t s = some (substituteOnce s t, s) :=
  fillVariablesHelper_eq_substituteOnce t s hb

/-- C29, witness: with the cyclic map (`a` bound to the leaf `b`, `b` to the leaf `a`) the
pass on the leaf `a` returns the leaf `b`, and `simplify` of the leaf `a` is the leaf `b`. -/
theorem fillVariables_single_pass_witness :
    (∀ v ∈ (Node.leaf (variableToken "a")).variables,
        ∃ a, cyclicStore.find v = some a ∧ a ≠ Node.null) ∧
      fillVariablesHelper (Node.leaf (variableToken "a")) cyclicStore
        = some (substituteOnce cyclicStore (Node.leaf (variableToken "a")), cyclicStore) ∧
      substituteOnce cyclicStore (Node.leaf (variableToken "a")) = Node.leaf (variableToken "b") ∧
      simplify (Node.leaf (variableToken "a")) cyclicStore
        = some (Node.leaf (variableToken "b"), cyclicStore) :=
  have hb : ∀ v ∈ (Node.leaf (variableToken "a")).variables,
      ∃ a, cyclicStore.find v = some a ∧ a ≠ Node.null := by
    intro v hv
    simp [Node.variables, Node.leaf, isVariable] at hv
    subst hv
    exact ⟨_, rfl, by simp [Node.leaf]⟩
  ⟨hb, fillVariables_single_pass (Node.leaf (variableToken "a")) cyclicStore hb, by decide,
    by decide⟩

/-- C30, amended: for every well-formed tree `t`, whenever the fold of the specification is
defined (every variable-free operator subtree has an `int` value) the folding pass returns
it; and whenever the pass returns a tree, that tree is well-formed, none of its operator nodes
has two number children, it is a single number leaf when `t` has no variable, and when `t`
has a variable its root is the root of `t` over the results of the pass on the children. -/
theorem traverseAndSimplify_folds (t : Node) (hwf : t.WellFormed) :
    (∀ res, t.foldSpec = some res → traverseAndSimplifyHelper t = some res) ∧
      (∀ res, traverseAndSimplifyHelper t = some res →
        res.WellFormed ∧ res.Folded ∧
          (t.hasVariable = false → ∃ text, res = Node.leaf (numberToken text)) ∧
          (t.hasVariable = true → ∀ tok l r, t = Node.mk tok l r →
            ∃ l1 r1, traverseAndSimplifyHelper l = some l1 ∧
              traverseAndSimplifyHelper r = some r1 ∧ res = Node.mk tok l1 r1)) := by
  refine ⟨traverse_refines_foldSpec t hwf, ?_⟩
  intro res h
  obtain ⟨w, f, n, k⟩ := traverse_structure t hwf res h
  refine ⟨w, f, ?_, k⟩
  intro hv
  rw [hv] at n
  exact wellFormed_numberNode res w (by simpa using n)

/-- C30, witness: the tree of `x+(1+2)` is well-formed, its fold in the specification and in
the code is the tree of `x+3`. -/
theorem traverseAndSimplify_folds_witness :
    foldSampleTree.WellFormed ∧
      foldSampleTree.foldSpec
        = some (Node.mk BinOp.add.token (Node.leaf (numberToken "3"))
            (Node.leaf (variableToken "x"))) ∧
      traverseAndSimplifyHelper foldSampleTree
        = some (Node.mk BinOp.add.token (Node.leaf (numberToken "3"))
            (Node.leaf (variableToken "x"))) :=
  have hwf : foldSampleTree.WellFormed :=
    Or.inl ⟨Or.inl ⟨BinOp.add, rfl⟩,
      Or.inl ⟨Or.inl ⟨BinOp.add, rfl⟩, Or.inr ⟨Or.inl rfl, rfl, rfl⟩,
        Or.inr ⟨Or.inl rfl, rfl, rfl⟩⟩,
      Or.inr ⟨Or.inr rfl, rfl, rfl⟩⟩
  ⟨hwf, by decide, (traverseAndSimplify_folds foldSampleTree hwf).1 _ (by decide)⟩

theorem fold_difference (a b : Int) (ha : INT_MIN ≤ a ∧ a ≤ INT_MAX)
    (hb : INT_MIN ≤ b ∧ b ≤ INT_MAX) (hres : INT_MIN ≤ a - b ∧ a - b ≤ INT_MAX) :
    constructTree [numberToken (to_string a), numberToken (to_string b), BinOp.sub.token]
        = some (Node.mk BinOp.sub.token (Node.leaf (numberToken (to_string b)))
            (Node.leaf (numberToken (to_string a)))) ∧
      traverseAndSimplifyHelper
          (Node.mk BinOp.sub.token (Node.leaf (numberToken (to_string b)))
            (Node.leaf (numberToken (to_string a))))
        = some (Node.leaf (numberToken (to_string (a - b)))) := by
  constructor
  · exact constructTree_operands_operator _ _ _ (by simp [isOperand]) (by simp [isOperand])
      (Or.inl rfl)
  · have hc := calc_bin BinOp.sub a b ha hb (fun h => by cases h) hres
    simp only [BinOp.text, BinOp.apply] at hc
    simp [traverseAndSimplifyHelper, Node.leaf, isOperator, isPower, BinOp.text, hc, numberToken]

theorem isValidBinop_none_present (toks : List Token) (h : ∀ t ∈ toks, t.type_ ≠ binop) :
    isValidBinop toks = some true := by
  induction toks with
  | nil => rfl
  | cons t rest ih =>
    have ht : t.type_ ≠ binop := h t (List.mem_cons_self _ _)
    simp only [isValidBinop, ht, ↓reduceIte]
    exact ih (fun u hu => h u (List.mem_cons_of_mem _ hu))

theorem isValidBinop_first (pre post : List Token) (b x : Token)
    (hpre : ∀ t ∈ pre, t.type_ ≠ binop) (hb : b.type_ = binop) :
    isValidBinop (pre ++ b :: x :: post)
      = some (if x.type_ = .variable ∨ x.type_ = number ∨ x.type_ = lparen
          then true else false) := by
  induction pre with
  | nil => simp [isValidBinop, hb]
  | cons t rest ih =>
    have ht : t.type_ ≠ binop := hpre t (List.mem_cons_self _ _)
    simp only [List.cons_append, isValidBinop, ht, ↓reduceIte]
    exact ih (fun u hu => hpre u (List.mem_cons_of_mem _ hu))

/-- On a sequence that ends in a token that is not a `binop`, `isValidBinop` returns. -/
theorem isValidBinop_total (toks : List Token) (e : Token) (he : e.type_ ≠ binop) :
    ∃ v, isValidBinop (toks ++ [e]) = some v := by
  induction toks with
  | nil => exact ⟨true, by simp [isValidBinop, he]⟩
  | cons t rest ih =>
    by_cases ht : t.type_ = binop
    · cases rest with
      | nil =>
        exact ⟨_, show isValidBinop (t :: e :: []) = some _ by
          simp only [isValidBinop, ht, ↓reduceIte]
          rfl⟩
      | cons u us =>
        exact ⟨_, show isValidBinop (t :: u :: (us ++ [e])) = some _ by
          simp only [isValidBinop, ht, ↓reduceIte]
          rfl⟩
    · obtain ⟨v, hv⟩ := ih
      exact ⟨v, by simpa only [List.cons_append, isValidBinop, ht, ↓reduceIte] using hv⟩

theorem wellFormed_ne_null (t : Node) (h : t.WellFormed) : t ≠ Node.null := by
  intro hc
  subst hc
  exact absurd h (by simp [Node.WellFormed])

theorem operatorToken_type (tok : Token) (h : (∃ o : BinOp, tok = o.token) ∨ tok = powToken) :
    (tok.type_ = binop ∨ tok.type_ = powop) ∧ tok.type_ ≠ number ∧ tok.type_ ≠ .variable := by
  rcases h with ⟨o, rfl⟩ | rfl
  · cases o <;> decide
  · decide

/-- A well-formed tree has the shape of the specification. -/
theorem wellFormed_shaped (t : Node) (h : t.WellFormed) : t.Shaped := by
  induction t with
  | null => trivial
  | mk tok l r ihl ihr =>
    rcases h with ⟨hop, hwl, hwr⟩ | ⟨hleaf, hl, hr⟩
    · have hty := operatorToken_type tok hop
      refine ⟨fun _ => ⟨wellFormed_ne_null l hwl, wellFormed_ne_null r hwr⟩, ?_,
        ihl hwl, ihr hwr⟩
      intro hc
      rcases hc with hc | hc
      · exact absurd hc hty.2.1
      · exact absurd hc hty.2.2
    · subst hl; subst hr
      refine ⟨?_, fun _ => ⟨rfl, rfl⟩, trivial, trivial⟩
      intro hc
      rcases hleaf with hn | hn <;> rcases hc with hc | hc <;> rw [hn] at hc <;> cases hc

/-- The tree of an expression is well-formed. -/
theorem Expr.toTree_wellFormed (e : Expr) : e.toTree.WellFormed := by
  induction e with
  | num n => exact Or.inr ⟨Or.inl rfl, rfl, rfl⟩
  | var name => exact Or.inr ⟨Or.inr rfl, rfl, rfl⟩
  | bin op l r ihl ihr => exact Or.inl ⟨Or.inl ⟨op, rfl⟩, ihr, ihl⟩
  | pow b ex ihb ihe => exact Or.inl ⟨Or.inr rfl, ihe, ihb⟩
  | paren e ih => exact ih

/-- One substitution pass with well-formed trees in the map keeps a tree well-formed. -/
theorem substituteOnce_wellFormed (t : Node) (s : Variables) (hwf : t.WellFormed)
    (hb : ∀ v ∈ t.variables, ∃ a, s.find v = some a ∧ a.WellFormed) :
    (substituteOnce s t).WellFormed := by
  induction t with
  | null => exact absurd hwf (by simp [Node.WellFormed])
  | mk tok l r ihl ihr =>
    rcases hwf with ⟨hop, hwl, hwr⟩ | ⟨hleaf, hl, hr⟩
    · have hty := operatorToken_type tok hop
      have hv : isVariable tok = false := by simp [isVariable, hty.2.2]
      simp only [substituteOnce, hv, Bool.false_eq_true, ↓reduceIte]
      exact Or.inl ⟨hop, ihl hwl (fun v hv2 => hb v (by simp [Node.variables, hv2])),
        ihr hwr (fun v hv2 => hb v (by simp [Node.variables, hv2]))⟩
    · subst hl; subst hr
      by_cases hv : isVariable tok = true
      · obtain ⟨a, ha, hwa⟩ := hb tok.value_ (by simp [Node.variables, hv])
        simpa [substituteOnce, hv, ha] using hwa
      · simp only [substituteOnce, hv, Bool.false_eq_true, ↓reduceIte]
        exact Or.inr ⟨hleaf, rfl, rfl⟩

theorem fillVariablesHelper_wellFormed (t : Node) (s : Variables) (hwf : t.WellFormed)
    (hb : ∀ v ∈ t.variables, ∃ a, s.find v = some a ∧ a.WellFormed) :
    ∃ r, fillVariablesHelper t s = some (r, s) ∧ r.WellFormed :=
  ⟨substituteOnce s t,
    fillVariablesHelper_eq_substituteOnce t s (fun v hv => by
      obtain ⟨a, ha, hwa⟩ := hb v hv
      exact ⟨a, ha, wellFormed_ne_null a hwa⟩),
    substituteOnce_wellFormed t s hwf hb⟩

theorem constructTreeLoop_ne_null (pfx : List Token) :
    ∀ (stack st : List Node), (∀ n ∈ stack, n ≠ Node.null) →
      constructTreeLoop pfx stack = some st → ∀ n ∈ st, n ≠ Node.null := by
  induction pfx with
  | nil =>
    intro stack st hs h
    simp only [constructTreeLoop, Option.some.injEq] at h
    subst h
    exact hs
  | cons t rest ih =>
    intro stack st hs h
    simp only [constructTreeLoop] at h
    split at h
    · split at h
      · rename_i left right stack1
        refine ih _ st ?_ h
        intro n hn
        rcases List.mem_cons.mp hn with rfl | hn
        · simp
        · exact hs n (by simp [hn])
      · cases h
    · split at h
      · refine ih _ st ?_ h
        intro n hn
        rcases List.mem_cons.mp hn with rfl | hn
        · simp [Node.leaf]
        · exact hs n hn
      · exact ih _ st hs h

/-- A tree built by `constructTree` has a root. -/
theorem constructTree_ne_null (pfx : List Token) (t : Node) (h : constructTree pfx = some t) :
    t ≠ Node.null := by
  unfold constructTree at h
  cases hl : constructTreeLoop pfx [] with
  | none => simp [hl] at h
  | some st =>
    cases st with
    | nil => simp [hl] at h
    | cons top tl =>
      simp only [hl, Option.some.injEq] at h
      subst h
      exact constructTreeLoop_ne_null pfx [] _ (by simp) hl top (List.mem_cons_self _ _)

/-- Function `assignVariable` keeps every bound key bound. -/
theorem assignVariable_binds (v : String) (pfx : List Token) (vars vars1 : Variables)
    (h : assignVariable v pfx vars = some vars1) (k : String) (hk : vars.Binds k) :
    vars1.Binds k := by
  by_cases hlen : pfx.length = 2
  · simp only [assignVariable, hlen, ↓reduceIte, Option.some.injEq] at h
    subst h
    exact hk
  · cases hc : constructTree pfx with
    | none => simp [assignVariable, hlen, hc] at h
    | some ast =>
      obtain ⟨vars2, h1, h2, h3⟩ := assignVariable_spec v pfx vars ast hlen hc
      rw [h] at h1
      injection h1 with h1
      subst h1
      by_cases hkv : k = v
      · subst hkv
        exact ⟨ast, h2, constructTree_ne_null pfx ast hc⟩
      · obtain ⟨a, ha, hne⟩ := hk
        exact ⟨a, by rw [h3 k hkv]; exact ha, hne⟩

theorem assignVariableHelper_binds (toks pfx : List Token) (vars vars1 : Variables)
    (h : assignVariableHelper toks vars = some (pfx, vars1)) (k : String) (hk : vars.Binds k) :
    vars1.Binds k := by
  unfold assignVariableHelper at h
  split at h
  · rename_i t0 t1 rest
    cases hc : convertPostfix rest with
    | none => simp [hc] at h
    | some p =>
      simp only [hc] at h
      cases ha : assignVariable t0.value_ p vars with
      | none => simp [ha] at h
      | some v1 =>
        simp only [ha, Option.map_some', Option.some.injEq, Prod.mk.injEq] at h
        obtain ⟨_, h2⟩ := h
        subst h2
        exact assignVariable_binds _ _ _ _ ha k hk
  · cases h

/-- A substitution pass that returns hands back the map it was given. -/
theorem fillVariablesHelper_map (t : Node) :
    ∀ (s s1 : Variables) (r : Node), fillVariablesHelper t s = some (r, s1) → s1 = s := by
  induction t with
  | null =>
    intro s s1 r h
    simp only [fillVariablesHelper, Option.some.injEq, Prod.mk.injEq] at h
    exact h.2.symm
  | mk tok l r ihl ihr =>
    intro s s1 res h
    simp only [fillVariablesHelper] at h
    cases hl : fillVariablesHelper l s with
    | none => simp [hl] at h
    | some pl =>
      obtain ⟨nl, v1⟩ := pl
      have e1 := ihl s v1 nl hl
      subst e1
      simp only [hl] at h
      cases hr : fillVariablesHelper r v1 with
      | none => simp [hr] at h
      | some pr =>
        obtain ⟨nr, v2⟩ := pr
        have e2 := ihr v1 v2 nr hr
        subst e2
        simp only [hr] at h
        split at h
        · split at h
          · cases hcp : copyTree (by assumption) with
            | none => simp [hcp] at h
            | some c =>
              simp only [hcp, Option.map_some', Option.some.injEq, Prod.mk.injEq] at h
              exact h.2.symm
          · simp [copyTree] at h
        · simp only [Option.some.injEq, Prod.mk.injEq] at h
          exact h.2.symm

/-- Function `simplify` hands back the map it was given. -/
theorem simplify_map (t : Node) (s s1 : Variables) (r : Node)
    (h : simplify t s = some (r, s1)) : s1 = s := by
  unfold simplify at h
  cases hc : copyTree t with
  | none => simp [hc] at h
  | some c =>
    simp only [hc] at h
    cases hf : fillVariablesHelper c s with
    | none => simp [hf] at h
    | some p =>
      obtain ⟨filled, v1⟩ := p
      have e := fillVariablesHelper_map c s v1 filled hf
      subst e
      simp only [hf] at h
      cases ht : traverseAndSimplifyHelper filled with
      | none => simp [ht] at h
      | some x =>
        simp only [ht, Option.map_some', Option.some.injEq, Prod.mk.injEq] at h
        exact h.2.symm

theorem simplify_render_map (t : Node) (s : Variables) (res : String × Variables)
    (h : (simplify t s).map (fun r => (toInfix r.1, r.2)) = some res) : res.2 = s := by
  cases hs : simplify t s with
  | none => simp [hs] at h
  | some p =>
    obtain ⟨r, s1⟩ := p
    simp only [hs, Option.map_some', Option.some.injEq] at h
    subst h
    exact simplify_map t s s1 r hs

/-- A statement that is evaluated keeps every bound key bound. -/
theorem evaluateStatement_binds (toks : List Token) (vars : Variables)
    (res : String × Variables) (h : evaluateStatement toks vars = some res)
    (k : String) (hk : vars.Binds k) : res.2.Binds k := by
  unfold evaluateStatement at h
  split at h
  · cases h
  · cases ha : assignVariableHelper toks vars with
    | none => simp [ha] at h
    | some p =>
      obtain ⟨pfx, vars1⟩ := p
      simp only [ha] at h
      cases hc : constructTree pfx with
      | none => simp [hc] at h
      | some ast =>
        simp only [hc] at h
        rw [simplify_render_map ast vars1 res h]
        exact assignVariableHelper_binds toks pfx vars vars1 ha k hk
  · split at h
    · rename_i t0 t1 rest _
      split at h
      · cases hc : constructTree (t0 :: t1 :: rest) with
        | none => simp [hc] at h
        | some ast =>
          simp only [hc] at h
          cases ha : assignVariableHelper (probeRewrite (t0 :: t1 :: rest)) vars with
          | none => simp [ha] at h
          | some p =>
            obtain ⟨pfx, vars1⟩ := p
            simp only [ha] at h
            rw [simplify_render_map ast vars1 res h]
            exact assignVariableHelper_binds _ pfx vars vars1 ha k hk
      · cases hp : convertPostfix (t0 :: t1 :: rest) with
        | none => simp [hp] at h
        | some pfx =>
          simp only [hp] at h
          cases hc : constructTree pfx with
          | none => simp [hc] at h
          | some ast =>
            simp only [hc] at h
            rw [simplify_render_map ast vars res h]
            exact hk
    · cases h

theorem calculateStep_binds (rp : Int) (toks : List Token) (vars : Variables)
    (res : Option String × Variables) (h : calculateStep rp toks vars = some res)
    (k : String) (hk : vars.Binds k) : res.2.Binds k := by
  unfold calculateStep at h
  split at h
  · cases h
  · injection h with h
    subst h
    exact hk
  · cases he : evaluateStatement toks vars with
    | none => simp [he] at h
    | some p =>
      simp only [he, Option.map_some', Option.some.injEq] at h
      subst h
      exact evaluateStatement_binds toks vars p he k hk

theorem calculateLoop_binds (rp : Nat → Int) (fuel : Nat) :
    ∀ (cs : List Char) (vars : Variables) (sols : List String)
      (res : List String × Variables),
      calculateLoop rp fuel cs vars sols = some res →
      ∀ k, vars.Binds k → res.2.Binds k := by
  induction fuel with
  | zero =>
    intro cs vars sols res h
    cases h
  | succ n ih =>
    intro cs vars sols res h k hk
    simp only [calculateLoop] at h
    cases hr : readLine cs with
    | none => simp [hr] at h
    | some p =>
      obtain ⟨toks, rest⟩ := p
      simp only [hr] at h
      cases hs : calculateStep (rp n) toks vars with
      | none => simp [hs] at h
      | some q =>
        obtain ⟨sol, vars1⟩ := q
        simp only [hs] at h
        have hk1 : vars1.Binds k := calculateStep_binds (rp n) toks vars (sol, vars1) hs k hk
        cases toks with
        | nil => cases h
        | cons first tl =>
          simp only at h
          split at h
          · injection h with h
            subst h
            exact hk1
          · exact ih _ _ _ _ h k hk1

theorem initializeVariables_lettersBound : LettersBound initializeVariables := by
  intro c hc
  exact ⟨_, initializeVariables_find c hc, by simp [Node.leaf]⟩

theorem isAlpha_toNat (c : Char) (h : c.isAlpha = true) :
    (65 ≤ c.toNat ∧ c.toNat ≤ 90) ∨ (97 ≤ c.toNat ∧ c.toNat ≤ 122) := by
  simp only [Char.isAlpha, Char.isUpper, Char.isLower, Bool.or_eq_true, Bool.and_eq_true,
    decide_eq_true_eq] at h
  rcases h with h | h
  · left; exact ⟨h.1, h.2⟩
  · right; exact ⟨h.1, h.2⟩

/-- The lowercase form of an ASCII letter is one of the 26 letters of `alph`. -/
theorem toLower_mem_alph (c : Char) (h : c.isAlpha = true) : c.toLower ∈ alph.toList := by
  have hr := isAlpha_toNat c h
  have hc : c = Char.ofNat c.toNat := (Char.ofNat_toNat c).symm
  generalize c.toNat = n at hr hc
  subst hc
  rcases hr with ⟨h1, h2⟩ | ⟨h1, h2⟩
  · interval_cases n <;> decide
  · interval_cases n <;> decide

/-- A variable token read by the tokenizer carries a single lowercase letter. -/
theorem nextToken_variable_letter (cs rest : List Char) (tok : Token)
    (h : nextToken cs = some (tok, rest)) (hv : tok.type_ = .variable) :
    IsLetterName tok.value_ := by
  cases cs with
  | nil => cases h
  | cons c tl =>
    unfold nextToken at h
    dsimp only at h
    by_cases h0 : c = '.'
    · rw [if_pos h0] at h
      simp only [Option.some.injEq, Prod.mk.injEq] at h
      obtain ⟨e1, _⟩ := h
      subst e1
      exact absurd hv (by decide)
    rw [if_neg h0] at h
    by_cases h1 : c.toNat = 40
    · rw [if_pos h1] at h
      simp only [Option.some.injEq, Prod.mk.injEq] at h
      obtain ⟨e1, _⟩ := h
      subst e1
      exact absurd hv (by decide)
    rw [if_neg h1] at h
    by_cases h2 : c.toNat = 41
    · rw [if_pos h2] at h
      simp only [Option.some.injEq, Prod.mk.injEq] at h
      obtain ⟨e1, _⟩ := h
      subst e1
      exact absurd hv (by decide)
    rw [if_neg h2] at h
    by_cases h3 : c = '+'
    · rw [if_pos h3] at h
      simp only [Option.some.injEq, Prod.mk.injEq] at h
      obtain ⟨e1, _⟩ := h
      subst e1
      exact absurd hv (by decide)
    rw [if_neg h3] at h
    by_cases h4 : c = '-'
    · rw [if_pos h4] at h
      simp only [Option.some.injEq, Prod.mk.injEq] at h
      obtain ⟨e1, _⟩ := h
      subst e1
      exact absurd hv (by decide)
    rw [if_neg h4] at h
    by_cases h5 : c = '/'
    · rw [if_pos h5] at h
      simp only [Option.some.injEq, Prod.mk.injEq] at h
      obtain ⟨e1, _⟩ := h
      subst e1
      exact absurd hv (by decide)
    rw [if_neg h5] at h
    by_cases h6 : c = '*'
    · rw [if_pos h6] at h
      simp only [Option.some.injEq, Prod.mk.injEq] at h
      obtain ⟨e1, _⟩ := h
      subst e1
      exact absurd hv (by decide)
    rw [if_neg h6] at h
    by_cases h7 : c = '^'
    · rw [if_pos h7] at h
      simp only [Option.some.injEq, Prod.mk.injEq] at h
      obtain ⟨e1, _⟩ := h
      subst e1
      exact absurd hv (by decide)
    rw [if_neg h7] at h
    by_cases hcol : c = ':'
    · rw [if_pos hcol] at h
      split at h
      · simp only [Option.some.injEq, Prod.mk.injEq] at h
        obtain ⟨e1, _⟩ := h
        subst e1
        exact absurd hv (by decide)
      · simp only [Option.some.injEq, Prod.mk.injEq] at h
        obtain ⟨e1, _⟩ := h
        subst e1
        exact absurd hv (by decide)
    rw [if_neg hcol] at h
    by_cases hdig : c.isDigit = true
    · rw [if_pos hdig] at h
      simp only [Option.some.injEq, Prod.mk.injEq] at h
      obtain ⟨e1, _⟩ := h
      subst e1
      exact absurd hv (by simp)
    rw [if_neg hdig] at h
    by_cases halpha : c.isAlpha = true
    · rw [if_pos halpha] at h
      simp only [Option.some.injEq, Prod.mk.injEq] at h
      obtain ⟨e1, _⟩ := h
      subst e1
      exact ⟨c.toLower, toLower_mem_alph c halpha, rfl⟩
    rw [if_neg halpha] at h
    by_cases hnl : c = '\n'
    · rw [if_pos hnl] at h
      simp only [Option.some.injEq, Prod.mk.injEq] at h
      obtain ⟨e1, _⟩ := h
      subst e1
      exact absurd hv (by decide)
    rw [if_neg hnl] at h
    simp only [Option.some.injEq, Prod.mk.injEq] at h
    obtain ⟨e1, _⟩ := h
    subst e1
    exact absurd hv (by decide)

theorem readLineLoop_letters (fuel : Nat) :
    ∀ (cs rest : List Char) (acc toks : List Token), LetterVariables acc →
      readLineLoop fuel cs acc = some (toks, rest) → LetterVariables toks := by
  induction fuel with
  | zero =>
    intro cs rest acc toks _ h
    cases h
  | succ n ih =>
    intro cs rest acc toks hacc h
    simp only [readLineLoop] at h
    cases hn : nextToken cs with
    | none => simp [hn] at h
    | some p =>
      obtain ⟨tok, r1⟩ := p
      simp only [hn] at h
      have hacc1 : LetterVariables (acc ++ [tok]) := by
        intro t ht hv
        rcases List.mem_append.mp ht with ht | ht
        · exact hacc t ht hv
        · simp only [List.mem_singleton] at ht
          subst ht
          exact nextToken_variable_letter cs r1 t hn hv
      split at h
      · simp only [Option.some.injEq, Prod.mk.injEq] at h
        obtain ⟨h1, _⟩ := h
        subst h1
        exact hacc1
      · exact ih _ _ _ _ hacc1 h

/-- Every variable token of a line read by the tokenizer carries a single lowercase letter. -/
theorem readLine_letters (cs rest : List Char) (toks : List Token)
    (h : readLine cs = some (toks, rest)) : LetterVariables toks :=
  readLineLoop_letters _ cs rest [] toks (fun _ ht => by cases ht) h

theorem popOperators_mem (t : Token) (s : List Token) :
    ∀ out tok, tok ∈ (popOperators t s out).1 ∨ tok ∈ (popOperators t s out).2 →
      tok ∈ s ∨ tok ∈ out := by
  induction s with
  | nil =>
    intro out tok h
    simpa [popOperators] using h
  | cons top s ih =>
    intro out tok h
    simp only [popOperators] at h
    split at h
    · rcases ih _ tok h with h1 | h1
      · exact Or.inl (List.mem_cons_of_mem _ h1)
      · rcases List.mem_append.mp h1 with h2 | h2
        · exact Or.inr h2
        · simp only [List.mem_singleton] at h2
          subst h2
          exact Or.inl (List.mem_cons_self _ _)
    · exact h

theorem popToLeftParen_mem (s : List Token) :
    ∀ out r, popToLeftParen s out = some r → ∀ tok, tok ∈ r.1 ∨ tok ∈ r.2 →
      tok ∈ s ∨ tok ∈ out := by
  induction s with
  | nil =>
    intro out r h
    cases h
  | cons top s ih =>
    intro out r h tok ht
    simp only [popToLeftParen] at h
    split at h
    · rcases ih _ r h tok ht with h1 | h1
      · exact Or.inl (List.mem_cons_of_mem _ h1)
      · rcases List.mem_append.mp h1 with h2 | h2
        · exact Or.inr h2
        · simp only [List.mem_singleton] at h2
          subst h2
          exact Or.inl (List.mem_cons_self _ _)
    · injection h with h
      subst h
      rcases ht with h1 | h1
      · exact Or.inl (List.mem_cons_of_mem _ h1)
      · exact Or.inr h1

theorem convertPostfixLoop_mem (toks : List Token) :
    ∀ s out pfx, convertPostfixLoop toks s out = some pfx →
      ∀ tok ∈ pfx, tok ∈ toks ∨ tok ∈ s ∨ tok ∈ out := by
  induction toks with
  | nil =>
    intro s out pfx h tok ht
    simp only [convertPostfixLoop, Option.some.injEq] at h
    subst h
    rcases List.mem_append.mp ht with h1 | h1
    · exact Or.inr (Or.inr h1)
    · exact Or.inr (Or.inl h1)
  | cons t rest ih =>
    intro s out pfx h tok ht
    simp only [convertPostfixLoop] at h
    split at h
    · rcases ih _ _ _ h tok ht with h1 | h1 | h1
      · exact Or.inl (List.mem_cons_of_mem _ h1)
      · exact Or.inr (Or.inl h1)
      · rcases List.mem_append.mp h1 with h2 | h2
        · exact Or.inr (Or.inr h2)
        · simp only [List.mem_singleton] at h2
          subst h2
          exact Or.inl (List.mem_cons_self _ _)
    · split at h
      · rcases ih _ _ _ h tok ht with h1 | h1 | h1
        · exact Or.inl (List.mem_cons_of_mem _ h1)
        · rcases List.mem_cons.mp h1 with h2 | h2
          · subst h2
            exact Or.inl (List.mem_cons_self _ _)
          · exact Or.inr (popOperators_mem t s out tok (Or.inl h2))
        · exact Or.inr (popOperators_mem t s out tok (Or.inr h1))
      · split at h
        · rcases ih _ _ _ h tok ht with h1 | h1 | h1
          · exact Or.inl (List.mem_cons_of_mem _ h1)
          · rcases List.mem_cons.mp h1 with h2 | h2
            · subst h2
              exact Or.inl (List.mem_cons_self _ _)
            · exact Or.inr (Or.inl h2)
          · exact Or.inr (Or.inr h1)
        · split at h
          · cases hp : popToLeftParen s out with
            | none => simp [hp] at h
            | some r =>
              simp only [hp] at h
              rcases ih _ _ _ h tok ht with h1 | h1 | h1
              · exact Or.inl (List.mem_cons_of_mem _ h1)
              · exact Or.inr (popToLeftParen_mem s out r hp tok (Or.inl h1))
              · exact Or.inr (popToLeftParen_mem s out r hp tok (Or.inr h1))
          · rcases ih _ _ _ h tok ht with h1 | h1 | h1
            · exact Or.inl (List.mem_cons_of_mem _ h1)
            · exact Or.inr (Or.inl h1)
            · exact Or.inr (Or.inr h1)

/-- Every token of the postfix form is a token of the line. -/
theorem convertPostfix_mem (toks pfx : List Token) (h : convertPostfix toks = some pfx) :
    ∀ tok ∈ pfx, tok ∈ toks := by
  intro tok ht
  rcases convertPostfixLoop_mem toks [] [] pfx h tok ht with h1 | h1 | h1
  · exact h1
  · cases h1
  · cases h1

theorem constructTreeLoop_variables (good : String → Prop) (pfx : List Token) :
    ∀ (stack st : List Node), (∀ tok ∈ pfx, tok.type_ = .variable → good tok.value_) →
      (∀ n ∈ stack, ∀ v ∈ n.variables, good v) →
      constructTreeLoop pfx stack = some st → ∀ n ∈ st, ∀ v ∈ n.variables, good v := by
  induction pfx with
  | nil =>
    intro stack st _ hs h
    simp only [constructTreeLoop, Option.some.injEq] at h
    subst h
    exact hs
  | cons t rest ih =>
    intro stack st hp hs h
    have hrest : ∀ tok ∈ rest, tok.type_ = .variable → good tok.value_ :=
      fun tok ht => hp tok (List.mem_cons_of_mem _ ht)
    simp only [constructTreeLoop] at h
    split at h
    · rename_i hop
      split at h
      · rename_i left right stack1
        refine ih _ st hrest ?_ h
        intro n hn v hv
        rcases List.mem_cons.mp hn with rfl | hn
        · have hnv : isVariable t = false := by
            simp only [isOperator, isPower, Bool.or_eq_true, ite_eq_left_iff,
              Bool.false_eq_true, imp_false, Decidable.not_not] at hop
            rcases hop with hop | hop <;> simp [isVariable, hop]
          simp only [Node.variables, hnv, Bool.false_eq_true, ↓reduceIte, List.nil_append,
            List.mem_append] at hv
          rcases hv with hv | hv
          · exact hs left (by simp) v hv
          · exact hs right (by simp) v hv
        · exact hs n (by simp [hn]) v hv
      · cases h
    · split at h
      · refine ih _ st hrest ?_ h
        intro n hn v hv
        rcases List.mem_cons.mp hn with rfl | hn
        · by_cases hvar : isVariable t = true
          · simp only [Node.leaf, Node.variables, hvar, ↓reduceIte, List.append_nil,
              List.mem_singleton] at hv
            subst hv
            exact hp t (List.mem_cons_self _ _) (by simpa [isVariable] using hvar)
          · simp [Node.leaf, Node.variables, hvar] at hv
        · exact hs n hn v hv
      · exact ih _ st hrest hs h

/-- The variables of a tree built by `constructTree` are variables of its tokens. -/
theorem constructTree_variables (good : String → Prop) (pfx : List Token) (t : Node)
    (hp : ∀ tok ∈ pfx, tok.type_ = .variable → good tok.value_)
    (h : constructTree pfx = some t) : ∀ v ∈ t.variables, good v := by
  unfold constructTree at h
  cases hl : constructTreeLoop pfx [] with
  | none => simp [hl] at h
  | some st =>
    cases st with
    | nil => simp [hl] at h
    | cons top tl =>
      simp only [hl, Option.some.injEq] at h
      subst h
      exact constructTreeLoop_variables good pfx [] _ hp (fun _ hn => by cases hn) hl top
        (List.mem_cons_self _ _)

/-- C31: the tree that the code builds from the line of a well-formed infix expression is
well-formed; `copyTree` returns a well-formed tree as it is; the substitution pass on a
well-formed tree, with a map that binds its variables to well-formed trees, returns a
well-formed tree; every result of the folding pass on a well-formed tree is well-formed; and
in a well-formed tree every node that holds a `binop` or `powop` token has two children and
every node that holds a `number` or `variable` token has none. -/
theorem tree_shape_invariant :
    (∀ e : Expr, e.WellFormed →
      ∃ t, (convertPostfix (exprLine e)).bind constructTree = some t ∧ t.WellFormed) ∧
    (∀ t : Node, t.WellFormed → copyTree t = some t) ∧
    (∀ (t : Node) (s : Variables), t.WellFormed →
      (∀ v ∈ t.variables, ∃ a, s.find v = some a ∧ a.WellFormed) →
      ∃ r, fillVariablesHelper t s = some (r, s) ∧ r.WellFormed) ∧
    (∀ t r : Node, t.WellFormed → traverseAndSimplifyHelper t = some r → r.WellFormed) ∧
    (∀ t : Node, t.WellFormed → t.Shaped) := by
  refine ⟨?_, ?_, ?_, ?_, wellFormed_shaped⟩
  · intro e hwf
    refine ⟨e.toTree, ?_, e.toTree_wellFormed⟩
    simp [exprLine, convertPostfix_expr e hwf, constructTree_expr]
  · intro t hwf
    exact copyTree_of_ne_null t (wellFormed_ne_null t hwf)
  · intro t s hwf hb
    exact fillVariablesHelper_wellFormed t s hwf hb
  · intro t r hwf h
    exact (traverse_structure t hwf r h).1

/-- C31, witness: the line of `2^3^2 - 10/4*(1+2)` yields a well-formed tree, and the fold of
the tree of `x+(1+2)`, the tree of `x+3`, has the shape of the specification. -/
theorem tree_shape_invariant_witness :
    sampleExpr.WellFormed ∧
      (∃ t, (convertPostfix (exprLine sampleExpr)).bind constructTree = some t ∧
        t.WellFormed) ∧
      traverseAndSimplifyHelper foldSampleTree
        = some (Node.mk BinOp.add.token (Node.leaf (numberToken "3"))
            (Node.leaf (variableToken "x"))) ∧
      (Node.mk BinOp.add.token (Node.leaf (numberToken "3"))
          (Node.leaf (variableToken "x"))).Shaped :=
  have hwf : foldSampleTree.WellFormed :=
    Or.inl ⟨Or.inl ⟨BinOp.add, rfl⟩,
      Or.inl ⟨Or.inl ⟨BinOp.add, rfl⟩, Or.inr ⟨Or.inl rfl, rfl, rfl⟩,
        Or.inr ⟨Or.inl rfl, rfl, rfl⟩⟩,
      Or.inr ⟨Or.inr rfl, rfl, rfl⟩⟩
  have hfold : traverseAndSimplifyHelper foldSampleTree
      = some (Node.mk BinOp.add.token (Node.leaf (numberToken "3"))
          (Node.leaf (variableToken "x"))) := by decide
  ⟨by decide, tree_shape_invariant.1 sampleExpr (by decide), hfold,
    tree_shape_invariant.2.2.2.2 _ (tree_shape_invariant.2.2.2.1 _ _ hwf hfold)⟩

/-- C32: the keys of the initial map are exactly the 26 lowercase letters, each bound to the
single node of its variable; every statement and every session that the code processes keeps
each of the 26 letters bound to a tree; every variable token that the tokenizer reads carries
one of the 26 letters; and on a tree built from such tokens (directly or from their postfix
form) the substitution pass finds a tree for every variable it looks up and returns. -/
theorem letters_stay_bound :
    (initializeVariables.map (fun q => q.1) = alph.toList.map String.singleton ∧
      ∀ c ∈ alph.toList, initializeVariables.find (String.singleton c)
        = some (Node.leaf (variableToken (String.singleton c)))) ∧
    (∀ (rp : Int) (toks : List Token) (vars : Variables) (res : Option String × Variables),
      LettersBound vars → calculateStep rp toks vars = some res → LettersBound res.2) ∧
    (∀ (rp : Nat → Int) (input : String) (res : List String × Variables),
      calculate rp input = some res → LettersBound res.2) ∧
    (∀ (cs rest : List Char) (toks : List Token),
      readLine cs = some (toks, rest) → LetterVariables toks) ∧
    (∀ (toks pfx : List Token) (ast : Node) (s : Variables),
      LetterVariables toks → LettersBound s →
      (convertPostfix toks = some pfx ∨ pfx = toks) → constructTree pfx = some ast →
      ∃ r, fillVariablesHelper ast s = some (r, s)) := by
  refine ⟨⟨by decide, initializeVariables_find⟩, ?_, ?_, ?_, ?_⟩
  · intro rp toks vars res hb h c hc
    exact calculateStep_binds rp toks vars res h _ (hb c hc)
  · intro rp input res h c hc
    exact calculateLoop_binds rp _ _ _ _ res h _ (initializeVariables_lettersBound c hc)
  · intro cs rest toks h
    exact readLine_letters cs rest toks h
  · intro toks pfx ast s hl hb hp hc
    have hpl : ∀ tok ∈ pfx, tok.type_ = .variable → IsLetterName tok.value_ := by
      intro tok ht hv
      rcases hp with hp | hp
      · exact hl tok (convertPostfix_mem toks pfx hp tok ht) hv
      · subst hp
        exact hl tok ht hv
    refine fillVariablesHelper_frame ast s ?_
    intro v hv
    obtain ⟨c, hc1, hc2⟩ := constructTree_variables IsLetterName pfx ast hpl hc v hv
    subst hc2
    exact hb c hc1

/-- C32, witness: the session `a:=5`, `b:=a+1`, `b` is processed, with the solutions `5`, `6`
and `(1+a)`, and every letter is bound to a tree in the map it leaves. -/
theorem letters_stay_bound_witness :
    (calculate (fun _ => 0) "a:=5\nb:=a+1\nb\n.\n").map (fun r => r.1)
        = some ["5", "6", "(1+a)"] ∧
      ∀ res, calculate (fun _ => 0) "a:=5\nb:=a+1\nb\n.\n" = some res → LettersBound res.2 :=
  ⟨by rfl, fun res h => letters_stay_bound.2.2.1 _ _ res h⟩

/-- C33, the code at the failing input: the line `1/0` is read as the tokens `1`, `/`, `0`
and end of line, `isValid` accepts it, the tree built for it has the leaf `0` as left child
of `/`, and the folding pass hands the text `0` to `calc` as first argument, which `calc`
reads as its local `right`, the divisor: the division has no result, and neither has the
step on the line. -/
theorem zero_divisor_fold_reached :
    readLine "1/0\n".toList = some (zeroDivisorLine, []) ∧
      (∀ rp, isValid rp zeroDivisorLine = some true) ∧
      (convertPostfix zeroDivisorLine).bind constructTree
        = some (Node.mk BinOp.div.token (Node.leaf (numberToken "0"))
            (Node.leaf (numberToken "1"))) ∧
      traverseAndSimplifyHelper
          (Node.mk BinOp.div.token (Node.leaf (numberToken "0")) (Node.leaf (numberToken "1")))
        = (calc_ "0" "/" "1").map (fun v => Node.leaf (numberToken v)) ∧
      stoi "0" = some 0 ∧ calc_ "0" "/" "1" = none ∧
      (∀ rp, calculateStep rp zeroDivisorLine initializeVariables = none) :=
  ⟨by decide, fun _ => rfl, by decide, by decide, by decide, by decide, fun _ => rfl⟩

/-- C34, amended: for all `int`s `a` and `b` whose difference `a - b` is an `int`,
`constructTree` builds from the postfix `a b -` the node of `-` with the leaf `b` as left and
the leaf `a` as right child, and the folding pass turns it into the number leaf of `a - b`. -/
theorem fold_subtraction_swaps_cancel (a b : Int) (ha : INT_MIN ≤ a ∧ a ≤ INT_MAX)
    (hb : INT_MIN ≤ b ∧ b ≤ INT_MAX) (hres : INT_MIN ≤ a - b ∧ a - b ≤ INT_MAX) :
    constructTree [numberToken (to_string a), numberToken (to_string b), BinOp.sub.token]
        = some (Node.mk BinOp.sub.token (Node.leaf (numberToken (to_string b)))
            (Node.leaf (numberToken (to_string a)))) ∧
      traverseAndSimplifyHelper
          (Node.mk BinOp.sub.token (Node.leaf (numberToken (to_string b)))
            (Node.leaf (numberToken (to_string a))))
        = some (Node.leaf (numberToken (to_string (a - b)))) :=
  fold_difference a b ha hb hres

/-- C34, witness: the tree of `5 - 3` folds to the leaf `2`, not to the leaf `-2`. -/
theorem fold_subtraction_swaps_cancel_witness :
    ((INT_MIN ≤ (5 : Int) ∧ (5 : Int) ≤ INT_MAX) ∧ (INT_MIN ≤ (3 : Int) ∧ (3 : Int) ≤ INT_MAX) ∧
      (INT_MIN ≤ (5 : Int) - 3 ∧ (5 : Int) - 3 ≤ INT_MAX)) ∧
    (constructTree [numberToken (to_string 5), numberToken (to_string 3), BinOp.sub.token]
        = some (Node.mk BinOp.sub.token (Node.leaf (numberToken (to_string 3)))
            (Node.leaf (numberToken (to_string 5)))) ∧
      traverseAndSimplifyHelper
          (Node.mk BinOp.sub.token (Node.leaf (numberToken (to_string 3)))
            (Node.leaf (numberToken (to_string 5))))
        = some (Node.leaf (numberToken (to_string ((5 : Int) - 3))))) ∧
    to_string ((5 : Int) - 3) = "2" ∧ to_string ((3 : Int) - 5) = "-2" :=
  ⟨⟨by decide, by decide, by decide⟩,
    fold_subtraction_swaps_cancel 5 3 (by decide) (by decide) (by decide), by decide, by decide⟩

/-- C35: on every token sequence that ends in an `eol` token, `isValidBinop` returns; it
returns true when the sequence has no `binop`; and when `b` is its first `binop`, a token `x`
follows `b` and the result is true exactly when `x` is a `variable`, a `number` or an
`lparen`, whatever the tokens after `x` are. -/
theorem isValidBinop_first_only (toks : List Token) (e : Token) (he : e.type_ = eol) :
    (∃ v, isValidBinop (toks ++ [e]) = some v) ∧
      ((∀ t ∈ toks, t.type_ ≠ binop) → isValidBinop (toks ++ [e]) = some true) ∧
      (∀ (pre tail : List Token) (b : Token), toks = pre ++ b :: tail →
        (∀ t ∈ pre, t.type_ ≠ binop) → b.type_ = binop →
        ∃ x rest, tail ++ [e] = x :: rest ∧
          isValidBinop (toks ++ [e])
            = some (if x.type_ = .variable ∨ x.type_ = number ∨ x.type_ = lparen
                then true else false)) := by
  have hne : e.type_ ≠ binop := by rw [he]; decide
  refine ⟨isValidBinop_total toks e hne, ?_, ?_⟩
  · intro h
    apply isValidBinop_none_present
    intro t ht
    rcases List.mem_append.mp ht with ht | ht
    · exact h t ht
    · simp only [List.mem_singleton] at ht
      subst ht
      exact hne
  · intro pre tail b htoks hpre hb
    obtain ⟨x, rest, hx⟩ : ∃ x rest, tail ++ [e] = x :: rest := by
      cases tail with
      | nil => exact ⟨e, [], rfl⟩
      | cons u us => exact ⟨u, us ++ [e], rfl⟩
    refine ⟨x, rest, hx, ?_⟩
    have hl : toks ++ [e] = pre ++ b :: x :: rest := by
      rw [htoks, List.append_assoc, List.cons_append, hx]
    rw [hl]
    exact isValidBinop_first pre rest b x hpre hb

/-- C35, witness: on the line `1+2+` the first `+` is followed by the number `2`, and
`isValidBinop` returns true although the second `+` is followed by the end of the line. -/
theorem isValidBinop_first_only_witness :
    eolToken.type_ = eol ∧
      [numberToken "1", BinOp.add.token, numberToken "2", BinOp.add.token] ++ [eolToken]
        = trailingOperatorLine ∧
      isValidBinop trailingOperatorLine = some true ∧
      ∃ x rest, [numberToken "2", BinOp.add.token] ++ [eolToken] = x :: rest ∧
        isValidBinop
            ([numberToken "1", BinOp.add.token, numberToken "2", BinOp.add.token] ++ [eolToken])
          = some (if x.type_ = .variable ∨ x.type_ = number ∨ x.type_ = lparen
              then true else false) :=
  ⟨rfl, rfl, by decide,
    (isValidBinop_first_only
      [numberToken "1", BinOp.add.token, numberToken "2", BinOp.add.token] eolToken rfl).2.2
      [numberToken "1"] [numberToken "2", BinOp.add.token] BinOp.add.token rfl
      (by decide) rfl⟩

theorem simplify_eq_fold_substituteOnce (t : Node) (s : Variables) (ht : t ≠ Node.null)
    (hb : ∀ v ∈ t.variables, ∃ a, s.find v = some a ∧ a ≠ Node.null) :
    simplify t s = (traverseAndSimplifyHelper (substituteOnce s t)).map (fun r => (r, s)) := by
  simp [simplify, copyTree_of_ne_null t ht, fillVariablesHelper_eq_substituteOnce t s hb]

/-- C8: for every well-formed tree `t` and every map `s` that binds every variable occurring
in `t` to a tree, the copy that `simplify` works on equals `t`; the substitution pass of the
code over it returns the single substitution pass of the specification, and the map `s`
itself; `simplify t s` is the folding pass of the code applied to that substituted tree,
paired with `s`; when the trees bound in `s` are well-formed, `simplify t s` is the constant
folding of the specification applied to the substituted tree, whenever that is defined; and
every result of `simplify t s` carries the map `s`. The tree `t` is an argument that is only
read. -/
theorem simplify_is_fold_of_substitution (t : Node) (s : Variables) (hwf : t.WellFormed)
    (hb : ∀ v ∈ t.variables, ∃ a, s.find v = some a ∧ a ≠ Node.null) :
    copyTree t = some t ∧
      fillVariablesHelper t s = some (substituteOnce s t, s) ∧
      simplify t s = (traverseAndSimplifyHelper (substituteOnce s t)).map (fun r => (r, s)) ∧
      ((∀ v ∈ t.variables, ∀ a, s.find v = some a → a.WellFormed) →
        ∀ r, (substituteOnce s t).foldSpec = some r → simplify t s = some (r, s)) ∧
      (∀ r s1, simplify t s = some (r, s1) → s1 = s) := by
  have ht : t ≠ Node.null := wellFormed_ne_null t hwf
  have hs := simplify_eq_fold_substituteOnce t s ht hb
  refine ⟨copyTree_of_ne_null t ht, fillVariablesHelper_eq_substituteOnce t s hb, hs, ?_, ?_⟩
  · intro hw r hr
    have hsub : (substituteOnce s t).WellFormed :=
      substituteOnce_wellFormed t s hwf (fun v hv => by
        obtain ⟨a, ha, _⟩ := hb v hv
        exact ⟨a, ha, hw v hv a ha⟩)
    rw [hs, traverse_refines_foldSpec _ hsub r hr]
    rfl
  · intro r s1 h
    exact simplify_map t s s1 r h

/-- C8, witness: with `x` bound to the tree of `2*3`, the tree of `x+(1+2)` is substituted to
the tree of `2*3+(1+2)` and folded to the leaf `9`; the map is handed back as it was. -/
theorem simplify_is_fold_of_substitution_witness :
    foldSampleTree.WellFormed ∧
      (∀ v ∈ foldSampleTree.variables, ∃ a, productStore.find v = some a ∧ a ≠ Node.null) ∧
      substituteOnce productStore foldSampleTree
        = Node.mk BinOp.add.token
            (Node.mk BinOp.add.token (Node.leaf (numberToken "2")) (Node.leaf (numberToken "1")))
            (Node.mk BinOp.mul.token (Node.leaf (numberToken "3"))
              (Node.leaf (numberToken "2"))) ∧
      fillVariablesHelper foldSampleTree productStore
        = some (substituteOnce productStore foldSampleTree, productStore) ∧
      simplify foldSampleTree productStore = some (Node.leaf (numberToken "9"), productStore) :=
  have hwf : foldSampleTree.WellFormed :=
    Or.inl ⟨Or.inl ⟨BinOp.add, rfl⟩,
      Or.inl ⟨Or.inl ⟨BinOp.add, rfl⟩, Or.inr ⟨Or.inl rfl, rfl, rfl⟩,
        Or.inr ⟨Or.inl rfl, rfl, rfl⟩⟩,
      Or.inr ⟨Or.inr rfl, rfl, rfl⟩⟩
  have hb : ∀ v ∈ foldSampleTree.variables,
      ∃ a, productStore.find v = some a ∧ a ≠ Node.null := by
    intro v hv
    have hx : v = "x" := by
      revert hv
      simp [foldSampleTree, Node.variables, Node.leaf, isVariable, BinOp.token]
    subst hx
    exact ⟨_, rfl, by simp⟩
  have hw : ∀ v ∈ foldSampleTree.variables, ∀ a, productStore.find v = some a →
      a.WellFormed := by
    intro v hv a ha
    have hx : v = "x" := by
      revert hv
      simp [foldSampleTree, Node.variables, Node.leaf, isVariable, BinOp.token]
    subst hx
    have e : a = Node.mk BinOp.mul.token (Node.leaf (numberToken "3"))
        (Node.leaf (numberToken "2")) := by
      have h2 : productStore.find "x" = some (Node.mk BinOp.mul.token
          (Node.leaf (numberToken "3")) (Node.leaf (numberToken "2"))) := rfl
      rw [h2] at ha
      injection ha with ha
      exact ha.symm
    subst e
    exact Or.inl ⟨Or.inl ⟨BinOp.mul, rfl⟩, Or.inr ⟨Or.inl rfl, rfl, rfl⟩,
      Or.inr ⟨Or.inl rfl, rfl, rfl⟩⟩
  ⟨hwf, hb, by decide,
    (simplify_is_fold_of_substitution foldSampleTree productStore hwf hb).2.1,
    (simplify_is_fold_of_substitution foldSampleTree productStore hwf hb).2.2.2.1 hw _
      (by decide)⟩

/-- C30, counterexample: the line `3000000000+0` is well-formed and the code builds for it
the tree `+` over the leaves `0` and `3000000000`, which is well-formed and has no variable;
`stoi` has no result on the text `3000000000` (it throws), so the folding pass has no result
on the tree and does not fold it to a number leaf. -/
theorem traverseAndSimplify_literal_counterexample :
    bigSumExpr.WellFormed ∧
      (convertPostfix (exprLine bigSumExpr)).bind constructTree = some bigSumExpr.toTree ∧
      bigSumExpr.toTree
        = Node.mk BinOp.add.token (Node.leaf (numberToken "0"))
            (Node.leaf (numberToken "3000000000")) ∧
      bigSumExpr.toTree.WellFormed ∧ bigSumExpr.toTree.hasVariable = false ∧
      stoi "3000000000" = none ∧ traverseAndSimplifyHelper bigSumExpr.toTree = none :=
  ⟨by decide, by decide, by decide, bigSumExpr.toTree_wellFormed, by decide, by decide,
    by decide⟩

theorem asInt_inRange (n v : Int) (h : asInt n = some v) : INT_MIN ≤ v ∧ v ≤ INT_MAX := by
  unfold asInt at h
  by_cases hr : INT_MIN ≤ n ∧ n ≤ INT_MAX
  · rw [if_pos hr] at h
    injection h with h
    rw [← h]
    exact hr
  · rw [if_neg hr] at h
    cases h

theorem powInt_inRange (a b v : Int) (h : powInt a b = some v) : INT_MIN ≤ v ∧ v ≤ INT_MAX := by
  unfold powInt at h
  split at h
  · exact asInt_inRange _ v h
  · split at h
    · cases h
    · split at h
      · injection h with h; subst h; decide
      · split at h
        · injection h with h
          subst h
          split <;> decide
        · injection h with h; subst h; decide

/-- Every result of `calc` is the text of an `int`. -/
theorem calc_result_int (x op y s : String) (h : calc_ x op y = some s) :
    ∃ v, (INT_MIN ≤ v ∧ v ≤ INT_MAX) ∧ s = to_string v := by
  unfold calc_ at h
  cases hx : stoi x with
  | none => simp [hx] at h
  | some r =>
    cases hy : stoi y with
    | none => simp [hx, hy] at h
    | some l =>
      simp only [hx, hy, Option.map_eq_some'] at h
      obtain ⟨v, hv, hs⟩ := h
      refine ⟨v, ?_, hs.symm⟩
      split at hv
      · exact asInt_inRange _ v hv
      · split at hv
        · exact asInt_inRange _ v hv
        · split at hv
          · exact asInt_inRange _ v hv
          · split at hv
            · split at hv
              · cases hv
              · exact asInt_inRange _ v hv
            · exact powInt_inRange _ _ v hv

/-- The text of an `int` is not the text of a number outside the range of `int`. -/
theorem to_string_ne_of_not_inRange (v n : Int) (hv : INT_MIN ≤ v ∧ v ≤ INT_MAX)
    (hn : stoi (to_string n) = none) : to_string v ≠ to_string n := by
  intro h
  have := stoi_to_string v hv
  rw [h, hn] at this
  cases this

/-- The fold of an operator node over two number leaves, when it has a result, is the leaf
of the text of an `int`. -/
theorem traverse_number_leaves_int (tok : Token) (x y : String) (r : Node)
    (hop : (isOperator tok || isPower tok) = true)
    (h : traverseAndSimplifyHelper
      (Node.mk tok (Node.leaf (numberToken x)) (Node.leaf (numberToken y))) = some r) :
    ∃ v, (INT_MIN ≤ v ∧ v ≤ INT_MAX) ∧ r = Node.leaf (numberToken (to_string v)) := by
  have hl : traverseAndSimplifyHelper (Node.leaf (numberToken x))
      = some (Node.leaf (numberToken x)) := by
    simp [traverseAndSimplifyHelper, Node.leaf, isOperator, isPower]
  have hr : traverseAndSimplifyHelper (Node.leaf (numberToken y))
      = some (Node.leaf (numberToken y)) := by
    simp [traverseAndSimplifyHelper, Node.leaf, isOperator, isPower]
  rw [traverse_fold tok _ _ x y hop hl hr] at h
  cases hc : calc_ x tok.value_ y with
  | none => simp [hc] at h
  | some s =>
    simp only [hc, Option.map_some', Option.some.injEq] at h
    obtain ⟨v, hv, hs⟩ := calc_result_int x tok.value_ y s hc
    exact ⟨v, hv, by rw [← h, hs]⟩

/-- C34, counterexample: `a = 2147483647` and `b = -1` are `int`s and the tree of `a - b` is
built, but `a - b` is `2147483648`, which is not an `int`: every result of `calc` is the text
of an `int`, no `int` has the text of `a - b`, and so the fold of the tree is not the number
leaf `a - b`, whatever the subtraction that overflows leaves in its `int`. -/
theorem fold_subtraction_no_int_counterexample :
    (INT_MIN ≤ (2147483647 : Int) ∧ (2147483647 : Int) ≤ INT_MAX) ∧
      (INT_MIN ≤ (-1 : Int) ∧ (-1 : Int) ≤ INT_MAX) ∧
      ¬ (INT_MIN ≤ (2147483647 : Int) - (-1) ∧ (2147483647 : Int) - (-1) ≤ INT_MAX) ∧
      constructTree [numberToken (to_string 2147483647), numberToken (to_string (-1)),
          BinOp.sub.token]
        = some (Node.mk BinOp.sub.token (Node.leaf (numberToken (to_string (-1))))
            (Node.leaf (numberToken (to_string 2147483647)))) ∧
      (∀ x op y s, calc_ x op y = some s →
        ∃ v, (INT_MIN ≤ v ∧ v ≤ INT_MAX) ∧ s = to_string v) ∧
      (∀ v : Int, INT_MIN ≤ v ∧ v ≤ INT_MAX →
        to_string v ≠ to_string ((2147483647 : Int) - (-1))) ∧
      traverseAndSimplifyHelper
          (Node.mk BinOp.sub.token (Node.leaf (numberToken (to_string (-1))))
            (Node.leaf (numberToken (to_string 2147483647))))
        ≠ some (Node.leaf (numberToken (to_string ((2147483647 : Int) - (-1))))) := by
  have hne : ∀ v : Int, INT_MIN ≤ v ∧ v ≤ INT_MAX →
      to_string v ≠ to_string ((2147483647 : Int) - (-1)) :=
    fun v hv => to_string_ne_of_not_inRange v _ hv (by decide)
  refine ⟨by decide, by decide, by decide, by decide, calc_result_int, hne, ?_⟩
  intro h
  obtain ⟨v, hv, hr⟩ := traverse_number_leaves_int BinOp.sub.token _ _ _ (by decide) h
  have : to_string ((2147483647 : Int) - (-1)) = to_string v := by
    simpa [Node.leaf, numberToken] using hr
  exact hne v hv this.symm

end Calc
